import Mathlib

/-!
Verification of the persistent song-queue engine of `mdk3` (package `queue`).

The badger key-value store is embedded as an explicit record: the queue
records (key = slot id), the head pointer, the slug index and the state of
the id sequence.  Each transactional operation of `queue_tx.go` is
translated into a pure function on this state.  Strings that the code
inspects byte by byte (slugs and slug candidates) are modelled as their
byte sequences.  `time.Time` values only matter to the transactional
layer through `IsZero`, so timestamps are carried as `Int` with `0` for the
zero time (`time.Now()` is never the zero time).  The binary record codec
(`QueuedSong.MarshalBinary`/`UnmarshalBinary`) is modelled separately, at
the byte level, further below.
-/

/-- Equality of `Except` results is decidable when it is on both sides. -/
instance {ε α : Type} [DecidableEq ε] [DecidableEq α] : DecidableEq (Except ε α)
  | .error e, .error f =>
    if h : e = f then isTrue (by rw [h])
    else isFalse (by intro hh; cases hh; exact h rfl)
  | .error _, .ok _ => isFalse (by intro h; cases h)
  | .ok _, .error _ => isFalse (by intro h; cases h)
  | .ok a, .ok b =>
    if h : a = b then isTrue (by rw [h])
    else isFalse (by intro hh; cases hh; exact h rfl)

namespace Queue

/-- Go strings that the queue code inspects byte by byte, as their byte
sequences. -/
abbrev GoStr := List Nat

/-- `NewSong` from `song.go`: the caller-supplied immutable payload. -/
structure NewSong where
  userID : String
  title : String
  songURL : String
  thumbnailURL : String
  duration : Int
deriving DecidableEq, Repr

/-- `QueuedSong` from `song.go`, at the level seen by the transactional
operations: payload plus slot id, slug, and the two timestamps.
A timestamp of `0` models Go's zero `time.Time` (`IsZero`). -/
structure QueuedSong where
  newSong : NewSong
  id : Nat
  slug : GoStr
  queuedAt : Int
  dequeuedAt : Int
deriving DecidableEq, Repr

/-- The queue-relevant contents of the badger store plus the id sequence:
song records keyed by slot id (kept sorted by key, mirroring badger's
ordered key space), the head pointer record (`none` models both an absent
head record and the `headNilID = -1` sentinel, which `headID` does not
distinguish), the slug index, and the next value of the id sequence. -/
structure Store where
  songs : List (Nat × QueuedSong)
  head : Option Nat
  slugIdx : List (GoStr × Nat)
  nextSeq : Nat
deriving DecidableEq, Repr

/-- The error values of `queue_tx.go` (`ErrSongNotFound`, `ErrQueueEmpty`,
`ErrMoveOutOfBounds`, `ErrSongDequeued`), plus a raw badger
`ErrKeyNotFound` propagated undecorated, the `strconv.Atoi` failure
surfaced by `indexSlugFindNonDuplicate`, and a marker for a Go runtime
panic (nil-item dereference in the iterator). -/
inductive QErr
  | songNotFound
  | queueEmpty
  | moveOutOfBounds
  | songDequeued
  | keyNotFound
  | parseFailed
  | panicked
deriving DecidableEq, Repr

/-- Point lookup in an association list (badger `Get`). -/
def getEntry {κ β : Type} [DecidableEq κ] : List (κ × β) → κ → Option β
  | [], _ => none
  | e :: rest, k => if e.1 = k then some e.2 else getEntry rest k

/-- Replace the payload of an entry by the value an update list assigns to
its key, if any. -/
def repFn {κ β : Type} [DecidableEq κ] (W : List (κ × β)) (e : κ × β) : κ × β :=
  match getEntry W e.1 with
  | some v => (e.1, v)
  | none => e

/-- Badger `Set` on the sorted song-record range: replace the value at an
existing key or insert the key at its sorted position. -/
def putEntry {β : Type} : List (Nat × β) → Nat → β → List (Nat × β)
  | [], k, v => [(k, v)]
  | e :: rest, k, v =>
    if k < e.1 then (k, v) :: e :: rest
    else if k = e.1 then (k, v) :: rest
    else e :: putEntry rest k v

/-- Badger `Delete`: remove the entries at a key. -/
def delEntry {κ β : Type} [DecidableEq κ] : List (κ × β) → κ → List (κ × β)
  | [], _ => []
  | e :: rest, k => if e.1 = k then delEntry rest k else e :: delEntry rest k

/-- Badger `Set` on the slug-index range.  The slug index is only ever
read by point lookup and by order-independent scans (maximum and count),
so the entry order in this list is irrelevant; a fresh key is appended. -/
def putSlug {β : Type} : List (GoStr × β) → GoStr → β → List (GoStr × β)
  | [], sl, v => [(sl, v)]
  | e :: rest, sl, v => if e.1 = sl then (sl, v) :: rest else e :: putSlug rest sl v

/-- Forward song iterator positioned by `seekID k`: the records whose key
is at least `k`, in ascending key order (`songs` is kept sorted). -/
def fwdFrom (songs : List (Nat × QueuedSong)) (k : Nat) : List (Nat × QueuedSong) :=
  songs.filter (fun e => k ≤ e.1)

/-- Reverse song iterator positioned by `seekID k`: the records whose key
is at most `k`, in descending key order. -/
def revFrom (songs : List (Nat × QueuedSong)) (k : Nat) : List (Nat × QueuedSong) :=
  (songs.filter (fun e => e.1 ≤ k)).reverse

/-- The decimal digits of a natural number as bytes, as produced by
`fmt.Sprintf` with `%d` for a non-negative value. -/
def natDecimal (n : Nat) : GoStr :=
  if _h : n < 10 then [48 + n]
  else natDecimal (n / 10) ++ [48 + n % 10]
  termination_by n
  decreasing_by exact Nat.div_lt_self (by omega) (by omega)

/-- `fmt.Sprintf("%d", i)` for a Go int (45 is the byte of a dash). -/
def goItoa (i : Int) : GoStr :=
  if i < 0 then 45 :: natDecimal (-i).toNat else natDecimal i.toNat

/-- The numeric value of a decimal digit byte, if it is one. -/
def digitVal (c : Nat) : Option Nat :=
  if 48 ≤ c ∧ c ≤ 57 then some (c - 48) else none

/-- Accumulate the value of a digit string; `none` on a non-digit. -/
def digitsValAux (acc : Nat) : GoStr → Option Nat
  | [] => some acc
  | c :: cs =>
    match digitVal c with
    | none => none
    | some d => digitsValAux (acc * 10 + d) cs

/-- `strconv.Atoi`: optional sign (bytes 45 and 43), then a non-empty run
of decimal digits, failing on anything else and on values outside the
int64 range. -/
def goAtoi (cs : GoStr) : Option Int :=
  let signed : Bool × GoStr :=
    match cs with
    | [] => (false, [])
    | c :: rest =>
      if c = 45 then (true, rest) else if c = 43 then (false, rest) else (false, cs)
  match signed.2 with
  | [] => none
  | _ =>
    match digitsValAux 0 signed.2 with
    | none => none
    | some v =>
      let x : Int := if signed.1 then -(v : Int) else (v : Int)
      if x < -(2 ^ 63 : Int) ∨ (2 ^ 63 : Int) ≤ x then none else some x

/-- The bytes after the first dash, if any.  `bytes.IndexByte(k, '-')` in
`indexSlugFindNonDuplicate` runs over the full index key, but the leading
record-type tag byte is not a dash, so it is the first dash of the slug
itself that is found. -/
def afterFirstDash : GoStr → Option GoStr
  | [] => none
  | c :: rest => if c = 45 then some rest else afterFirstDash rest

/-- The scan loop of `indexSlugFindNonDuplicate`: over every slug-index
key having the candidate as a prefix, count the matches and take the
maximum of the numeric suffixes after the first dash; an unparsable
suffix aborts with the `Atoi` error. -/
def scanSlugs (cand : GoStr) : List (GoStr × Nat) → Int → Nat → Except QErr (Int × Nat)
  | [], maxD, cnt => .ok (maxD, cnt)
  | (sl, _) :: rest, maxD, cnt =>
    if cand.isPrefixOf sl then
      match afterFirstDash sl with
      | none => scanSlugs cand rest maxD (cnt + 1)
      | some suf =>
        match goAtoi suf with
        | none => .error .parseFailed
        | some n => scanSlugs cand rest (if n > maxD then n else maxD) (cnt + 1)
    else scanSlugs cand rest maxD cnt

/-- `QueueTx.indexSlugFindNonDuplicate`: scan the index with the candidate
as prefix; return the candidate bare when nothing matched, otherwise
append `-(max+1)`; record the chosen slug in the index pointing at `id`. -/
def indexSlugFindNonDuplicate (s : Store) (slug : GoStr) (id : Nat) :
    Except QErr (GoStr × Store) :=
  match scanSlugs slug s.slugIdx 0 0 with
  | .error e => .error e
  | .ok (maxSlugDedupe, numberDuplicates) =>
    let deduplicatedSlug :=
      if numberDuplicates = 0 then slug
      else slug ++ 45 :: goItoa (maxSlugDedupe + 1)
    .ok (deduplicatedSlug,
         { s with slugIdx := putSlug s.slugIdx deduplicatedSlug id })

/-- `QueueTx.headID` collapses an absent head record and the stored
sentinel to the same answer; `Store.head = none` models both. -/
def headID (s : Store) : Option Nat := s.head

/-- `QueueTx.checkHead`: set the head to `id` if it is unset. -/
def checkHead (s : Store) (id : Nat) : Store :=
  match s.head with
  | none => { s with head := some id }
  | some _ => s

/-- `QueueTx.putSong`: allocate the next sequence id, deduplicate the slug
candidate, and write the record (queued-at and dequeued-at left at the
zero time).  The sequence advances even when slug indexing fails. -/
def putSong (s : Store) (song : NewSong) (slugCandidate : GoStr) :
    Except QErr (Nat × Store) :=
  let id := s.nextSeq
  let s1 : Store := { s with nextSeq := s.nextSeq + 1 }
  match indexSlugFindNonDuplicate s1 slugCandidate id with
  | .error e => .error e
  | .ok (slug, s2) =>
    let queuedSong : QueuedSong :=
      { newSong := song, id := id, slug := slug, queuedAt := 0, dequeuedAt := 0 }
    .ok (id, { s2 with songs := putEntry s2.songs id queuedSong })

/-- `QueueTx.Enqueue`: `putSong` then `checkHead`.  The slug candidate
drawn by `randomSlug()` is passed in as a parameter. -/
def enqueue (s : Store) (song : NewSong) (slugCandidate : GoStr) :
    Except QErr (Nat × Store) :=
  match putSong s song slugCandidate with
  | .error e => .error e
  | .ok (id, s1) => .ok (id, checkHead s1 id)

/-- `QueueTx.headSong`: the record at the head id; `ErrQueueEmpty` when the
head is the sentinel; a missing record surfaces the raw store error. -/
def headSong (s : Store) : Except QErr QueuedSong :=
  match s.head with
  | none => .error .queueEmpty
  | some h =>
    match getEntry s.songs h with
    | none => .error .keyNotFound
    | some r => .ok r

/-- `QueueTx.updateHead`: seek to `head`, advance once, and store the key
found there, or the sentinel when the iterator is exhausted. -/
def updateHead (s : Store) (head : Nat) : Store :=
  match (fwdFrom s.songs head).get? 1 with
  | some e => { s with head := some e.1 }
  | none => { s with head := none }

/-- `QueueTx.clearSlugIndex`. -/
def clearSlugIndex (s : Store) (slug : GoStr) : Store :=
  { s with slugIdx := delEntry s.slugIdx slug }

/-- `QueueTx.Dequeue` with `time.Now()` passed in as `now`: read the head
song, advance the head past it, clear its slug-index entry, stamp its
dequeued-at, and write the record back under the same key. -/
def dequeue (s : Store) (now : Int) : Except QErr (QueuedSong × Store) :=
  match headSong s with
  | .error e => .error e
  | .ok hs =>
    let s1 := updateHead s hs.id
    let s2 := clearSlugIndex s1 hs.slug
    let hs1 : QueuedSong := { hs with dequeuedAt := now }
    .ok (hs1, { s2 with songs := putEntry s2.songs hs.id hs1 })

/-- `QueueTx.Peek`. -/
def peek (s : Store) : Except QErr QueuedSong :=
  headSong s

/-- `QueueTx.FindByID`: point lookup, `ErrSongNotFound` when absent. -/
def findByID (s : Store) (id : Nat) : Except QErr QueuedSong :=
  match getEntry s.songs id with
  | none => .error .songNotFound
  | some r => .ok r

/-- `QueueTx.FindBySlug`: resolve through the slug index, then `FindByID`. -/
def findBySlug (s : Store) (slug : GoStr) : Except QErr QueuedSong :=
  match getEntry s.slugIdx slug with
  | none => .error .songNotFound
  | some id => findByID s id

/-- `QueueTx.Remove`: look the song up, clear its slug-index entry while
it is still pending, advance the head if it pointed here, then delete. -/
def remove (s : Store) (id : Nat) : Except QErr Store :=
  match getEntry s.songs id with
  | none => .error .songNotFound
  | some song =>
    let s1 := if song.dequeuedAt = 0 then clearSlugIndex s song.slug else s
    let s2 := if s1.head = some id then updateHead s1 id else s1
    .ok { s2 with songs := delEntry s2.songs id }

/-- `QueueTx.Update`: rewrite the payload in place, keeping id, slug and
both timestamps. -/
def update (s : Store) (id : Nat) (song : NewSong) : Except QErr Store :=
  match getEntry s.songs id with
  | none => .error .songNotFound
  | some oldSong =>
    .ok { s with songs := putEntry s.songs id { oldSong with newSong := song } }

/-- `QueueTx.Count`. -/
def count (s : Store) : Nat :=
  match s.head with
  | none => 0
  | some h => (fwdFrom s.songs h).length

/-- `QueueTx.Empty`. -/
def emptyQueue (s : Store) : Bool :=
  s.head = none

/-- Outcome of a Go call that may end in a runtime panic instead of
returning. -/
inductive GoResult (α : Type)
  | ok (a : α)
  | panicked
deriving DecidableEq, Repr

/-- The collection loop of `QueueTx.List`. -/
def listLoop : List (Nat × QueuedSong) → Int → Int → List QueuedSong
  | [], _, _ => []
  | e :: rest, offset, limit =>
    if offset > 0 then listLoop rest (offset - 1) limit
    else if limit = 0 then []
    else e.2 :: listLoop rest offset (limit - 1)

/-- `QueueTx.List`: empty-queue short-circuit, then
`make([]QueuedSong, 0, min(25, limit))` — which panics on a negative
capacity — then the collection loop from the head. -/
def list (s : Store) (offset limit : Int) : GoResult (List QueuedSong) :=
  match s.head with
  | none => .ok []
  | some h =>
    if min (25 : Int) limit < 0 then .panicked
    else .ok (listLoop (fwdFrom s.songs h) offset limit)

/-- The loop of `QueueTx.distanceFromHeadByID`: position of `id` in the
forward iteration from the head. -/
def distLoop (id : Nat) : List (Nat × QueuedSong) → Int → Except QErr Int
  | [], _ => .error .songNotFound
  | e :: rest, distance =>
    if e.1 = id then .ok distance else distLoop id rest (distance + 1)

/-- `QueueTx.distanceFromHeadByID`. -/
def distanceFromHeadByID (s : Store) (id : Nat) : Except QErr Int :=
  match s.head with
  | none => .error .songNotFound
  | some h => distLoop id (fwdFrom s.songs h) 0

/-- `QueueTx.idRelativeToHead`: walk `distance` steps from the head, in
reverse for a negative distance.  Stepping past the end fails with
`ErrMoveOutOfBounds`; reading the key of an iterator that was already
exhausted at the seek (possible only from a corrupt head) dereferences a
nil item in Go, modelled as `panicked`. -/
def idRelativeToHead (s : Store) (distance : Int) : Except QErr Nat :=
  match s.head with
  | none => .error .songNotFound
  | some h =>
    let l := if distance < 0 then revFrom s.songs h else fwdFrom s.songs h
    match l.get? distance.natAbs with
    | some e => .ok e.1
    | none => if l.isEmpty then
        (if distance.natAbs = 0 then .error .panicked else .error .moveOutOfBounds)
      else .error .moveOutOfBounds

/-- The shift loop of `moveWithoutBoundCheck`: each visited slot receives
the previously carried record (re-keyed to that slot), stopping after the
slot `id` itself has been overwritten. -/
def shiftLoop (id : Nat) (lastSong : QueuedSong) :
    List (Nat × QueuedSong) → List (Nat × QueuedSong)
  | [] => []
  | (k, nextSong) :: rest =>
    (k, { lastSong with id := k }) ::
      (if k = id then [] else shiftLoop id nextSong rest)

/-- The shift loop once the stop key is known to come: each slot receives
the record carried from the previous slot, re-keyed. -/
def shiftWrites (lastSong : QueuedSong) :
    List (Nat × QueuedSong) → List (Nat × QueuedSong)
  | [] => []
  | (k, nextSong) :: rest => (k, { lastSong with id := k }) :: shiftWrites nextSong rest

/-- Pair a key list with a payload list positionally, rewriting each
record's id field to its key; stops at the shorter list. -/
def reKey : List Nat → List QueuedSong → List (Nat × QueuedSong)
  | k :: ks, v :: vs => (k, { v with id := k }) :: reKey ks vs
  | _, _ => []

/-- Apply the writes of the shift loop: each write stores the record under
its slot key and repoints the record's slug-index entry at that slot. -/
def applyWrites (s : Store) (writes : List (Nat × QueuedSong)) : Store :=
  writes.foldl
    (fun st w =>
      { st with
        songs := putEntry st.songs w.1 w.2
        slugIdx := putSlug st.slugIdx w.2.slug w.1 })
    s

/-- `QueueTx.moveWithoutBoundCheck`: open a forward or reverse iterator at
the target slot depending on the shift direction, run the shift loop until
the moved song's old slot is filled, then write the moved song into the
target slot and repoint its slug entry. -/
def moveWithoutBoundCheck (s : Store) (id idAtNewPos : Nat)
    (currentPosition newPosition : Int) : Except QErr Store :=
  if idAtNewPos = id then .ok s
  else
    match getEntry s.songs id with
    | none => .error .songNotFound
    | some currentSong =>
      let itList :=
        if currentPosition < newPosition then revFrom s.songs idAtNewPos
        else fwdFrom s.songs idAtNewPos
      match itList with
      | [] => .error .panicked
      | first :: rest =>
        let s1 := applyWrites s (shiftLoop id first.2 rest)
        let cur : QueuedSong := { currentSong with id := idAtNewPos }
        .ok { s1 with
              songs := putEntry s1.songs idAtNewPos cur
              slugIdx := putSlug s1.slugIdx cur.slug idAtNewPos }

/-- `QueueTx.Move`. -/
def move (s : Store) (id : Nat) (newPosition : Int) : Except QErr Store :=
  match distanceFromHeadByID s id with
  | .error e => .error e
  | .ok currentPosition =>
    if currentPosition = newPosition then .ok s
    else if currentPosition < 0 then .error .songDequeued
    else if newPosition < 0 then .error .moveOutOfBounds
    else
      match idRelativeToHead s newPosition with
      | .error e => .error e
      | .ok idAtNewPos =>
        moveWithoutBoundCheck s id idAtNewPos currentPosition newPosition

/-- The store of a freshly opened queue: no records, no head, no slug
index, sequence at zero. -/
def initialStore : Store :=
  { songs := [], head := none, slugIdx := [], nextSeq := 0 }

/-- Effect of an `Enqueue` transaction on the store: on success the
committed state; on failure the writes are discarded but the id sequence
(which badger manages outside the transaction) has still advanced. -/
def applyEnqueue (s : Store) (song : NewSong) (cand : GoStr) : Store :=
  match enqueue s song cand with
  | .ok (_, s1) => s1
  | .error _ => { s with nextSeq := s.nextSeq + 1 }

/-- Effect of a `Dequeue` transaction on the store. -/
def applyDequeue (s : Store) (now : Int) : Store :=
  match dequeue s now with
  | .ok (_, s1) => s1
  | .error _ => s

/-- Effect of a `Remove` transaction on the store. -/
def applyRemove (s : Store) (id : Nat) : Store :=
  match remove s id with
  | .ok s1 => s1
  | .error _ => s

/-- Effect of an `Update` transaction on the store. -/
def applyUpdate (s : Store) (id : Nat) (song : NewSong) : Store :=
  match update s id song with
  | .ok s1 => s1
  | .error _ => s

/-- Effect of a `Move` transaction on the store. -/
def applyMove (s : Store) (id : Nat) (pos : Int) : Store :=
  match move s id pos with
  | .ok s1 => s1
  | .error _ => s

/-- The stores reachable from a fresh queue by committed transactions.
`time.Now()` never yields the zero time, hence `now ≠ 0`.
Modelled from the spec: the slug candidates drawn by `randomSlug()` come
from the embedded word list `slugs.json`, which is not among the sources;
the spec describes them as words from a fixed list that the index
deduplicates with a `-<n>` suffix, so candidates are modelled as
arbitrary dash-free byte strings (`45 ∉ cand`). -/
inductive Reachable : Store → Prop
  | init : Reachable initialStore
  | enq (s : Store) (song : NewSong) (cand : GoStr) (hcand : 45 ∉ cand) :
      Reachable s → Reachable (applyEnqueue s song cand)
  | deq (s : Store) (now : Int) (hnow : now ≠ 0) :
      Reachable s → Reachable (applyDequeue s now)
  | rem (s : Store) (id : Nat) :
      Reachable s → Reachable (applyRemove s id)
  | upd (s : Store) (id : Nat) (song : NewSong) :
      Reachable s → Reachable (applyUpdate s id song)
  | mov (s : Store) (id : Nat) (pos : Int) :
      Reachable s → Reachable (applyMove s id pos)

/-!
## The binary record codec

`QueuedSong.MarshalBinary`/`UnmarshalBinary` and their helpers
(`writeTime`, `timeUnmarshalSlice`, `writeStrings`, `readStrings`) are
modelled at the byte level: a Go byte slice is a `List Nat` of values
below 256, Go strings in the codec are their byte sequences.  `time.Time`
is modelled by its wall-clock data as serialized by the standard library's
`MarshalBinary`: seconds, nanoseconds, and the zone offset (`none` for
UTC).  The monotonic-clock reading, which `MarshalBinary` discards, and
the name of the location are outside the model.
-/

/-- `n` bytes of `v` in big-endian order (of `v` modulo `256 ^ n`). -/
def be : Nat → Nat → List Nat
  | 0, _ => []
  | n + 1, v => be n (v / 256) ++ [v % 256]

/-- The value of a big-endian byte string. -/
def beVal (bs : List Nat) : Nat :=
  bs.foldl (fun acc b => acc * 256 + b) 0

/-- A Go signed `w`-bit integer cast to its unsigned representation. -/
def intToUint (w : Nat) (x : Int) : Nat :=
  (x % ((2 : Int) ^ w)).toNat

/-- A `w`-bit unsigned value reinterpreted as a Go signed integer. -/
def uintToInt (w : Nat) (v : Nat) : Int :=
  if v < 2 ^ (w - 1) then (v : Int) else (v : Int) - (2 : Int) ^ w

/-- The wall-clock data of a `time.Time` as serialized by the standard
library: seconds and nanoseconds of its internal epoch, and the zone
offset in seconds east of UTC (`none` for the UTC location).  The zero
`time.Time` is `⟨0, 0, none⟩`. -/
structure GoTime where
  sec : Int
  nsec : Nat
  loc : Option Int
deriving DecidableEq, Repr

/-- The zero `time.Time`. -/
def zeroTime : GoTime := { sec := 0, nsec := 0, loc := none }

/-- An error or runtime panic surfaced while encoding or decoding. -/
inductive BinErr
  | goError (msg : String)
  | goPanic (msg : String)
deriving DecidableEq, Repr

/-- `time.Time.MarshalBinary`: version byte (2 when the zone offset is
not a whole number of minutes), 8 bytes of seconds, 4 of nanoseconds,
2 of the offset in minutes (`-1` for UTC), and for version 2 one byte of
leftover offset seconds.  Fails on a zone offset that does not fit the
encoding. -/
def timeMarshal (t : GoTime) : Except BinErr (List Nat) :=
  match t.loc with
  | none =>
    .ok ([1] ++ be 8 (intToUint 64 t.sec) ++ be 4 t.nsec ++ be 2 (intToUint 16 (-1)))
  | some offset =>
    if offset.tdiv 60 < -32768 ∨ offset.tdiv 60 = -1 ∨ offset.tdiv 60 > 32767 then
      .error (.goError "Time.MarshalBinary: unexpected zone offset")
    else if offset.tmod 60 ≠ 0 then
      .ok ([2] ++ be 8 (intToUint 64 t.sec) ++ be 4 t.nsec
        ++ be 2 (intToUint 16 (offset.tdiv 60)) ++ [intToUint 8 (offset.tmod 60)])
    else
      .ok ([1] ++ be 8 (intToUint 64 t.sec) ++ be 4 t.nsec
        ++ be 2 (intToUint 16 (offset.tdiv 60)))

/-- `time.Time.UnmarshalBinary` on a slice of exactly the right length
(as handed over by `timeUnmarshalSlice`).  The decoded location keeps
only the zone offset; an offset of exactly `-60` seconds denotes the UTC
location in the encoding. -/
def timeUnmarshal (data : List Nat) : Except BinErr GoTime :=
  match data with
  | [] => .error (.goError "Time.UnmarshalBinary: no data")
  | version :: buf =>
    if version ≠ 1 ∧ version ≠ 2 then
      .error (.goError "Time.UnmarshalBinary: unsupported version")
    else if buf.length ≠ (if version = 2 then 15 else 14) then
      .error (.goError "Time.UnmarshalBinary: invalid length")
    else
      let sec := uintToInt 64 (beVal (buf.take 8))
      let nsec := beVal ((buf.drop 8).take 4)
      let offsetMin := uintToInt 16 (beVal ((buf.drop 12).take 2))
      let offset := offsetMin * 60 +
        (if version = 2 then uintToInt 8 (beVal ((buf.drop 14).take 1)) else 0)
      .ok { sec := sec, nsec := nsec,
            loc := if offset = -60 then none else some offset }

/-- `QueuedSong` as seen by the binary codec: the same Go struct, with
its string fields as byte sequences and its timestamps as wall-clock

data. -/
structure BinSong where
  userID : List Nat
  title : List Nat
  songURL : List Nat
  thumbnailURL : List Nat
  duration : Int
  id : Int
  slug : List Nat
  queuedAt : GoTime
  dequeuedAt : GoTime
deriving DecidableEq, Repr

/-- `writeTime`: marshal a time into a zero-initialized 16-byte window
(a version-1 encoding is 15 bytes and leaves the last byte zero). -/
def writeTime (t : GoTime) : Except BinErr (List Nat) :=
  match timeMarshal t with
  | .error e => .error e
  | .ok tb => .ok (tb ++ List.replicate (16 - tb.length) 0)

/-- One field of `writeStrings`: 4-byte big-endian length (truncated to
32 bits by the `uint32` conversion), then the bytes. -/
def writeStr (s : List Nat) : List Nat :=
  be 4 s.length ++ s

/-- `QueuedSong.MarshalBinary`: fixed layout — 8 bytes id, two 16-byte
time windows, 8 bytes duration, then the five length-prefixed strings. -/
def marshalBinary (qs : BinSong) : Except BinErr (List Nat) :=
  match writeTime qs.queuedAt with
  | .error e => .error e
  | .ok qb =>
    match writeTime qs.dequeuedAt with
    | .error e => .error e
    | .ok dqb =>
      .ok (be 8 (intToUint 64 qs.id) ++ qb ++ dqb ++ be 8 (intToUint 64 qs.duration)
        ++ writeStr qs.userID ++ writeStr qs.title ++ writeStr qs.songURL
        ++ writeStr qs.thumbnailURL ++ writeStr qs.slug)

/-- `timeUnmarshalSlice`: pick 15 or 16 bytes according to the version
byte; an unknown version byte panics, as does slicing beyond the data. -/
def timeUnmarshalSlice (data : List Nat) : Except BinErr (List Nat) :=
  match data with
  | [] => .error (.goPanic "index out of range")
  | b :: _ =>
    if b = 1 then
      if data.length < 15 then .error (.goPanic "slice bounds out of range")
      else .ok (data.take 15)
    else if b = 2 then
      if data.length < 16 then .error (.goPanic "slice bounds out of range")
      else .ok (data.take 16)
    else .error (.goPanic "unknown time binary version")

/-- One field of `readStrings`: read the 4-byte length at `i`, then that
many bytes; out-of-range accesses panic. -/
def readStr (buf : List Nat) (i : Nat) : Except BinErr (List Nat × Nat) :=
  if buf.length < i + 4 then .error (.goPanic "index out of range")
  else
    let l := beVal ((buf.drop i).take 4)
    if buf.length < i + 4 + l then .error (.goPanic "slice bounds out of range")
    else .ok ((buf.drop (i + 4)).take l, i + 4 + l)

/-- `QueuedSong.UnmarshalBinary`. -/
def unmarshalBinary (data : List Nat) : Except BinErr BinSong :=
  if data.length < 8 then .error (.goPanic "index out of range")
  else
    match timeUnmarshalSlice (data.drop 8) with
    | .error e => .error e
    | .ok qsl =>
      match timeUnmarshal qsl with
      | .error e => .error e
      | .ok qAt =>
        match timeUnmarshalSlice (data.drop 24) with
        | .error e => .error e
        | .ok dqsl =>
          match timeUnmarshal dqsl with
          | .error e => .error e
          | .ok dqAt =>
            if data.length < 48 then .error (.goPanic "slice bounds out of range")
            else
              let dur := uintToInt 64 (beVal ((data.drop 40).take 8))
              let buf := data.drop 48
              match readStr buf 0 with
              | .error e => .error e
              | .ok (uid, i1) =>
                match readStr buf i1 with
                | .error e => .error e
                | .ok (ttl, i2) =>
                  match readStr buf i2 with
                  | .error e => .error e
                  | .ok (surl, i3) =>
                    match readStr buf i3 with
                    | .error e => .error e
                    | .ok (turl, i4) =>
                      match readStr buf i4 with
                      | .error e => .error e
                      | .ok (slg, _) =>
                        .ok { userID := uid, title := ttl, songURL := surl,
                              thumbnailURL := turl,
                              duration := dur,
                              id := uintToInt 64 (beVal (data.take 8)),
                              slug := slg, queuedAt := qAt, dequeuedAt := dqAt }

/-!
## Opening a store (`queue.go`)

`OpenQueue` and `checkVersion`, modelled over the piece of store state
they touch: the persisted version marker.  The running code's version
constant (`version uint32 = 0` in the source) is kept as a parameter so
that opening a store with a different code version is expressible; the
source's instantiation is `openQueue formatVersion`.
-/

/-- The `version` constant of `queue.go`. -/
def formatVersion : Nat := 0

/-- The version marker of a store (`none` before first open). -/
structure DB where
  storedVersion : Option Nat
deriving DecidableEq, Repr

/-- `ErrVersionMismatch`, with the expected and found versions. -/
inductive OpenErr
  | versionMismatch (expected got : Nat)
deriving DecidableEq, Repr

/-- `checkVersion`: read the marker, or write the running version on a
fresh store; returns the resulting version and store. -/
def checkVersion (codeVersion : Nat) (db : DB) : Nat × DB :=
  match db.storedVersion with
  | some v => (v, db)
  | none => (codeVersion, { db with storedVersion := some codeVersion })

/-- `OpenQueue`, reduced to its version gate: on a version mismatch the
open fails and no handle is produced; otherwise the (possibly newly
stamped) store backs the returned handle. -/
def openQueue (codeVersion : Nat) (db : DB) : Except OpenErr DB :=
  let r := checkVersion codeVersion db
  if r.1 ≠ codeVersion then .error (.versionMismatch codeVersion r.1)
  else .ok r.2

/-!
## Derived notions used by the statements
-/

/-- The keys of an association list. -/
def keysOf {κ β : Type} (l : List (κ × β)) : List κ :=
  l.map (·.1)

/-- The slot ids of the records whose dequeued-at is unset, in store
order — the spec's "pending" songs. -/
def pendingKeys (s : Store) : List Nat :=
  ((s.songs.filter (fun e => e.2.dequeuedAt = 0)).map (·.1))

/-- The records visited by a forward iteration from the head — the
queue order used by `Count`, `List` and `Move`. -/
def pendingFromHead (s : Store) : List (Nat × QueuedSong) :=
  match s.head with
  | none => []
  | some h => fwdFrom s.songs h

/-- Everything of a record except its id field: the payload, slug and
timestamps that `Move` relocates between slots. -/
def content (r : QueuedSong) : NewSong × GoStr × Int × Int :=
  (r.newSong, r.slug, r.queuedAt, r.dequeuedAt)

/-- Strictly increasing keys, the shape badger's ordered key space forces
on the modelled song range. -/
def SortedKeys {β : Type} (l : List (Nat × β)) : Prop :=
  List.Pairwise (fun a b => a.1 < b.1) l

/-- The invariant tying the store together; it holds in every reachable
store.  The head equals the smallest slot id of a pending record (`none`
when there is none) and splits the key space: at or above it every record
is pending, strictly below it none is.  The slug index is exactly one
entry per pending record, keyed by its slug and valued by its slot. -/
structure Inv (s : Store) : Prop where
  sorted : SortedKeys s.songs
  seqBound : ∀ e ∈ s.songs, e.1 < s.nextSeq
  idField : ∀ e ∈ s.songs, e.2.id = e.1
  queuedAtZero : ∀ e ∈ s.songs, e.2.queuedAt = 0
  headMem : ∀ h, s.head = some h → h ∈ keysOf s.songs
  headSplit : ∀ h, s.head = some h → ∀ e ∈ s.songs, (h ≤ e.1 ↔ e.2.dequeuedAt = 0)
  headNone : s.head = none → ∀ e ∈ s.songs, e.2.dequeuedAt ≠ 0
  slugNodup : (keysOf s.slugIdx).Nodup
  slugSound : ∀ e ∈ s.slugIdx, ∃ r, (e.2, r) ∈ s.songs ∧ r.dequeuedAt = 0 ∧ r.slug = e.1
  slugComplete : ∀ e ∈ s.songs, e.2.dequeuedAt = 0 → (e.2.slug, e.1) ∈ s.slugIdx

/-- Valid wall-clock data of a `time.Time`: nanoseconds fit their 32-bit
field (the real bound is `< 10 ^ 9`) and seconds fit int64. -/
def WfTime (t : GoTime) : Prop :=
  t.nsec < 2 ^ 32 ∧ -(2 ^ 63 : Int) ≤ t.sec ∧ t.sec < 2 ^ 63

instance (t : GoTime) : Decidable (WfTime t) := by unfold WfTime; infer_instance

/-- A `QueuedSong` value representable in Go whose string fields are
shorter than `2 ^ 32` bytes (so their `uint32` length prefixes are
exact). -/
def WfBin (qs : BinSong) : Prop :=
  -(2 ^ 63 : Int) ≤ qs.id ∧ qs.id < 2 ^ 63 ∧
  -(2 ^ 63 : Int) ≤ qs.duration ∧ qs.duration < 2 ^ 63 ∧
  WfTime qs.queuedAt ∧ WfTime qs.dequeuedAt ∧
  qs.userID.length < 2 ^ 32 ∧ qs.title.length < 2 ^ 32 ∧
  qs.songURL.length < 2 ^ 32 ∧ qs.thumbnailURL.length < 2 ^ 32 ∧
  qs.slug.length < 2 ^ 32

instance (qs : BinSong) : Decidable (WfBin qs) := by unfold WfBin; infer_instance

/-- Repeated `Dequeue` calls, one per timestamp, stopping at the first
failure: the returned songs and the final store. -/
def dequeueDrain : Store → List Int → List QueuedSong × Store
  | s, [] => ([], s)
  | s, now :: rest =>
    match dequeue s now with
    | .error _ => ([], s)
    | .ok (r, s1) =>
      let d := dequeueDrain s1 rest
      (r :: d.1, d.2)

/-- A sample payload for concrete executions. -/
def sampleSong : NewSong :=
  { userID := "u1", title := "t1", songURL := "su", thumbnailURL := "tu",
    duration := 100 }

/-- One song enqueued on a fresh queue. -/
def sampleStore1 : Store :=
  applyEnqueue initialStore sampleSong [97, 120]

/-- Two songs enqueued on a fresh queue. -/
def sampleStore2 : Store :=
  applyEnqueue sampleStore1 sampleSong [98, 121]

/-- Two songs enqueued, the first of them dequeued at time 1: slot 0
holds a dequeued record, slot 1 the single pending one. -/
def sampleStoreDq : Store :=
  applyDequeue sampleStore2 1

/-- A concrete `QueuedSong` with every field populated, one zone-offset
timestamp, an unset queued-at, and a multi-byte character in a string. -/
def c7wit : BinSong :=
  { userID := [117, 49], title := [116], songURL := [115, 117],
    thumbnailURL := [240, 159], duration := 100, id := 7,
    slug := [97, 45, 49], queuedAt := zeroTime,
    dequeuedAt := { sec := 63862000000, nsec := 123456789, loc := some (-21600) } }

/-- The encoding of `c7wit`. -/
def c7witBuf : List Nat :=
  [0, 0, 0, 0, 0, 0, 0, 7, 1, 0, 0, 0, 0, 0, 0, 0, 0, 0, 0, 0, 0, 255, 255, 0,
   1, 0, 0, 0, 14, 222, 120, 201, 128, 7, 91, 205, 21, 254, 152, 0, 0, 0, 0, 0,
   0, 0, 0, 100, 0, 0, 0, 2, 117, 49, 0, 0, 0, 1, 116, 0, 0, 0, 2, 115, 117,
   0, 0, 0, 2, 240, 159, 0, 0, 0, 3, 97, 45, 49]

/-- A `QueuedSong` whose user id is `2 ^ 32` zero bytes long: its length
prefix truncates to zero in the encoding. -/
def c7cex : BinSong :=
  { userID := List.replicate (2 ^ 32) 0, title := [], songURL := [],
    thumbnailURL := [], duration := 0, id := 0, slug := [],
    queuedAt := zeroTime, dequeuedAt := zeroTime }

/-- What decoding the encoding of `c7cex` actually produces. -/
def c7cexDecoded : BinSong :=
  { userID := [], title := [], songURL := [], thumbnailURL := [],
    duration := 0, id := 0, slug := [], queuedAt := zeroTime,
    dequeuedAt := zeroTime }

/-- The 16-byte `writeTime` window of the zero time. -/
def zeroWin : List Nat :=
  [1, 0, 0, 0, 0, 0, 0, 0, 0, 0, 0, 0, 0, 255, 255, 0]

/-- Eight zero bytes: the encoding of a zero id or duration. -/
def zero8 : List Nat :=
  [0, 0, 0, 0, 0, 0, 0, 0]

/-!
## Opening and version checking (claim C9)
-/

/-- C9: `OpenQueue` writes the format version marker on the first open of
a store; on any later open of a stamped store it fails with
`VersionMismatch` exactly when the stored version scalar differs from the
running code's version constant, returning no handle, and otherwise
returns the store unchanged.  In particular (scenario E) a store written
with version 0 opened by code expecting version 1 fails at open time. -/
theorem c9_version_gate (cv v : Nat) (db : DB) (hdb : db.storedVersion = some v) :
    openQueue cv { storedVersion := none } = .ok { storedVersion := some cv } ∧
    (openQueue cv db = .error (.versionMismatch cv v) ↔ v ≠ cv) ∧
    (v = cv → openQueue cv db = .ok db) ∧
    openQueue 1 { storedVersion := some 0 } = .error (.versionMismatch 1 0) := by
  obtain ⟨sv⟩ := db
  cases hdb
  refine ⟨by simp [openQueue, checkVersion], ?_, ?_, by decide⟩
  · by_cases h : v = cv <;> simp [openQueue, checkVersion, h]
  · intro h
    simp [openQueue, checkVersion, h]

/-- Witness for `c9_version_gate` at code version 1 over a store stamped
with version 0. -/
theorem c9_version_gate_witness :
    openQueue 1 { storedVersion := none } = .ok { storedVersion := some 1 } ∧
    (openQueue 1 { storedVersion := some 0 } = .error (.versionMismatch 1 0) ↔ 0 ≠ 1) ∧
    ((0 : Nat) = 1 → openQueue 1 { storedVersion := some 0 } = .ok { storedVersion := some 0 }) ∧
    openQueue 1 { storedVersion := some 0 } = .error (.versionMismatch 1 0) :=
  c9_version_gate 1 0 { storedVersion := some 0 } rfl

/-!
## Totality of `List` (claim C6)
-/

/-- With a non-negative limit the capacity handed to `make` is
non-negative and `List` returns without panicking, on every store. -/
theorem list_no_panic (s : Store) (offset limit : Int) (hlim : 0 ≤ limit) :
    ∃ out, list s offset limit = .ok out := by
  unfold list
  cases s.head with
  | none => exact ⟨[], rfl⟩
  | some h =>
    have : ¬ min (25 : Int) limit < 0 := by
      simp only [not_lt, le_min_iff]
      omega
    simp only [this, if_false]
    exact ⟨_, rfl⟩

/-- C6 counterexample: on a reachable, non-empty queue, `List` with
limit `-1` reaches `make([]QueuedSong, 0, min(25, limit))` with a
negative capacity and panics, so not every operation on every input
reports failure as an error value. -/
theorem c6_counterexample :
    Reachable sampleStore1 ∧ list sampleStore1 0 (-1) = .panicked :=
  ⟨Reachable.enq _ sampleSong [97, 120] (by decide) Reachable.init, by decide⟩

/-!
## The codec round-trip (claim C7)
-/

theorem be_length (n v : Nat) : (be n v).length = n := by
  induction n generalizing v with
  | zero => rfl
  | succ n ih => simp [be, ih]

theorem beVal_append_byte (l : List Nat) (b : Nat) :
    beVal (l ++ [b]) = beVal l * 256 + b := by
  simp [beVal, List.foldl_append]

theorem beVal_be (n v : Nat) : beVal (be n v) = v % 256 ^ n := by
  induction n generalizing v with
  | zero => simp [be, beVal, Nat.mod_one]
  | succ n ih =>
    rw [be, beVal_append_byte, ih, pow_succ]
    have h : v % (256 ^ n * 256) = v % 256 + 256 * (v / 256 % 256 ^ n) := by
      rw [Nat.mul_comm]; exact Nat.mod_mul
    omega

theorem beVal_singleton (b : Nat) : beVal [b] = b := by
  simp [beVal]

theorem intToUint_nonneg (w : Nat) (x : Int) : 0 ≤ x % ((2 : Int) ^ w) :=
  Int.emod_nonneg x (by positivity)

theorem intToUint_lt (w : Nat) (x : Int) : intToUint w x < 2 ^ w := by
  unfold intToUint
  have hpos : (0 : Int) < (2 : Int) ^ w := by positivity
  have h1 := Int.emod_lt_of_pos x hpos
  have h2 := intToUint_nonneg w x
  have h3 : ((x % (2 : Int) ^ w).toNat : Int) = x % (2 : Int) ^ w :=
    Int.toNat_of_nonneg h2
  have hcast : (((2 : Nat) ^ w : Nat) : Int) = (2 : Int) ^ w := by push_cast; ring
  omega

theorem uintToInt_intToUint_64 (x : Int)
    (h1 : -(2 ^ 63 : Int) ≤ x) (h2 : x < 2 ^ 63) :
    uintToInt 64 (intToUint 64 x) = x := by
  unfold uintToInt intToUint
  norm_num
  split <;> omega

theorem uintToInt_intToUint_16 (x : Int)
    (h1 : -(2 ^ 15 : Int) ≤ x) (h2 : x < 2 ^ 15) :
    uintToInt 16 (intToUint 16 x) = x := by
  unfold uintToInt intToUint
  norm_num
  split <;> omega

theorem uintToInt_intToUint_8 (x : Int)
    (h1 : -(2 ^ 7 : Int) ≤ x) (h2 : x < 2 ^ 7) :
    uintToInt 8 (intToUint 8 x) = x := by
  unfold uintToInt intToUint
  norm_num
  split <;> omega

theorem beVal_be8_int64 (x : Int) :
    beVal (be 8 (intToUint 64 x)) = intToUint 64 x := by
  rw [beVal_be]
  exact Nat.mod_eq_of_lt (by have := intToUint_lt 64 x; norm_num at this ⊢; omega)

theorem beVal_be2_int16 (x : Int) :
    beVal (be 2 (intToUint 16 x)) = intToUint 16 x := by
  rw [beVal_be]
  exact Nat.mod_eq_of_lt (by have := intToUint_lt 16 x; norm_num at this ⊢; omega)

theorem beVal_be4_nat (v : Nat) (h : v < 2 ^ 32) : beVal (be 4 v) = v := by
  rw [beVal_be]
  exact Nat.mod_eq_of_lt (by norm_num at h ⊢; omega)

/-- `tmod` negates with its dividend. -/
theorem tmod_neg_dividend (a b : Int) : (-a).tmod b = -(a.tmod b) := by
  rw [Int.tmod_def, Int.tmod_def, Int.neg_tdiv]
  ring

/-- Truncated remainder by 60 lies strictly between `-60` and `60`. -/
theorem tmod_sixty_bounds (a : Int) : -60 < a.tmod 60 ∧ a.tmod 60 < 60 := by
  rcases le_or_lt 0 a with h | h
  · have h1 := Int.tmod_nonneg 60 h
    have h2 := Int.tmod_lt_of_pos a (show (0 : Int) < 60 by norm_num)
    omega
  · have hneg : a = -(-a) := by ring
    rw [hneg, tmod_neg_dividend]
    have h1 := Int.tmod_nonneg (a := -a) 60 (by omega)
    have h2 := Int.tmod_lt_of_pos (-a) (show (0 : Int) < 60 by norm_num)
    omega

theorem timeMarshal_length (t : GoTime) (enc : List Nat)
    (henc : timeMarshal t = .ok enc) :
    enc.length = 15 ∨ enc.length = 16 := by
  obtain ⟨tsec, tnsec, tloc⟩ := t
  unfold timeMarshal at henc
  cases tloc with
  | none =>
    simp only at henc
    cases henc
    left; simp [be_length]
  | some offset =>
    simp only at henc
    by_cases hguard : offset.tdiv 60 < -32768 ∨ offset.tdiv 60 = -1 ∨ offset.tdiv 60 > 32767
    · rw [if_pos hguard] at henc; cases henc
    · rw [if_neg hguard] at henc
      by_cases hv2 : offset.tmod 60 ≠ 0
      · rw [if_pos hv2] at henc
        cases henc
        right; simp [be_length]
      · rw [if_neg hv2] at henc
        cases henc
        left; simp [be_length]

/-- Evaluation of `timeUnmarshal` on a version-1 layout. -/
theorem timeUnmarshal_v1 (b8 b4 b2 : List Nat)
    (h8 : b8.length = 8) (h4 : b4.length = 4) (h2 : b2.length = 2) :
    timeUnmarshal ((1 : Nat) :: (b8 ++ (b4 ++ b2))) =
      .ok { sec := uintToInt 64 (beVal b8), nsec := beVal b4,
            loc := if uintToInt 16 (beVal b2) * 60 = -60 then none
                   else some (uintToInt 16 (beVal b2) * 60) } := by
  have hD12 : (b8 ++ (b4 ++ b2)).drop 12 = b2 := by
    rw [show b8 ++ (b4 ++ b2) = (b8 ++ b4) ++ b2 by simp]
    exact List.drop_left' (by simp [h8, h4])
  simp only [timeUnmarshal]
  rw [List.take_left' h8, List.drop_left' h8, List.take_left' h4, hD12]
  have hT2 : b2.take 2 = b2 := by rw [← h2]; exact List.take_length b2
  rw [hT2]
  norm_num [h8, h4, h2]

/-- Evaluation of `timeUnmarshal` on a version-2 layout. -/
theorem timeUnmarshal_v2 (b8 b4 b2 : List Nat) (b1 : Nat)
    (h8 : b8.length = 8) (h4 : b4.length = 4) (h2 : b2.length = 2) :
    timeUnmarshal ((2 : Nat) :: (b8 ++ (b4 ++ (b2 ++ [b1])))) =
      .ok { sec := uintToInt 64 (beVal b8), nsec := beVal b4,
            loc := if uintToInt 16 (beVal b2) * 60 + uintToInt 8 b1 = -60 then none
                   else some (uintToInt 16 (beVal b2) * 60 + uintToInt 8 b1) } := by
  have hD12 : (b8 ++ (b4 ++ (b2 ++ [b1]))).drop 12 = b2 ++ [b1] := by
    rw [show b8 ++ (b4 ++ (b2 ++ [b1])) = (b8 ++ b4) ++ (b2 ++ [b1]) by simp]
    exact List.drop_left' (by simp [h8, h4])
  have hD14 : (b8 ++ (b4 ++ (b2 ++ [b1]))).drop 14 = [b1] := by
    rw [show b8 ++ (b4 ++ (b2 ++ [b1])) = ((b8 ++ b4) ++ b2) ++ [b1] by simp]
    exact List.drop_left' (by simp [h8, h4, h2])
  simp only [timeUnmarshal]
  rw [List.take_left' h8, List.drop_left' h8, List.take_left' h4, hD12, hD14]
  have hT2 : (b2 ++ [b1]).take 2 = b2 := List.take_left' h2
  rw [hT2]
  norm_num [h8, h4, h2, beVal_singleton]

/-- A successful `timeMarshal` starts with its version byte, and the
version determines the length. -/
theorem timeMarshal_head (t : GoTime) (enc : List Nat)
    (henc : timeMarshal t = .ok enc) :
    (∃ tl, enc = 1 :: tl ∧ enc.length = 15) ∨
    (∃ tl, enc = 2 :: tl ∧ enc.length = 16) := by
  obtain ⟨tsec, tnsec, tloc⟩ := t
  unfold timeMarshal at henc
  cases tloc with
  | none =>
    simp only at henc
    cases henc
    exact .inl ⟨be 8 (intToUint 64 tsec) ++ (be 4 tnsec ++ be 2 (intToUint 16 (-1))),
      by simp, by simp [be_length]⟩
  | some offset =>
    simp only at henc
    by_cases hguard : offset.tdiv 60 < -32768 ∨ offset.tdiv 60 = -1 ∨ offset.tdiv 60 > 32767
    · rw [if_pos hguard] at henc; cases henc
    · rw [if_neg hguard] at henc
      by_cases hv2 : offset.tmod 60 ≠ 0
      · rw [if_pos hv2] at henc
        cases henc
        exact .inr ⟨be 8 (intToUint 64 tsec) ++ (be 4 tnsec ++
          (be 2 (intToUint 16 (offset.tdiv 60)) ++ [intToUint 8 (offset.tmod 60)])),
          by simp, by simp [be_length]⟩
      · rw [if_neg hv2] at henc
        cases henc
        exact .inl ⟨be 8 (intToUint 64 tsec) ++ (be 4 tnsec ++
          be 2 (intToUint 16 (offset.tdiv 60))),
          by simp, by simp [be_length]⟩

/-- A successful `writeTime` is the marshalled time padded to 16 bytes. -/
theorem writeTime_eq (t : GoTime) (w : List Nat) (hw : writeTime t = .ok w) :
    ∃ tb, timeMarshal t = .ok tb ∧ w = tb ++ List.replicate (16 - tb.length) 0 := by
  unfold writeTime at hw
  cases hm : timeMarshal t with
  | error e => rw [hm] at hw; cases hw
  | ok tb => rw [hm] at hw; cases hw; exact ⟨tb, rfl, rfl⟩

theorem writeTime_length (t : GoTime) (w : List Nat) (hw : writeTime t = .ok w) :
    w.length = 16 := by
  obtain ⟨tb, hm, rfl⟩ := writeTime_eq t w hw
  rcases timeMarshal_length t tb hm with h | h <;> simp [h]

/-- Evaluation of `timeUnmarshalSlice` on a version byte of 1. -/
theorem timeUnmarshalSlice_one (tail : List Nat) (h : 14 ≤ tail.length) :
    timeUnmarshalSlice ((1 : Nat) :: tail) = .ok (((1 : Nat) :: tail).take 15) := by
  show (if (1 : Nat) = 1 then
      if ((1 : Nat) :: tail).length < 15 then
        (.error (.goPanic "slice bounds out of range") : Except BinErr (List Nat))
      else .ok (((1 : Nat) :: tail).take 15)
    else if (1 : Nat) = 2 then
      if ((1 : Nat) :: tail).length < 16 then .error (.goPanic "slice bounds out of range")
      else .ok (((1 : Nat) :: tail).take 16)
    else .error (.goPanic "unknown time binary version")) = _
  rw [if_pos rfl, if_neg (by simp; omega)]

/-- Evaluation of `timeUnmarshalSlice` on a version byte of 2. -/
theorem timeUnmarshalSlice_two (tail : List Nat) (h : 15 ≤ tail.length) :
    timeUnmarshalSlice ((2 : Nat) :: tail) = .ok (((2 : Nat) :: tail).take 16) := by
  show (if (2 : Nat) = 1 then
      if ((2 : Nat) :: tail).length < 15 then
        (.error (.goPanic "slice bounds out of range") : Except BinErr (List Nat))
      else .ok (((2 : Nat) :: tail).take 15)
    else if (2 : Nat) = 2 then
      if ((2 : Nat) :: tail).length < 16 then .error (.goPanic "slice bounds out of range")
      else .ok (((2 : Nat) :: tail).take 16)
    else .error (.goPanic "unknown time binary version")) = _
  rw [if_neg (by norm_num), if_pos rfl, if_neg (by simp; omega)]

/-- `timeUnmarshalSlice` recovers exactly the marshalled time bytes from
a buffer that starts with a `writeTime` window. -/
theorem timeUnmarshalSlice_writeTime (t : GoTime) (tb w rest : List Nat)
    (hm : timeMarshal t = .ok tb) (hw : writeTime t = .ok w) :
    timeUnmarshalSlice (w ++ rest) = .ok tb := by
  obtain ⟨tb2, hm2, hpad⟩ := writeTime_eq t w hw
  rw [hm] at hm2
  cases hm2
  rcases timeMarshal_head t tb hm with ⟨tl, htb, hlen⟩ | ⟨tl, htb, hlen⟩
  · subst htb
    subst hpad
    have hlen15 : tl.length = 14 := by simpa using hlen
    rw [show ((1 : Nat) :: tl ++ List.replicate (16 - ((1 : Nat) :: tl).length) 0) ++ rest =
      (1 : Nat) :: (tl ++ (List.replicate 1 0 ++ rest)) by simp [hlen15]]
    rw [timeUnmarshalSlice_one _ (by simp [hlen15])]
    congr 1
    rw [show (1 : Nat) :: (tl ++ (List.replicate 1 0 ++ rest)) =
      ((1 : Nat) :: tl) ++ (List.replicate 1 0 ++ rest) by simp]
    exact List.take_left' hlen
  · subst htb
    subst hpad
    have hlen16 : tl.length = 15 := by simpa using hlen
    rw [show ((2 : Nat) :: tl ++ List.replicate (16 - ((2 : Nat) :: tl).length) 0) ++ rest =
      (2 : Nat) :: (tl ++ rest) by simp [hlen16]]
    rw [timeUnmarshalSlice_two _ (by simp [hlen16])]
    congr 1
    rw [show (2 : Nat) :: (tl ++ rest) = ((2 : Nat) :: tl) ++ rest by simp]
    exact List.take_left' hlen

/-- Reading one length-prefixed string written at offset `i`. -/
theorem readStr_at (pre s rest : List Nat) (i : Nat) (hi : i = pre.length)
    (hs : s.length < 2 ^ 32) :
    readStr (pre ++ (writeStr s ++ rest)) i = .ok (s, i + 4 + s.length) := by
  subst hi
  unfold readStr writeStr
  have hL : (pre ++ (be 4 s.length ++ s ++ rest)).length =
      pre.length + 4 + s.length + rest.length := by
    simp [be_length]
    omega
  have hdrop : (pre ++ (be 4 s.length ++ s ++ rest)).drop pre.length =
      be 4 s.length ++ s ++ rest := List.drop_left' rfl
  have htake : (be 4 s.length ++ s ++ rest).take 4 = be 4 s.length := by
    rw [show be 4 s.length ++ s ++ rest = be 4 s.length ++ (s ++ rest) by simp]
    exact List.take_left' (be_length ..)
  have hdrop2 : (pre ++ (be 4 s.length ++ s ++ rest)).drop (pre.length + 4) =
      s ++ rest := by
    rw [show pre ++ (be 4 s.length ++ s ++ rest) =
      (pre ++ be 4 s.length) ++ (s ++ rest) by simp]
    exact List.drop_left' (by simp [be_length])
  rw [if_neg (by omega)]
  simp only [hdrop, htake, beVal_be4_nat s.length hs, hdrop2]
  rw [if_neg (by omega), List.take_left' rfl]

/-- `time.Time.UnmarshalBinary` inverts `MarshalBinary` on well-formed
wall-clock data. -/
theorem time_roundtrip (t : GoTime) (hwf : WfTime t) (enc : List Nat)
    (henc : timeMarshal t = .ok enc) :
    timeUnmarshal enc = .ok t := by
  obtain ⟨hnsec, hsec1, hsec2⟩ := hwf
  obtain ⟨tsec, tnsec, tloc⟩ := t
  simp only at hnsec hsec1 hsec2
  unfold timeMarshal at henc
  cases tloc with
  | none =>
    simp only at henc
    cases henc
    rw [show (([1] : List Nat) ++ be 8 (intToUint 64 tsec) ++ be 4 tnsec ++ be 2 (intToUint 16 (-1)) : List Nat) =
      (1 : Nat) :: (be 8 (intToUint 64 tsec) ++ (be 4 tnsec ++ be 2 (intToUint 16 (-1)))) by simp]
    rw [timeUnmarshal_v1 _ _ _ (be_length ..) (be_length ..) (be_length ..)]
    rw [beVal_be8_int64, uintToInt_intToUint_64 tsec hsec1 hsec2,
      beVal_be4_nat tnsec hnsec, beVal_be2_int16,
      show uintToInt 16 (intToUint 16 (-1)) = -1 by decide]
    norm_num
  | some offset =>
    simp only at henc
    by_cases hguard : offset.tdiv 60 < -32768 ∨ offset.tdiv 60 = -1 ∨ offset.tdiv 60 > 32767
    · rw [if_pos hguard] at henc; cases henc
    · rw [if_neg hguard] at henc
      push_neg at hguard
      obtain ⟨hg1, hg2, hg3⟩ := hguard
      have hmin16 : uintToInt 16 (intToUint 16 (offset.tdiv 60)) = offset.tdiv 60 := by
        apply uintToInt_intToUint_16 <;> norm_num <;> omega
      have hid : offset.tmod 60 + 60 * offset.tdiv 60 = offset := Int.tmod_add_tdiv offset 60
      have hbnd := tmod_sixty_bounds offset
      by_cases hv2 : offset.tmod 60 ≠ 0
      · rw [if_pos hv2] at henc
        cases henc
        rw [show (([2] : List Nat) ++ be 8 (intToUint 64 tsec) ++ be 4 tnsec ++ be 2 (intToUint 16 (offset.tdiv 60)) ++ [intToUint 8 (offset.tmod 60)] : List Nat) =
          (2 : Nat) :: (be 8 (intToUint 64 tsec) ++ (be 4 tnsec ++ (be 2 (intToUint 16 (offset.tdiv 60)) ++ [intToUint 8 (offset.tmod 60)]))) by simp]
        rw [timeUnmarshal_v2 _ _ _ _ (be_length ..) (be_length ..) (be_length ..)]
        rw [beVal_be8_int64, uintToInt_intToUint_64 tsec hsec1 hsec2,
          beVal_be4_nat tnsec hnsec, beVal_be2_int16, hmin16]
        have h8r : uintToInt 8 (intToUint 8 (offset.tmod 60)) = offset.tmod 60 := by
          apply uintToInt_intToUint_8 <;> norm_num <;> omega
        rw [h8r]
        have hoff : offset.tdiv 60 * 60 + offset.tmod 60 = offset := by omega
        rw [hoff]
        have hne : ¬ offset = -60 := by
          intro habs
          apply hv2
          omega
        norm_num [hne]
      · rw [if_neg hv2] at henc
        cases henc
        have htm : offset.tmod 60 = 0 := by
          by_contra hc
          exact hv2 hc
        rw [show (([1] : List Nat) ++ be 8 (intToUint 64 tsec) ++ be 4 tnsec ++ be 2 (intToUint 16 (offset.tdiv 60)) : List Nat) =
          (1 : Nat) :: (be 8 (intToUint 64 tsec) ++ (be 4 tnsec ++ be 2 (intToUint 16 (offset.tdiv 60)))) by simp]
        rw [timeUnmarshal_v1 _ _ _ (be_length ..) (be_length ..) (be_length ..)]
        rw [beVal_be8_int64, uintToInt_intToUint_64 tsec hsec1 hsec2,
          beVal_be4_nat tnsec hnsec, beVal_be2_int16, hmin16]
        have hoff : offset.tdiv 60 * 60 = offset := by omega
        rw [hoff]
        have hne : ¬ offset = -60 := by
          intro habs
          apply hg2
          omega
        norm_num [hne]



/-- Evaluation of `UnmarshalBinary` given the outcome of each of its
reads. -/
theorem unmarshalBinary_eval (data qsl dqsl : List Nat) (qAt dqAt : GoTime)
    (u ttl su tu sl : List Nat) (i1 i2 i3 i4 i5 : Nat)
    (hlen : 48 ≤ data.length)
    (hq : timeUnmarshalSlice (data.drop 8) = .ok qsl)
    (hqt : timeUnmarshal qsl = .ok qAt)
    (hdq : timeUnmarshalSlice (data.drop 24) = .ok dqsl)
    (hdqt : timeUnmarshal dqsl = .ok dqAt)
    (hr1 : readStr (data.drop 48) 0 = .ok (u, i1))
    (hr2 : readStr (data.drop 48) i1 = .ok (ttl, i2))
    (hr3 : readStr (data.drop 48) i2 = .ok (su, i3))
    (hr4 : readStr (data.drop 48) i3 = .ok (tu, i4))
    (hr5 : readStr (data.drop 48) i4 = .ok (sl, i5)) :
    unmarshalBinary data = .ok
      { userID := u, title := ttl, songURL := su, thumbnailURL := tu,
        duration := uintToInt 64 (beVal ((data.drop 40).take 8)),
        id := uintToInt 64 (beVal (data.take 8)),
        slug := sl, queuedAt := qAt, dequeuedAt := dqAt } := by
  unfold unmarshalBinary
  rw [if_neg (by omega)]
  simp only [hq, hqt, hdq, hdqt]
  rw [if_neg (by omega)]
  simp only [hr1, hr2, hr3, hr4, hr5]

/-- C7 machinery: `UnmarshalBinary` inverts `MarshalBinary` on every
Go-representable `QueuedSong` whose string fields are shorter than
`2 ^ 32` bytes and whose timestamps marshal successfully. -/
theorem csong_roundtrip (qs : BinSong) (hwf : WfBin qs) (b : List Nat)
    (hb : marshalBinary qs = .ok b) :
    unmarshalBinary b = .ok qs := by
  obtain ⟨h1, h2, h3, h4, hq, hdq, hu, ht, hsu, hth, hsl⟩ := hwf
  unfold marshalBinary at hb
  cases hwq : writeTime qs.queuedAt with
  | error e => rw [hwq] at hb; cases hb
  | ok qb =>
    rw [hwq] at hb
    cases hwdq : writeTime qs.dequeuedAt with
    | error e => rw [hwdq] at hb; cases hb
    | ok dqb =>
      rw [hwdq] at hb
      cases hb
      obtain ⟨tbq, hmq, _⟩ := writeTime_eq _ _ hwq
      obtain ⟨tbdq, hmdq, _⟩ := writeTime_eq _ _ hwdq
      have hqb16 := writeTime_length _ _ hwq
      have hdqb16 := writeTime_length _ _ hwdq
      set L := be 8 (intToUint 64 qs.id) with hL
      set D := be 8 (intToUint 64 qs.duration) with hD
      set w1 := writeStr qs.userID with hw1
      set w2 := writeStr qs.title with hw2
      set w3 := writeStr qs.songURL with hw3
      set w4 := writeStr qs.thumbnailURL with hw4
      set w5 := writeStr qs.slug with hw5
      have hw1l : w1.length = 4 + qs.userID.length := by simp [hw1, writeStr, be_length]
      have hw2l : w2.length = 4 + qs.title.length := by simp [hw2, writeStr, be_length]
      have hw3l : w3.length = 4 + qs.songURL.length := by simp [hw3, writeStr, be_length]
      have hw4l : w4.length = 4 + qs.thumbnailURL.length := by simp [hw4, writeStr, be_length]
      set S := w1 ++ w2 ++ w3 ++ w4 ++ w5 with hS
      set bb := L ++ qb ++ dqb ++ D ++ S with hbb
      rw [show (L ++ qb ++ dqb ++ D ++ w1 ++ w2 ++ w3 ++ w4 ++ w5 : List Nat) = bb by
        simp [hbb, hS]]
      have hblen : bb.length = 48 + S.length := by
        rw [hbb]
        simp [hL, hD, be_length, hqb16, hdqb16]
        omega
      have hdrop8 : bb.drop 8 = qb ++ (dqb ++ (D ++ S)) := by
        rw [show bb = L ++ (qb ++ (dqb ++ (D ++ S))) by simp [hbb]]
        exact List.drop_left' (by simp [hL, be_length])
      have hdrop24 : bb.drop 24 = dqb ++ (D ++ S) := by
        rw [show bb = (L ++ qb) ++ (dqb ++ (D ++ S)) by simp [hbb]]
        exact List.drop_left' (by simp [hL, be_length, hqb16])
      have hdrop40 : bb.drop 40 = D ++ S := by
        rw [show bb = (L ++ qb ++ dqb) ++ (D ++ S) by simp [hbb]]
        exact List.drop_left' (by simp [hL, be_length, hqb16, hdqb16])
      have hdrop48 : bb.drop 48 = S := by
        rw [show bb = (L ++ qb ++ dqb ++ D) ++ S by simp [hbb]]
        exact List.drop_left' (by simp [hL, hD, be_length, hqb16, hdqb16])
      have htake8 : bb.take 8 = L := by
        rw [show bb = L ++ (qb ++ (dqb ++ (D ++ S))) by simp [hbb]]
        exact List.take_left' (by simp [hL, be_length])
      have hq2 : timeUnmarshalSlice (bb.drop 8) = .ok tbq := by
        rw [hdrop8]
        exact timeUnmarshalSlice_writeTime qs.queuedAt tbq qb _ hmq hwq
      have hdq2 : timeUnmarshalSlice (bb.drop 24) = .ok tbdq := by
        rw [hdrop24]
        exact timeUnmarshalSlice_writeTime qs.dequeuedAt tbdq dqb _ hmdq hwdq
      have hr1 : readStr (bb.drop 48) 0 = .ok (qs.userID, 0 + 4 + qs.userID.length) := by
        rw [hdrop48, show S = [] ++ (w1 ++ (w2 ++ w3 ++ w4 ++ w5)) by simp [hS], hw1]
        exact readStr_at _ _ _ _ rfl hu
      have hr2 : readStr (bb.drop 48) (0 + 4 + qs.userID.length) =
          .ok (qs.title, 0 + 4 + qs.userID.length + 4 + qs.title.length) := by
        rw [hdrop48, show S = w1 ++ (w2 ++ (w3 ++ w4 ++ w5)) by simp [hS], hw2]
        exact readStr_at _ _ _ _ (by omega) ht
      have hr3 : readStr (bb.drop 48) (0 + 4 + qs.userID.length + 4 + qs.title.length) =
          .ok (qs.songURL,
            0 + 4 + qs.userID.length + 4 + qs.title.length + 4 + qs.songURL.length) := by
        rw [hdrop48, show S = (w1 ++ w2) ++ (w3 ++ (w4 ++ w5)) by simp [hS], hw3]
        exact readStr_at _ _ _ _ (by simp [hw1l, hw2l]; omega) hsu
      have hr4 : readStr (bb.drop 48) (0 + 4 + qs.userID.length + 4 + qs.title.length + 4 +
          qs.songURL.length) =
          .ok (qs.thumbnailURL,
            0 + 4 + qs.userID.length + 4 + qs.title.length + 4 + qs.songURL.length + 4 +
              qs.thumbnailURL.length) := by
        rw [hdrop48, show S = (w1 ++ w2 ++ w3) ++ (w4 ++ w5) by simp [hS], hw4]
        exact readStr_at _ _ _ _ (by simp [hw1l, hw2l, hw3l]; omega) hth
      have hr5 : readStr (bb.drop 48) (0 + 4 + qs.userID.length + 4 + qs.title.length + 4 +
          qs.songURL.length + 4 + qs.thumbnailURL.length) =
          .ok (qs.slug,
            0 + 4 + qs.userID.length + 4 + qs.title.length + 4 + qs.songURL.length + 4 +
              qs.thumbnailURL.length + 4 + qs.slug.length) := by
        rw [hdrop48, show S = (w1 ++ w2 ++ w3 ++ w4) ++ (w5 ++ []) by simp [hS], hw5]
        exact readStr_at _ _ _ _ (by simp [hw1l, hw2l, hw3l, hw4l]; omega) hsl
      rw [unmarshalBinary_eval bb tbq tbdq qs.queuedAt qs.dequeuedAt qs.userID qs.title
        qs.songURL qs.thumbnailURL qs.slug _ _ _ _ _ (by omega) hq2
        (time_roundtrip qs.queuedAt hq tbq hmq) hdq2
        (time_roundtrip qs.dequeuedAt hdq tbdq hmdq) hr1 hr2 hr3 hr4 hr5]
      rw [hdrop40, show (D ++ S).take 8 = D from List.take_left' (by simp [hD, be_length])]
      rw [htake8, hL, hD, beVal_be8_int64, beVal_be8_int64,
        uintToInt_intToUint_64 qs.id h1 h2,
        uintToInt_intToUint_64 qs.duration h3 h4]

/-- Reading a length-prefixed string out of an all-zero buffer gives the
empty string. -/
theorem readStr_zeros (m i : Nat) (h : i + 4 ≤ m) :
    readStr (List.replicate m (0 : Nat)) i = .ok ([], i + 4) := by
  unfold readStr
  rw [if_neg (by rw [List.length_replicate]; omega)]
  have hd : (List.replicate m (0 : Nat)).drop i = List.replicate (m - i) 0 :=
    List.drop_replicate ..
  have ht : (List.replicate (m - i) (0 : Nat)).take 4 = List.replicate 4 0 := by
    rw [List.take_replicate]
    congr 1
    omega
  have hval : beVal (List.replicate 4 (0 : Nat)) = 0 := by decide
  simp only [hd, ht, hval]
  rw [if_neg (by rw [List.length_replicate]; omega)]
  simp only [List.take_zero, Nat.add_zero]

/-- The encoding of `c7cex`: the 4 GiB user id is written in full, but
its length prefix is `uint32(2 ^ 32) = 0`. -/
theorem c7cex_marshal :
    marshalBinary c7cex =
      .ok (zero8 ++ (zeroWin ++ (zeroWin ++ (zero8 ++ List.replicate (2 ^ 32 + 20) 0)))) := by
  have h1 : marshalBinary c7cex =
      .ok (zero8 ++ zeroWin ++ zeroWin ++ zero8 ++
        writeStr (List.replicate (2 ^ 32) 0) ++ writeStr [] ++ writeStr [] ++
        writeStr [] ++ writeStr []) := rfl
  rw [h1]
  rw [show writeStr (List.replicate (2 ^ 32) (0 : Nat)) =
      List.replicate 4 0 ++ List.replicate (2 ^ 32) 0 by
    unfold writeStr
    rw [List.length_replicate]
    rw [show be 4 (2 ^ 32) = List.replicate 4 (0 : Nat) by decide]]
  rw [show writeStr ([] : List Nat) = [0, 0, 0, 0] from rfl]
  rw [show (2 ^ 32 + 20 : Nat) = 4 + (2 ^ 32 + 16) by norm_num,
    List.replicate_add, List.replicate_add]
  rw [show List.replicate 16 (0 : Nat) =
    [0, 0, 0, 0] ++ ([0, 0, 0, 0] ++ ([0, 0, 0, 0] ++ [0, 0, 0, 0])) from rfl]
  simp only [List.append_assoc]

/-- Decoding the encoding of `c7cex`: every length prefix reads as zero,
so every string comes back empty. -/
theorem c7cex_unmarshal :
    unmarshalBinary
        (zero8 ++ (zeroWin ++ (zeroWin ++ (zero8 ++ List.replicate (2 ^ 32 + 20) 0)))) =
      .ok c7cexDecoded := by
  set S := List.replicate (2 ^ 32 + 20) (0 : Nat) with hS
  set bb := zero8 ++ (zeroWin ++ (zeroWin ++ (zero8 ++ S))) with hbb
  have hSlen : S.length = 2 ^ 32 + 20 := by rw [hS, List.length_replicate]
  have hblen : bb.length = 48 + S.length := by
    rw [hbb]
    simp only [List.length_append]
    rw [(show zero8.length = 8 by decide), (show zeroWin.length = 16 by decide)]
    omega
  have hdrop8 : bb.drop 8 = zeroWin ++ (zeroWin ++ (zero8 ++ S)) := by
    rw [hbb]
    exact List.drop_left' (show zero8.length = 8 by decide)
  have hdrop24 : bb.drop 24 = zeroWin ++ (zero8 ++ S) := by
    rw [show bb = (zero8 ++ zeroWin) ++ (zeroWin ++ (zero8 ++ S)) by
      rw [hbb]; simp only [List.append_assoc]]
    exact List.drop_left' (show (zero8 ++ zeroWin).length = 24 by decide)
  have hdrop40 : bb.drop 40 = zero8 ++ S := by
    rw [show bb = (zero8 ++ zeroWin ++ zeroWin) ++ (zero8 ++ S) by
      rw [hbb]; simp only [List.append_assoc]]
    exact List.drop_left' (show (zero8 ++ zeroWin ++ zeroWin).length = 40 by decide)
  have hdrop48 : bb.drop 48 = S := by
    rw [show bb = (zero8 ++ zeroWin ++ zeroWin ++ zero8) ++ S by
      rw [hbb]; simp only [List.append_assoc]]
    exact List.drop_left' (show (zero8 ++ zeroWin ++ zeroWin ++ zero8).length = 48 by decide)
  have htake8 : bb.take 8 = zero8 := by
    rw [hbb]
    exact List.take_left' (show zero8.length = 8 by decide)
  have hslice : ∀ rest : List Nat, timeUnmarshalSlice (zeroWin ++ rest) =
      .ok [1, 0, 0, 0, 0, 0, 0, 0, 0, 0, 0, 0, 0, 255, 255] := by
    intro rest
    rw [show zeroWin ++ rest =
      (1 : Nat) :: ([0, 0, 0, 0, 0, 0, 0, 0, 0, 0, 0, 0, 255, 255] ++ ([0] ++ rest)) by
        rw [show zeroWin =
          (1 : Nat) :: ([0, 0, 0, 0, 0, 0, 0, 0, 0, 0, 0, 0, 255, 255] ++ [0]) from rfl]
        simp only [List.cons_append, List.append_assoc]]
    rw [timeUnmarshalSlice_one _ (by simp)]
    rfl
  have htz : timeUnmarshal [1, 0, 0, 0, 0, 0, 0, 0, 0, 0, 0, 0, 0, 255, 255] =
      .ok zeroTime := by decide
  have hr : ∀ i : Nat, i + 4 ≤ 2 ^ 32 + 20 → readStr (bb.drop 48) i = .ok ([], i + 4) := by
    intro i h
    rw [hdrop48, hS]
    exact readStr_zeros _ i h
  rw [unmarshalBinary_eval bb
    [1, 0, 0, 0, 0, 0, 0, 0, 0, 0, 0, 0, 0, 255, 255]
    [1, 0, 0, 0, 0, 0, 0, 0, 0, 0, 0, 0, 0, 255, 255]
    zeroTime zeroTime [] [] [] [] [] (0 + 4) (0 + 4 + 4) (0 + 4 + 4 + 4)
    (0 + 4 + 4 + 4 + 4) (0 + 4 + 4 + 4 + 4 + 4)
    (by omega)
    (by rw [hdrop8]; exact hslice _) htz
    (by rw [hdrop24]; exact hslice _) htz
    (hr 0 (by norm_num)) (hr (0 + 4) (by norm_num)) (hr (0 + 4 + 4) (by norm_num))
    (hr (0 + 4 + 4 + 4) (by norm_num)) (hr (0 + 4 + 4 + 4 + 4) (by norm_num))]
  rw [hdrop40, show (zero8 ++ S).take 8 = zero8 from
    List.take_left' (show zero8.length = 8 by decide)]
  rw [htake8]
  rfl

/-- C7: for every `QueuedSong` value, unmarshalling the output of
`MarshalBinary` succeeds and reproduces every field — refuted: with a
`2 ^ 32`-byte user id the `uint32` length prefix truncates to zero, the
encoding succeeds, and decoding returns an empty user id instead. -/
theorem c7_counterexample :
    ¬ ∃ b, marshalBinary c7cex = .ok b ∧ unmarshalBinary b = .ok c7cex := by
  rintro ⟨b, hb, hun⟩
  rw [c7cex_marshal] at hb
  cases hb
  rw [c7cex_unmarshal] at hun
  have heq : c7cexDecoded = c7cex := by injection hun
  have huid : c7cexDecoded.userID = c7cex.userID := by rw [heq]
  have hnil : ([] : List Nat) = List.replicate (2 ^ 32) 0 := huid
  have hlen := congrArg List.length hnil
  rw [List.length_replicate, List.length_nil] at hlen
  norm_num at hlen

/-- C7 (amended): `UnmarshalBinary` applied to the output of
`MarshalBinary` succeeds and reproduces every field — id, user id,
title, song and thumbnail urls, duration, slug, queued-at and
dequeued-at (including an unset dequeued-at) — for every Go-representable
`QueuedSong` whose string fields are shorter than `2 ^ 32` bytes and
whose timestamps marshal successfully. -/
theorem c7_marshal_roundtrip (qs : BinSong) (b : List Nat) (hwf : WfBin qs)
    (hb : marshalBinary qs = .ok b) :
    unmarshalBinary b = .ok qs :=
  csong_roundtrip qs hwf b hb

/-- Witness for `c7_marshal_roundtrip` on a fully populated song with an
unset queued-at and a zone-offset dequeued-at. -/
theorem c7_marshal_roundtrip_witness :
    WfBin c7wit ∧ unmarshalBinary c7witBuf = .ok c7wit :=
  ⟨by decide, c7_marshal_roundtrip c7wit c7witBuf (by decide) (by decide)⟩

/-- C6 (amended): operations report failures as error values on their
domains, with one exception refuted separately: for every store, every
offset and every non-negative limit, `List` returns without a panic, and
decoding any record that `MarshalBinary` produced from a
Go-representable `QueuedSong` terminates without a panic.  (`List` with
a negative limit on a non-empty queue panics on the negative slice
capacity `min(25, limit)`.) -/
theorem c6_list_decode_no_panic :
    (∀ (s : Store) (offset limit : Int), 0 ≤ limit →
      ∃ out, list s offset limit = .ok out) ∧
    (∀ (qs : BinSong) (b : List Nat), WfBin qs → marshalBinary qs = .ok b →
      ∃ r, unmarshalBinary b = .ok r) :=
  ⟨list_no_panic, fun qs b hwf hb => ⟨qs, csong_roundtrip qs hwf b hb⟩⟩

/-- Witness for `c6_list_decode_no_panic` on a one-song queue and on the
encoding of `c7wit`. -/
theorem c6_list_decode_no_panic_witness :
    (∃ out, list sampleStore1 0 5 = .ok out) ∧
    (∃ r, unmarshalBinary c7witBuf = .ok r) :=
  ⟨c6_list_decode_no_panic.1 sampleStore1 0 5 (by norm_num),
   c6_list_decode_no_panic.2 c7wit c7witBuf (by decide) (by decide)⟩

/-!
## Association-list and iterator groundwork
-/

theorem getEntry_none_iff {κ β : Type} [DecidableEq κ] (l : List (κ × β)) (k : κ) :
    getEntry l k = none ↔ k ∉ keysOf l := by
  induction l with
  | nil => simp [getEntry, keysOf]
  | cons e rest ih =>
    unfold getEntry
    by_cases h : e.1 = k
    · rw [if_pos h]
      simp [keysOf, h]
    · rw [if_neg h, ih]
      simp only [keysOf, List.map_cons, List.mem_cons]
      constructor
      · intro hk habs
        rcases habs with habs | habs
        · exact h habs.symm
        · exact hk habs
      · intro hk habs
        exact hk (.inr habs)

theorem getEntry_some_mem {κ β : Type} [DecidableEq κ] {l : List (κ × β)} {k : κ} {v : β}
    (h : getEntry l k = some v) : (k, v) ∈ l := by
  induction l with
  | nil => cases h
  | cons e rest ih =>
    unfold getEntry at h
    by_cases he : e.1 = k
    · rw [if_pos he] at h
      cases h
      subst he
      exact List.mem_cons_self e rest
    · rw [if_neg he] at h
      exact List.mem_cons_of_mem e (ih h)

theorem getEntry_of_mem_nodup {κ β : Type} [DecidableEq κ] {l : List (κ × β)} {k : κ} {v : β}
    (hnd : (keysOf l).Nodup) (hmem : (k, v) ∈ l) : getEntry l k = some v := by
  induction l with
  | nil => cases hmem
  | cons e rest ih =>
    simp only [keysOf, List.map_cons, List.nodup_cons] at hnd
    rcases List.mem_cons.mp hmem with h | h
    · rw [← h]
      simp [getEntry]
    · have hne : e.1 ≠ k := by
        intro habs
        exact hnd.1 (habs ▸ (List.mem_map.mpr ⟨(k, v), h, rfl⟩))
      unfold getEntry
      rw [if_neg hne]
      exact ih hnd.2 h

theorem getEntry_putEntry_self {β : Type} (l : List (Nat × β)) (k : Nat) (v : β) :
    getEntry (putEntry l k v) k = some v := by
  induction l with
  | nil => simp [putEntry, getEntry]
  | cons e rest ih =>
    unfold putEntry
    by_cases h1 : k < e.1
    · rw [if_pos h1]
      simp [getEntry]
    · rw [if_neg h1]
      by_cases h2 : k = e.1
      · rw [if_pos h2]
        simp [getEntry]
      · rw [if_neg h2]
        unfold getEntry
        rw [if_neg (fun habs => h2 habs.symm)]
        exact ih

theorem getEntry_putEntry_ne {β : Type} (l : List (Nat × β)) (k : Nat) (v : β) (j : Nat)
    (h : j ≠ k) : getEntry (putEntry l k v) j = getEntry l j := by
  induction l with
  | nil =>
    unfold putEntry getEntry
    rw [if_neg (fun habs => h habs.symm)]
    rfl
  | cons e rest ih =>
    unfold putEntry
    by_cases h1 : k < e.1
    · rw [if_pos h1]
      conv_lhs => unfold getEntry
      rw [if_neg (fun habs => h habs.symm)]
    · rw [if_neg h1]
      by_cases h2 : k = e.1
      · rw [if_pos h2]
        unfold getEntry
        rw [if_neg (fun habs => h habs.symm),
          if_neg (fun habs => h (h2 ▸ habs).symm)]
      · rw [if_neg h2]
        unfold getEntry
        by_cases h3 : e.1 = j
        · rw [if_pos h3, if_pos h3]
        · rw [if_neg h3, if_neg h3]
          exact ih

theorem putEntry_append_max {β : Type} (l : List (Nat × β)) (k : Nat) (v : β)
    (h : ∀ e ∈ l, e.1 < k) : putEntry l k v = l ++ [(k, v)] := by
  induction l with
  | nil => rfl
  | cons e rest ih =>
    have he := h e (List.mem_cons_self e rest)
    unfold putEntry
    rw [if_neg (by omega), if_neg (by omega)]
    rw [ih (fun f hf => h f (List.mem_cons_of_mem e hf))]
    rfl

theorem mem_putEntry_self {β : Type} (l : List (Nat × β)) (k : Nat) (v : β) :
    (k, v) ∈ putEntry l k v :=
  getEntry_some_mem (getEntry_putEntry_self l k v)

theorem mem_putEntry_of_mem_ne {β : Type} {l : List (Nat × β)} {e : Nat × β}
    (hmem : e ∈ l) (k : Nat) (v : β) (hne : e.1 ≠ k) : e ∈ putEntry l k v := by
  induction l with
  | nil => cases hmem
  | cons f rest ih =>
    unfold putEntry
    by_cases h1 : k < f.1
    · rw [if_pos h1]
      exact List.mem_cons_of_mem _ hmem
    · rw [if_neg h1]
      by_cases h2 : k = f.1
      · rw [if_pos h2]
        rcases List.mem_cons.mp hmem with h | h
        · exact absurd (h ▸ h2.symm : e.1 = k) hne
        · exact List.mem_cons_of_mem _ h
      · rw [if_neg h2]
        rcases List.mem_cons.mp hmem with h | h
        · exact h ▸ List.mem_cons_self f _
        · exact List.mem_cons_of_mem _ (ih h)

theorem mem_putEntry_elim {β : Type} {l : List (Nat × β)} {k : Nat} {v : β} {e : Nat × β}
    (hmem : e ∈ putEntry l k v) : e = (k, v) ∨ e ∈ l := by
  induction l with
  | nil =>
    simp [putEntry] at hmem
    exact .inl (by rw [hmem])
  | cons f rest ih =>
    unfold putEntry at hmem
    by_cases h1 : k < f.1
    · rw [if_pos h1] at hmem
      rcases List.mem_cons.mp hmem with h | h
      · exact .inl h
      · exact .inr h
    · rw [if_neg h1] at hmem
      by_cases h2 : k = f.1
      · rw [if_pos h2] at hmem
        rcases List.mem_cons.mp hmem with h | h
        · exact .inl h
        · exact .inr (List.mem_cons_of_mem _ h)
      · rw [if_neg h2] at hmem
        rcases List.mem_cons.mp hmem with h | h
        · exact .inr (h ▸ List.mem_cons_self f _)
        · rcases ih h with h' | h'
          · exact .inl h'
          · exact .inr (List.mem_cons_of_mem _ h')

theorem keysOf_putEntry_of_mem {β : Type} {l : List (Nat × β)} {k : Nat} (v : β)
    (hmem : k ∈ keysOf l) (hs : SortedKeys l) :
    keysOf (putEntry l k v) = keysOf l := by
  induction l with
  | nil => cases hmem
  | cons f rest ih =>
    have hrest : ∀ e ∈ rest, f.1 < e.1 := (List.pairwise_cons.mp hs).1
    unfold putEntry
    by_cases h1 : k < f.1
    · exfalso
      simp only [keysOf, List.map_cons, List.mem_cons, List.mem_map] at hmem
      rcases hmem with hmem | ⟨e, he, hke⟩
      · omega
      · have := hrest e he
        omega
    · rw [if_neg h1]
      by_cases h2 : k = f.1
      · rw [if_pos h2]
        simp [keysOf, h2]
      · rw [if_neg h2]
        have hmem' : k ∈ keysOf rest := by
          simp only [keysOf, List.map_cons, List.mem_cons] at hmem
          rcases hmem with hmem | hmem
          · exact absurd hmem h2
          · exact hmem
        simp only [keysOf, List.map_cons]
        congr 1
        exact ih hmem' (List.pairwise_cons.mp hs).2

theorem sortedKeys_putEntry {β : Type} {l : List (Nat × β)} (k : Nat) (v : β)
    (hs : SortedKeys l) : SortedKeys (putEntry l k v) := by
  induction l with
  | nil => simp [putEntry, SortedKeys]
  | cons f rest ih =>
    obtain ⟨hf, hrest⟩ := List.pairwise_cons.mp hs
    unfold putEntry
    by_cases h1 : k < f.1
    · rw [if_pos h1]
      refine List.pairwise_cons.mpr ⟨?_, hs⟩
      intro e he
      rcases List.mem_cons.mp he with h | h
      · rw [h]
        exact h1
      · have := hf e h
        simp only
        omega
    · rw [if_neg h1]
      by_cases h2 : k = f.1
      · rw [if_pos h2]
        refine List.pairwise_cons.mpr ⟨?_, hrest⟩
        intro e he
        have := hf e he
        simp only
        omega
      · rw [if_neg h2]
        refine List.pairwise_cons.mpr ⟨?_, ih hrest⟩
        intro e he
        rcases mem_putEntry_elim he with he' | he'
        · rw [he']
          simp only
          omega
        · exact hf e he'

theorem delEntry_sublist {κ β : Type} [DecidableEq κ] (l : List (κ × β)) (k : κ) :
    (delEntry l k).Sublist l := by
  induction l with
  | nil => simp [delEntry]
  | cons f rest ih =>
    unfold delEntry
    by_cases h : f.1 = k
    · rw [if_pos h]
      exact ih.cons f
    · rw [if_neg h]
      exact ih.cons₂ f

theorem mem_delEntry {κ β : Type} [DecidableEq κ] {l : List (κ × β)} {k : κ} {e : κ × β} :
    e ∈ delEntry l k ↔ e ∈ l ∧ e.1 ≠ k := by
  induction l with
  | nil => simp [delEntry]
  | cons f rest ih =>
    unfold delEntry
    by_cases h : f.1 = k
    · rw [if_pos h, ih]
      constructor
      · intro ⟨h1, h2⟩
        exact ⟨List.mem_cons_of_mem _ h1, h2⟩
      · intro ⟨h1, h2⟩
        rcases List.mem_cons.mp h1 with h1 | h1
        · exact absurd (h1 ▸ h : e.1 = k) h2
        · exact ⟨h1, h2⟩
    · rw [if_neg h]
      constructor
      · intro hmem
        rcases List.mem_cons.mp hmem with h1 | h1
        · exact ⟨h1 ▸ List.mem_cons_self f _, h1 ▸ h⟩
        · obtain ⟨ha, hb⟩ := ih.mp h1
          exact ⟨List.mem_cons_of_mem _ ha, hb⟩
      · intro ⟨h1, h2⟩
        rcases List.mem_cons.mp h1 with h1 | h1
        · exact h1 ▸ List.mem_cons_self f _
        · exact List.mem_cons_of_mem _ (ih.mpr ⟨h1, h2⟩)

theorem sortedKeys_delEntry {β : Type} {l : List (Nat × β)} (k : Nat)
    (hs : SortedKeys l) : SortedKeys (delEntry l k) :=
  List.Pairwise.sublist (delEntry_sublist l k) hs

theorem getEntry_delEntry_self {κ β : Type} [DecidableEq κ] (l : List (κ × β)) (k : κ) :
    getEntry (delEntry l k) k = none := by
  rw [getEntry_none_iff]
  intro hmem
  simp only [keysOf, List.mem_map] at hmem
  obtain ⟨e, he, hk⟩ := hmem
  exact absurd hk (mem_delEntry.mp he).2

theorem getEntry_delEntry_ne {κ β : Type} [DecidableEq κ] (l : List (κ × β)) (k j : κ)
    (h : j ≠ k) : getEntry (delEntry l k) j = getEntry l j := by
  induction l with
  | nil => simp [delEntry]
  | cons f rest ih =>
    unfold delEntry
    by_cases hf : f.1 = k
    · rw [if_pos hf, ih]
      have hfj : f.1 ≠ j := fun habs => h ((habs ▸ hf : j = k))
      conv_rhs => unfold getEntry
      rw [if_neg hfj]
    · rw [if_neg hf]
      unfold getEntry
      by_cases hj : f.1 = j
      · rw [if_pos hj, if_pos hj]
      · rw [if_neg hj, if_neg hj]
        exact ih

theorem getEntry_putSlug_self {β : Type} (l : List (GoStr × β)) (k : GoStr) (v : β) :
    getEntry (putSlug l k v) k = some v := by
  induction l with
  | nil => simp [putSlug, getEntry]
  | cons e rest ih =>
    unfold putSlug
    by_cases h : e.1 = k
    · rw [if_pos h]
      simp [getEntry]
    · rw [if_neg h]
      unfold getEntry
      rw [if_neg h]
      exact ih

theorem getEntry_putSlug_ne {β : Type} (l : List (GoStr × β)) (k : GoStr) (v : β)
    (j : GoStr) (h : j ≠ k) : getEntry (putSlug l k v) j = getEntry l j := by
  induction l with
  | nil =>
    unfold putSlug getEntry
    rw [if_neg (fun habs => h habs.symm)]
    rfl
  | cons e rest ih =>
    unfold putSlug
    by_cases he : e.1 = k
    · rw [if_pos he]
      have h1 : ((k, v) : GoStr × β).1 ≠ j := fun habs => h habs.symm
      have h2 : e.1 ≠ j := fun habs => h (he.symm.trans habs).symm
      unfold getEntry
      rw [if_neg h1, if_neg h2]
    · rw [if_neg he]
      unfold getEntry
      by_cases hj : e.1 = j
      · rw [if_pos hj, if_pos hj]
      · rw [if_neg hj, if_neg hj]
        exact ih


theorem sortedKeys_iff_pairwise {β : Type} (l : List (Nat × β)) :
    SortedKeys l ↔ List.Pairwise (· < ·) (keysOf l) := by
  unfold SortedKeys keysOf
  rw [List.pairwise_map]

theorem sortedKeys_nodup {β : Type} {l : List (Nat × β)} (h : SortedKeys l) :
    (keysOf l).Nodup :=
  ((sortedKeys_iff_pairwise l).mp h).imp Nat.ne_of_lt

theorem sorted_mid_bounds {β : Type} {X Z : List (Nat × β)} {y : Nat × β}
    (h : SortedKeys (X ++ y :: Z)) :
    (∀ e ∈ X, e.1 < y.1) ∧ (∀ e ∈ Z, y.1 < e.1) := by
  unfold SortedKeys at h
  rw [List.pairwise_append] at h
  obtain ⟨_, hz, hcross⟩ := h
  rw [List.pairwise_cons] at hz
  exact ⟨fun e he => hcross e he y (List.mem_cons_self y Z), hz.1⟩

theorem get?_decomp {α : Type} {l : List α} {i : Nat} {x : α} (h : l.get? i = some x) :
    ∃ A B, l = A ++ x :: B ∧ A.length = i := by
  induction l generalizing i with
  | nil => cases h
  | cons a rest ih =>
    cases i with
    | zero =>
      simp only [List.get?] at h
      cases h
      exact ⟨[], rest, rfl, rfl⟩
    | succ j =>
      obtain ⟨A, B, hl, hlen⟩ := ih (i := j) h
      exact ⟨a :: A, B, by rw [hl]; rfl, by simp [hlen]⟩

theorem get?_decomp2 {α : Type} {l : List α} {i p : Nat} {x y : α} (hip : i < p)
    (hx : l.get? i = some x) (hy : l.get? p = some y) :
    ∃ A M B, l = A ++ x :: M ++ y :: B ∧ A.length = i ∧ M.length = p - i - 1 := by
  obtain ⟨A, B, hl, hlen⟩ := get?_decomp hx
  have hy' : B.get? (p - i - 1) = some y := by
    rw [hl] at hy
    rw [List.get?_append_right (by omega)] at hy
    simp only [hlen] at hy
    rw [show p - i = (p - i - 1) + 1 by omega] at hy
    simpa using hy
  obtain ⟨M, B', hB, hMlen⟩ := get?_decomp hy'
  exact ⟨A, M, B', by rw [hl, hB]; simp, hlen, hMlen⟩

theorem eraseIdx_append_len {α : Type} (A B : List α) (x : α) :
    (A ++ x :: B).eraseIdx A.length = A ++ B := by
  induction A with
  | nil => rfl
  | cons a A ih => simpa [List.eraseIdx] using ih

theorem insertIdx_append_len {α : Type} (A B : List α) (x : α) :
    (A ++ B).insertIdx A.length x = A ++ x :: B := by
  induction A with
  | nil => rfl
  | cons a A ih => simpa [List.insertIdx] using ih

theorem insertIdx_eraseIdx_get {α : Type} {l : List α} {i : Nat} {x : α}
    (h : l.get? i = some x) : (l.eraseIdx i).insertIdx i x = l := by
  obtain ⟨A, B, hl, hlen⟩ := get?_decomp h
  rw [hl, ← hlen, eraseIdx_append_len, insertIdx_append_len]

theorem mem_fwdFrom {l : List (Nat × QueuedSong)} {k : Nat} {e : Nat × QueuedSong} :
    e ∈ fwdFrom l k ↔ e ∈ l ∧ k ≤ e.1 := by
  unfold fwdFrom
  simp [List.mem_filter]

theorem fwdFrom_of_decomp {X Y : List (Nat × QueuedSong)} {k : Nat} {r : QueuedSong}
    (h : SortedKeys (X ++ (k, r) :: Y)) :
    fwdFrom (X ++ (k, r) :: Y) k = (k, r) :: Y := by
  obtain ⟨hX, hY⟩ := sorted_mid_bounds h
  unfold fwdFrom
  rw [List.filter_append, List.filter_cons_of_pos (by simp)]
  rw [List.filter_eq_nil.mpr (by intro e he; simp; exact hX e he),
    List.filter_eq_self.mpr (by intro e he; simp; exact Nat.le_of_lt (hY e he))]
  rfl

theorem dqPart_of_decomp {X Y : List (Nat × QueuedSong)} {k : Nat} {r : QueuedSong}
    (h : SortedKeys (X ++ (k, r) :: Y)) :
    (X ++ (k, r) :: Y).filter (fun e => e.1 < k) = X := by
  obtain ⟨hX, hY⟩ := sorted_mid_bounds h
  rw [List.filter_append, List.filter_cons_of_neg (by simp)]
  rw [List.filter_eq_self.mpr (by intro e he; simp; exact hX e he),
    List.filter_eq_nil.mpr (by intro e he; simp; exact Nat.le_of_lt (hY e he))]
  simp

theorem revFrom_of_decomp {X Y : List (Nat × QueuedSong)} {k : Nat} {r : QueuedSong}
    (h : SortedKeys (X ++ (k, r) :: Y)) :
    revFrom (X ++ (k, r) :: Y) k = (k, r) :: X.reverse := by
  obtain ⟨hX, hY⟩ := sorted_mid_bounds h
  unfold revFrom
  rw [List.filter_append, List.filter_cons_of_pos (by simp)]
  rw [List.filter_eq_self.mpr (by intro e he; simp; exact Nat.le_of_lt (hX e he)),
    List.filter_eq_nil.mpr (by intro e he; simp; exact hY e he)]
  simp

theorem getEntry_of_decomp {β : Type} {X Y : List (Nat × β)} {k : Nat} {r : β}
    (h : SortedKeys (X ++ (k, r) :: Y)) :
    getEntry (X ++ (k, r) :: Y) k = some r := by
  refine getEntry_of_mem_nodup (sortedKeys_nodup h) ?_
  exact List.mem_append.mpr (.inr (List.mem_cons_self _ _))

theorem songs_split (l : List (Nat × QueuedSong)) (h : Nat) (hs : SortedKeys l) :
    l.filter (fun e => e.1 < h) ++ fwdFrom l h = l := by
  induction l with
  | nil => rfl
  | cons f rest ih =>
    have hf : ∀ e ∈ rest, f.1 < e.1 := (List.pairwise_cons.mp hs).1
    have hrest := ih (List.pairwise_cons.mp hs).2
    unfold fwdFrom at hrest ⊢
    by_cases hlt : f.1 < h
    · rw [List.filter_cons_of_pos (by simpa using hlt),
        List.filter_cons_of_neg (by simpa using hlt)]
      simpa using hrest
    · rw [List.filter_cons_of_neg (by simpa using hlt),
        List.filter_cons_of_pos (by simp; omega)]
      rw [List.filter_eq_nil.mpr (by intro e he; simp; have := hf e he; omega)]
      rw [List.filter_eq_self.mpr (by intro e he; simp; have := hf e he; omega)]
      rfl

theorem listLoop_full (l : List (Nat × QueuedSong)) (lim : Int)
    (h : (l.length : Int) ≤ lim) : listLoop l 0 lim = l.map (·.2) := by
  induction l generalizing lim with
  | nil => rfl
  | cons e rest ih =>
    unfold listLoop
    rw [if_neg (by omega), if_neg (by simp at h; omega)]
    rw [ih (lim - 1) (by simp at h ⊢; omega)]
    rfl

theorem listLoop_mem {l : List (Nat × QueuedSong)} {off lim : Int} {r : QueuedSong}
    (h : r ∈ listLoop l off lim) : ∃ e ∈ l, r = e.2 := by
  induction l generalizing off lim with
  | nil => cases h
  | cons e rest ih =>
    unfold listLoop at h
    by_cases h1 : off > 0
    · rw [if_pos h1] at h
      obtain ⟨f, hf, hr⟩ := ih h
      exact ⟨f, List.mem_cons_of_mem e hf, hr⟩
    · rw [if_neg h1] at h
      by_cases h2 : lim = 0
      · rw [if_pos h2] at h
        cases h
      · rw [if_neg h2] at h
        rcases List.mem_cons.mp h with h' | h'
        · exact ⟨e, List.mem_cons_self e rest, h'⟩
        · obtain ⟨f, hf, hr⟩ := ih h'
          exact ⟨f, List.mem_cons_of_mem e hf, hr⟩

theorem digitsValAux_append (xs ys : GoStr) (acc : Nat) :
    digitsValAux acc (xs ++ ys) =
      match digitsValAux acc xs with
      | some a => digitsValAux a ys
      | none => none := by
  induction xs generalizing acc with
  | nil => rfl
  | cons c cs ih =>
    show digitsValAux acc (c :: (cs ++ ys)) = _
    cases hd : digitVal c with
    | none => simp only [digitsValAux, hd]
    | some d =>
      simp only [digitsValAux, hd]
      exact ih (acc * 10 + d)

theorem digitsValAux_digit (acc d : Nat) (h : d < 10) :
    digitsValAux acc [48 + d] = some (acc * 10 + d) := by
  unfold digitsValAux digitVal
  rw [if_pos (by omega)]
  show digitsValAux (acc * 10 + (48 + d - 48)) [] = some (acc * 10 + d)
  unfold digitsValAux
  simp only [Option.some.injEq]
  omega

theorem natDecimal_val (m : Nat) : digitsValAux 0 (natDecimal m) = some m := by
  induction m using Nat.strong_induction_on with
  | _ m ih =>
    unfold natDecimal
    by_cases h : m < 10
    · rw [dif_pos h]
      rw [show (48 + m : Nat) = 48 + m from rfl]
      rw [digitsValAux_digit 0 m h]
      simp
    · rw [dif_neg h]
      rw [digitsValAux_append]
      rw [ih (m / 10) (Nat.div_lt_self (by omega) (by omega))]
      show digitsValAux (m / 10) [48 + m % 10] = some m
      rw [digitsValAux_digit (m / 10) (m % 10) (Nat.mod_lt m (by omega))]
      simp only [Option.some.injEq]
      omega

theorem natDecimal_digits (m : Nat) : ∀ c ∈ natDecimal m, 48 ≤ c ∧ c ≤ 57 := by
  induction m using Nat.strong_induction_on with
  | _ m ih =>
    unfold natDecimal
    by_cases h : m < 10
    · rw [dif_pos h]
      intro c hc
      simp at hc
      omega
    · rw [dif_neg h]
      intro c hc
      rcases List.mem_append.mp hc with hc | hc
      · exact ih (m / 10) (Nat.div_lt_self (by omega) (by omega)) c hc
      · simp at hc
        have := Nat.mod_lt m (show 0 < 10 by omega)
        omega

theorem natDecimal_ne_nil (m : Nat) : natDecimal m ≠ [] := by
  unfold natDecimal
  by_cases h : m < 10
  · rw [dif_pos h]
    simp
  · rw [dif_neg h]
    simp

theorem goAtoi_natDecimal (m : Nat) :
    goAtoi (natDecimal m) =
      if m < 2 ^ 63 then some (m : Int) else none := by
  obtain ⟨c, rest, hcons⟩ := List.exists_cons_of_ne_nil (natDecimal_ne_nil m)
  have hc : 48 ≤ c ∧ c ≤ 57 := natDecimal_digits m c (hcons ▸ List.mem_cons_self c rest)
  have hval : digitsValAux 0 (c :: rest) = some m := hcons ▸ natDecimal_val m
  have h45 : ¬(c = 45) := by omega
  have h43 : ¬(c = 43) := by omega
  rw [hcons]
  simp only [goAtoi]
  have hsg : (if c = 45 then ((true : Bool), rest)
      else if c = 43 then ((false : Bool), rest) else ((false : Bool), c :: rest)) =
      ((false : Bool), c :: rest) := by
    rw [if_neg h45, if_neg h43]
  simp only [hsg, hval]
  show (if ((m : Int) < -(2 ^ 63 : Int) ∨ (2 ^ 63 : Int) ≤ (m : Int)) then none
    else some (m : Int)) = (if m < 2 ^ 63 then some (m : Int) else none)
  by_cases hm : m < 2 ^ 63
  · rw [if_neg (by push_cast; omega), if_pos hm]
  · rw [if_pos (.inr (by push_cast; omega)), if_neg hm]

theorem afterFirstDash_append (w t : GoStr) (hw : 45 ∉ w) :
    afterFirstDash (w ++ 45 :: t) = some t := by
  induction w with
  | nil => simp [afterFirstDash]
  | cons c w' ih =>
    have hc : c ≠ 45 := fun habs => hw (habs ▸ List.mem_cons_self c w')
    show afterFirstDash (c :: (w' ++ 45 :: t)) = some t
    unfold afterFirstDash
    rw [if_neg hc]
    exact ih (fun habs => hw (List.mem_cons_of_mem c habs))

theorem isPrefixOf_append (l t : GoStr) : l.isPrefixOf (l ++ t) = true := by
  induction l with
  | nil =>
    rw [List.nil_append]
    cases t with
    | nil => rfl
    | cons a t' => rfl
  | cons c l' ih => simpa [List.isPrefixOf] using ih

theorem scanSlugs_mono (cand : GoStr) (l : List (GoStr × Nat)) (maxD : Int) (cnt : Nat)
    (mx : Int) (c' : Nat) (h : scanSlugs cand l maxD cnt = .ok (mx, c')) :
    maxD ≤ mx ∧ cnt ≤ c' := by
  induction l generalizing maxD cnt with
  | nil =>
    unfold scanSlugs at h
    cases h
    exact ⟨le_refl _, le_refl _⟩
  | cons e rest ih =>
    unfold scanSlugs at h
    by_cases hp : cand.isPrefixOf e.1
    · rw [if_pos hp] at h
      cases hd : afterFirstDash e.1 with
      | none =>
        simp only [hd] at h
        have := ih _ _ h
        omega
      | some suf =>
        simp only [hd] at h
        cases ha : goAtoi suf with
        | none => simp only [ha] at h; cases h
        | some n =>
          simp only [ha] at h
          have := ih _ _ h
          by_cases hn : n > maxD
          · rw [if_pos hn] at this; omega
          · rw [if_neg hn] at this; omega
    · rw [if_neg hp] at h
      exact ih _ _ h

theorem scanSlugs_zero_no_prefix (cand : GoStr) (l : List (GoStr × Nat)) (maxD : Int)
    (cnt : Nat) (mx : Int) (h : scanSlugs cand l maxD cnt = .ok (mx, cnt)) :
    ∀ e ∈ l, ¬(cand.isPrefixOf e.1 = true) := by
  induction l generalizing maxD with
  | nil => intro e he; cases he
  | cons f rest ih =>
    intro e he
    unfold scanSlugs at h
    by_cases hp : cand.isPrefixOf f.1
    · exfalso
      rw [if_pos hp] at h
      cases hd : afterFirstDash f.1 with
      | none =>
        simp only [hd] at h
        have := (scanSlugs_mono _ _ _ _ _ _ h).2
        omega
      | some suf =>
        simp only [hd] at h
        cases ha : goAtoi suf with
        | none => simp only [ha] at h; cases h
        | some n =>
          simp only [ha] at h
          have := (scanSlugs_mono _ _ _ _ _ _ h).2
          omega
    · rw [if_neg hp] at h
      rcases List.mem_cons.mp he with rfl | he'
      · exact fun habs => hp habs
      · exact ih _ h e he'

theorem scanSlugs_suffix_bound (cand : GoStr) (l : List (GoStr × Nat)) (maxD : Int)
    (cnt : Nat) (mx : Int) (c' : Nat) (h : scanSlugs cand l maxD cnt = .ok (mx, c')) :
    ∀ e ∈ l, cand.isPrefixOf e.1 = true →
      ∀ suf, afterFirstDash e.1 = some suf →
        ∃ v, goAtoi suf = some v ∧ v ≤ mx := by
  induction l generalizing maxD cnt with
  | nil => intro e he; cases he
  | cons f rest ih =>
    intro e he hp suf hsuf
    unfold scanSlugs at h
    rcases List.mem_cons.mp he with rfl | he'
    · rw [if_pos hp] at h
      simp only [hsuf] at h
      cases ha : goAtoi suf with
      | none => simp only [ha] at h; cases h
      | some n =>
        simp only [ha] at h
        refine ⟨n, rfl, ?_⟩
        have := (scanSlugs_mono _ _ _ _ _ _ h).1
        by_cases hn : n > maxD
        · rw [if_pos hn] at this; omega
        · rw [if_neg hn] at this; omega
    · by_cases hpf : cand.isPrefixOf f.1
      · rw [if_pos hpf] at h
        cases hd : afterFirstDash f.1 with
        | none =>
          simp only [hd] at h
          exact ih _ _ h e he' hp suf hsuf
        | some suf' =>
          simp only [hd] at h
          cases ha : goAtoi suf' with
          | none => simp only [ha] at h; cases h
          | some n =>
            simp only [ha] at h
            exact ih _ _ h e he' hp suf hsuf
      · rw [if_neg hpf] at h
        exact ih _ _ h e he' hp suf hsuf

theorem putSlug_fresh {β : Type} (l : List (GoStr × β)) (sl : GoStr) (v : β)
    (h : sl ∉ keysOf l) : putSlug l sl v = l ++ [(sl, v)] := by
  induction l with
  | nil => rfl
  | cons e rest ih =>
    have he : ¬(e.1 = sl) := by
      intro habs
      exact h (habs ▸ List.mem_cons_self e.1 (keysOf rest))
    unfold putSlug
    rw [if_neg he]
    rw [ih (fun habs => h (List.mem_cons_of_mem e.1 habs))]
    rfl

theorem indexSlug_fresh (s : Store) (cand : GoStr) (id : Nat) (hcand : 45 ∉ cand)
    (slug : GoStr) (s2 : Store)
    (h : indexSlugFindNonDuplicate s cand id = .ok (slug, s2)) :
    slug ∉ keysOf s.slugIdx ∧
      s2 = { s with slugIdx := putSlug s.slugIdx slug id } := by
  unfold indexSlugFindNonDuplicate at h
  cases hscan : scanSlugs cand s.slugIdx 0 0 with
  | error e => rw [hscan] at h; cases h
  | ok r =>
    obtain ⟨mx, cnt⟩ := r
    rw [hscan] at h
    cases h
    by_cases hcnt : cnt = 0
    · rw [if_pos hcnt]
      refine ⟨?_, rfl⟩
      intro hmem
      obtain ⟨e, he, hke⟩ := List.mem_map.mp hmem
      subst hcnt
      apply scanSlugs_zero_no_prefix cand s.slugIdx 0 0 mx hscan e he
      rw [hke]
      have hself := isPrefixOf_append cand []
      rw [List.append_nil] at hself
      exact hself
    · rw [if_neg hcnt]
      refine ⟨?_, rfl⟩
      intro hmem
      obtain ⟨e, he, hke⟩ := List.mem_map.mp hmem
      have hmx : (0 : Int) ≤ mx := (scanSlugs_mono _ _ _ _ _ _ hscan).1
      have hpre : cand.isPrefixOf e.1 = true := by
        rw [hke]
        exact isPrefixOf_append cand _
      have hItoa : goItoa (mx + 1) = natDecimal (mx + 1).toNat := by
        unfold goItoa
        rw [if_neg (by omega)]
      have hdash : afterFirstDash e.1 = some (goItoa (mx + 1)) := by
        rw [hke]
        exact afterFirstDash_append cand _ hcand
      obtain ⟨v, hv, hvle⟩ :=
        scanSlugs_suffix_bound cand s.slugIdx 0 0 mx cnt hscan e he hpre _ hdash
      rw [hItoa, goAtoi_natDecimal] at hv
      by_cases hlt : (mx + 1).toNat < 2 ^ 63
      · rw [if_pos hlt] at hv
        cases hv
        omega
      · rw [if_neg hlt] at hv
        cases hv

theorem entry_unique {κ β : Type} [DecidableEq κ] {l : List (κ × β)} {k : κ} {a b : β}
    (hnd : (keysOf l).Nodup) (ha : (k, a) ∈ l) (hb : (k, b) ∈ l) : a = b := by
  have h1 := getEntry_of_mem_nodup hnd ha
  have h2 := getEntry_of_mem_nodup hnd hb
  rw [h1] at h2
  cases h2
  rfl

theorem map_keep {α : Type} {l : List α} {f : α → α} (h : ∀ e ∈ l, f e = e) :
    l.map f = l := by
  induction l with
  | nil => rfl
  | cons a rest ih =>
    rw [List.map_cons, h a (List.mem_cons_self a rest),
      ih (fun e he => h e (List.mem_cons_of_mem a he))]

theorem keysOf_map_fst {κ β : Type} {l : List (κ × β)} {f : κ × β → κ × β}
    (h : ∀ e ∈ l, (f e).1 = e.1) : keysOf (l.map f) = keysOf l := by
  induction l with
  | nil => rfl
  | cons a rest ih =>
    unfold keysOf at ih ⊢
    rw [List.map_cons, List.map_cons, List.map_cons, h a (List.mem_cons_self a rest),
      ih (fun e he => h e (List.mem_cons_of_mem a he))]

theorem putEntry_eq_map {β : Type} {l : List (Nat × β)} {k : Nat} (v : β)
    (hs : SortedKeys l) (hk : k ∈ keysOf l) :
    putEntry l k v = l.map (fun e => if e.1 = k then (k, v) else e) := by
  induction l with
  | nil => cases hk
  | cons f rest ih =>
    have hf : ∀ e ∈ rest, f.1 < e.1 := (List.pairwise_cons.mp hs).1
    unfold putEntry
    by_cases h2 : k = f.1
    · rw [if_neg (by omega), if_pos h2, List.map_cons, if_pos h2.symm]
      rw [map_keep (fun e he => if_neg (by have := hf e he; omega))]
    · have hkrest : k ∈ keysOf rest := by
        rcases List.mem_cons.mp hk with h' | h'
        · exact absurd (show k = f.1 from h') h2
        · exact h'
      have hfk : f.1 < k := by
        obtain ⟨e, he, hke⟩ := List.mem_map.mp hkrest
        have := hf e he
        omega
      rw [if_neg (by omega), if_neg h2, List.map_cons,
        if_neg (by omega), ih (List.pairwise_cons.mp hs).2 hkrest]

theorem putSlug_eq_map {β : Type} {l : List (GoStr × β)} {sl : GoStr} (v : β)
    (hnd : (keysOf l).Nodup) (hk : sl ∈ keysOf l) :
    putSlug l sl v = l.map (fun e => if e.1 = sl then (sl, v) else e) := by
  induction l with
  | nil => cases hk
  | cons f rest ih =>
    simp only [keysOf, List.map_cons, List.nodup_cons] at hnd
    unfold putSlug
    by_cases h2 : f.1 = sl
    · rw [if_pos h2, List.map_cons, if_pos h2]
      rw [map_keep (fun e he => if_neg (fun habs => hnd.1 (by
        rw [h2, ← habs]
        exact List.mem_map.mpr ⟨e, he, rfl⟩)))]
    · have hkrest : sl ∈ keysOf rest := by
        rcases List.mem_cons.mp hk with h' | h'
        · exact absurd h'.symm h2
        · exact h'
      rw [if_neg h2, List.map_cons, if_neg h2, ih hnd.2 hkrest]

theorem foldl_putEntry_eq_map {β : Type} (W : List (Nat × β)) (l0 : List (Nat × β))
    (hs : SortedKeys l0) (hnd : (keysOf W).Nodup) (hsub : ∀ w ∈ W, w.1 ∈ keysOf l0) :
    W.foldl (fun l w => putEntry l w.1 w.2) l0 =
      l0.map (fun e =>
        match getEntry W e.1 with
        | some v => (e.1, v)
        | none => e) := by
  induction W generalizing l0 with
  | nil =>
    show l0 = _
    rw [map_keep (fun e _ => by simp [getEntry])]
  | cons w W' ih =>
    show W'.foldl _ (putEntry l0 w.1 w.2) = _
    simp only [keysOf, List.map_cons, List.nodup_cons] at hnd
    have hw1 : w.1 ∈ keysOf l0 := hsub w (List.mem_cons_self w W')
    rw [putEntry_eq_map w.2 hs hw1]
    have hkeys : keysOf (l0.map (fun e => if e.1 = w.1 then (w.1, w.2) else e)) =
        keysOf l0 :=
      keysOf_map_fst (fun e _ => by by_cases h : e.1 = w.1 <;> simp [h])
    rw [ih _ (by rw [sortedKeys_iff_pairwise] at hs ⊢; rw [hkeys]; exact hs)
      (by exact hnd.2) (by rw [hkeys]; exact fun u hu => hsub u (List.mem_cons_of_mem w hu))]
    rw [List.map_map]
    refine List.map_congr_left (fun e he => ?_)
    show (match getEntry W' (if e.1 = w.1 then (w.1, w.2) else e).1 with
      | some v => ((if e.1 = w.1 then (w.1, w.2) else e).1, v)
      | none => (if e.1 = w.1 then (w.1, w.2) else e)) = _
    by_cases h : e.1 = w.1
    · rw [if_pos h]
      have hW' : getEntry W' w.1 = none := (getEntry_none_iff W' w.1).mpr hnd.1
      show (match getEntry W' w.1 with
        | some v => (w.1, v)
        | none => (w.1, w.2)) = _
      rw [hW']
      show (w.1, w.2) = _
      unfold getEntry
      rw [if_pos h.symm, h]
    · rw [if_neg h]
      rw [show getEntry (w :: W') e.1 =
        (if w.1 = e.1 then some w.2 else getEntry W' e.1) from rfl]
      rw [if_neg (fun habs => h habs.symm)]

theorem foldl_putSlug_eq_map {β : Type} (U : List (GoStr × β)) (l0 : List (GoStr × β))
    (hnd0 : (keysOf l0).Nodup) (hnd : (keysOf U).Nodup)
    (hsub : ∀ u ∈ U, u.1 ∈ keysOf l0) :
    U.foldl (fun l u => putSlug l u.1 u.2) l0 =
      l0.map (fun e =>
        match getEntry U e.1 with
        | some v => (e.1, v)
        | none => e) := by
  induction U generalizing l0 with
  | nil =>
    show l0 = _
    rw [map_keep (fun e _ => by simp [getEntry])]
  | cons u U' ih =>
    show U'.foldl _ (putSlug l0 u.1 u.2) = _
    simp only [keysOf, List.map_cons, List.nodup_cons] at hnd
    have hu1 : u.1 ∈ keysOf l0 := hsub u (List.mem_cons_self u U')
    rw [putSlug_eq_map u.2 hnd0 hu1]
    have hkeys : keysOf (l0.map (fun e => if e.1 = u.1 then (u.1, u.2) else e)) =
        keysOf l0 :=
      keysOf_map_fst (fun e _ => by by_cases h : e.1 = u.1 <;> simp [h])
    rw [ih _ (by rw [hkeys]; exact hnd0) (by exact hnd.2)
      (by rw [hkeys]; exact fun w hw => hsub w (List.mem_cons_of_mem u hw))]
    rw [List.map_map]
    refine List.map_congr_left (fun e he => ?_)
    show (match getEntry U' (if e.1 = u.1 then (u.1, u.2) else e).1 with
      | some v => ((if e.1 = u.1 then (u.1, u.2) else e).1, v)
      | none => (if e.1 = u.1 then (u.1, u.2) else e)) = _
    by_cases h : e.1 = u.1
    · rw [if_pos h]
      have hU' : getEntry U' u.1 = none := (getEntry_none_iff U' u.1).mpr hnd.1
      show (match getEntry U' u.1 with
        | some v => (u.1, v)
        | none => (u.1, u.2)) = _
      rw [hU']
      show (u.1, u.2) = _
      unfold getEntry
      rw [if_pos h.symm, h]
    · rw [if_neg h]
      rw [show getEntry (u :: U') e.1 =
        (if u.1 = e.1 then some u.2 else getEntry U' e.1) from rfl]
      rw [if_neg (fun habs => h habs.symm)]

theorem slugs_distinct {s : Store} (hinv : Inv s) {k1 k2 : Nat} {v1 v2 : QueuedSong}
    (h1 : (k1, v1) ∈ s.songs) (h2 : (k2, v2) ∈ s.songs)
    (hd1 : v1.dequeuedAt = 0) (hd2 : v2.dequeuedAt = 0)
    (hsl : v1.slug = v2.slug) : k1 = k2 := by
  have e1 := hinv.slugComplete (k1, v1) h1 hd1
  have e2 := hinv.slugComplete (k2, v2) h2 hd2
  rw [hsl] at e1
  exact entry_unique hinv.slugNodup e1 e2

theorem shiftLoop_eq (id : Nat) (last w : QueuedSong) (pre post : List (Nat × QueuedSong))
    (hpre : id ∉ keysOf pre) :
    shiftLoop id last (pre ++ (id, w) :: post) = shiftWrites last (pre ++ [(id, w)]) := by
  induction pre generalizing last with
  | nil =>
    show shiftLoop id last ((id, w) :: post) = _
    unfold shiftLoop shiftWrites
    rw [if_pos rfl]
    rfl
  | cons e pre' ih =>
    have he : ¬(e.1 = id) := by
      intro habs
      exact hpre (habs ▸ List.mem_cons_self e.1 (keysOf pre'))
    obtain ⟨k0, v0⟩ := e
    show shiftLoop id last ((k0, v0) :: (pre' ++ (id, w) :: post)) = _
    unfold shiftLoop
    rw [if_neg he]
    show (k0, { last with id := k0 }) :: shiftLoop id v0 (pre' ++ (id, w) :: post) = _
    rw [ih v0 (fun habs => hpre (List.mem_cons_of_mem k0 habs))]
    rfl

theorem shiftWrites_eq_reKey (v0 : QueuedSong) (l : List (Nat × QueuedSong)) :
    shiftWrites v0 l = reKey (keysOf l) (v0 :: l.map (·.2)) := by
  induction l generalizing v0 with
  | nil => rfl
  | cons e rest ih =>
    obtain ⟨k, v⟩ := e
    show shiftWrites v0 ((k, v) :: rest) = _
    unfold shiftWrites
    rw [ih v]
    rfl

theorem keysOf_reKey (ks : List Nat) (vs : List QueuedSong) (h : ks.length ≤ vs.length) :
    keysOf (reKey ks vs) = ks := by
  induction ks generalizing vs with
  | nil => rfl
  | cons k ks' ih =>
    cases vs with
    | nil => simp at h
    | cons v vs' =>
      show keysOf ((k, { v with id := k }) :: reKey ks' vs') = _
      unfold keysOf at ih ⊢
      rw [List.map_cons, ih vs' (by simp at h; omega)]

theorem reKey_append {ks1 ks2 : List Nat} {vs1 vs2 : List QueuedSong}
    (h : ks1.length = vs1.length) :
    reKey (ks1 ++ ks2) (vs1 ++ vs2) = reKey ks1 vs1 ++ reKey ks2 vs2 := by
  induction ks1 generalizing vs1 with
  | nil =>
    cases vs1 with
    | nil => rfl
    | cons v vs' => simp at h
  | cons k ks' ih =>
    cases vs1 with
    | nil => simp at h
    | cons v vs' =>
      show (k, { v with id := k }) :: reKey (ks' ++ ks2) (vs' ++ vs2) = _
      rw [ih (by simp at h; omega)]
      rfl

theorem mem_reKey {ks : List Nat} {vs : List QueuedSong} {e : Nat × QueuedSong}
    (h : e ∈ reKey ks vs) : e.1 ∈ ks ∧ ∃ v ∈ vs, e.2 = { v with id := e.1 } := by
  induction ks generalizing vs with
  | nil => cases h
  | cons k ks' ih =>
    cases vs with
    | nil => cases h
    | cons v vs' =>
      rcases List.mem_cons.mp h with h' | h'
      · rw [h']
        exact ⟨List.mem_cons_self k ks', v, List.mem_cons_self v vs', rfl⟩
      · obtain ⟨hk, w, hw, hwe⟩ := ih h'
        exact ⟨List.mem_cons_of_mem k hk, w, List.mem_cons_of_mem v hw, hwe⟩

theorem applyWrites_fields (s : Store) (W : List (Nat × QueuedSong)) :
    (applyWrites s W).songs = W.foldl (fun l w => putEntry l w.1 w.2) s.songs ∧
    (applyWrites s W).slugIdx =
      (W.map (fun w => (w.2.slug, w.1))).foldl (fun l u => putSlug l u.1 u.2) s.slugIdx ∧
    (applyWrites s W).head = s.head ∧
    (applyWrites s W).nextSeq = s.nextSeq := by
  induction W generalizing s with
  | nil => exact ⟨rfl, rfl, rfl, rfl⟩
  | cons w W' ih =>
    exact ih { s with
      songs := putEntry s.songs w.1 w.2
      slugIdx := putSlug s.slugIdx w.2.slug w.1 }

theorem putEntry_replace {β : Type} {X Y : List (Nat × β)} {k : Nat} {v0 : β} (v : β)
    (hX : ∀ e ∈ X, e.1 < k) : putEntry (X ++ (k, v0) :: Y) k v = X ++ (k, v) :: Y := by
  induction X with
  | nil =>
    show putEntry ((k, v0) :: Y) k v = _
    unfold putEntry
    rw [if_neg (by omega), if_pos rfl]
    rfl
  | cons f X' ih =>
    have hf := hX f (List.mem_cons_self f X')
    show putEntry (f :: (X' ++ (k, v0) :: Y)) k v = _
    unfold putEntry
    rw [if_neg (by omega), if_neg (by omega),
      ih (fun e he => hX e (List.mem_cons_of_mem f he))]
    rfl

theorem delEntry_of_not_mem {κ β : Type} [DecidableEq κ] {l : List (κ × β)} {k : κ}
    (h : ∀ e ∈ l, e.1 ≠ k) : delEntry l k = l := by
  induction l with
  | nil => rfl
  | cons f rest ih =>
    unfold delEntry
    rw [if_neg (h f (List.mem_cons_self f rest)),
      ih (fun e he => h e (List.mem_cons_of_mem f he))]

theorem delEntry_decomp {κ β : Type} [DecidableEq κ] {X Y : List (κ × β)} {k : κ} {v : β}
    (hX : ∀ e ∈ X, e.1 ≠ k) (hY : ∀ e ∈ Y, e.1 ≠ k) :
    delEntry (X ++ (k, v) :: Y) k = X ++ Y := by
  induction X with
  | nil =>
    show delEntry ((k, v) :: Y) k = _
    unfold delEntry
    rw [if_pos rfl, delEntry_of_not_mem hY]
    rfl
  | cons f X' ih =>
    have hf := hX f (List.mem_cons_self f X')
    show delEntry (f :: (X' ++ (k, v) :: Y)) k = _
    unfold delEntry
    rw [if_neg hf, ih (fun e he => hX e (List.mem_cons_of_mem f he))]
    rfl

theorem mem_decomp_sorted {β : Type} {l : List (Nat × β)} (hs : SortedKeys l) {k : Nat}
    {v : β} (hmem : (k, v) ∈ l) :
    ∃ X Y, l = X ++ (k, v) :: Y ∧ (∀ e ∈ X, e.1 < k) ∧ (∀ e ∈ Y, k < e.1) := by
  obtain ⟨X, Y, hl⟩ := List.append_of_mem hmem
  subst hl
  exact ⟨X, Y, rfl, (sorted_mid_bounds hs).1, (sorted_mid_bounds hs).2⟩

theorem sorted_parts {β : Type} {X Z : List (Nat × β)} {y : Nat × β}
    (h : SortedKeys (X ++ y :: Z)) : SortedKeys X ∧ SortedKeys Z := by
  unfold SortedKeys at h ⊢
  rw [List.pairwise_append] at h
  exact ⟨h.1, (List.pairwise_cons.mp h.2.1).2⟩

theorem keysOf_middle {β : Type} (X Y : List (Nat × β)) (k : Nat) (a b : β) :
    keysOf (X ++ (k, a) :: Y) = keysOf (X ++ (k, b) :: Y) := by
  simp [keysOf]

theorem dequeue_eval {s : Store} {h : Nat} (hinv : Inv s) (hh : s.head = some h)
    (now : Int) :
    ∃ D hs P',
      s.songs = D ++ (h, hs) :: P' ∧ hs.dequeuedAt = 0 ∧ hs.id = h ∧ hs.queuedAt = 0 ∧
      (∀ e ∈ D, e.1 < h) ∧ (∀ e ∈ P', h < e.1) ∧
      dequeue s now =
        .ok ({ hs with dequeuedAt := now },
          { songs := D ++ (h, { hs with dequeuedAt := now }) :: P'
            head := (P'.get? 0).map Prod.fst
            slugIdx := delEntry s.slugIdx hs.slug
            nextSeq := s.nextSeq }) := by
  obtain ⟨hs0, hmem⟩ : ∃ r, (h, r) ∈ s.songs := by
    obtain ⟨e, he, hke⟩ := List.mem_map.mp (hinv.headMem h hh)
    exact ⟨e.2, by rw [show (h, e.2) = e from by rw [← hke]]; exact he⟩
  obtain ⟨D, P', hsplit, hD, hP'⟩ := mem_decomp_sorted hinv.sorted hmem
  have hsor : SortedKeys (D ++ (h, hs0) :: P') := hsplit ▸ hinv.sorted
  have hpend : hs0.dequeuedAt = 0 := (hinv.headSplit h hh (h, hs0) hmem).mp (le_refl h)
  have hid : hs0.id = h := hinv.idField (h, hs0) hmem
  have hq : hs0.queuedAt = 0 := hinv.queuedAtZero (h, hs0) hmem
  refine ⟨D, hs0, P', hsplit, hpend, hid, hq, hD, hP', ?_⟩
  have hget : getEntry s.songs h = some hs0 := by
    rw [hsplit]
    exact getEntry_of_decomp hsor
  have hhead : headSong s = .ok hs0 := by
    simp only [headSong, hh, hget]
  have hfwd : fwdFrom s.songs h = (h, hs0) :: P' := by
    rw [hsplit]
    exact fwdFrom_of_decomp hsor
  have hupd : updateHead s hs0.id =
      { s with head := (P'.get? 0).map Prod.fst } := by
    rw [hid]
    unfold updateHead
    rw [hfwd]
    cases P' with
    | nil => rfl
    | cons e0 P'' => rfl
  simp only [dequeue, hhead, clearSlugIndex, hupd]
  rw [hid, hsplit, putEntry_replace _ hD]

theorem inv_dequeue {s : Store} {now : Int} {r : QueuedSong} {s' : Store}
    (hinv : Inv s) (hnow : now ≠ 0) (hde : dequeue s now = .ok (r, s')) : Inv s' := by
  cases hh : s.head with
  | none =>
    have : dequeue s now = .error .queueEmpty := by
      simp only [dequeue, headSong, hh]
    rw [this] at hde
    cases hde
  | some h =>
    obtain ⟨D, hs0, P', hsplit, hpend, hid, hq, hD, hP', heval⟩ := dequeue_eval hinv hh now
    have hmemHs0 : (h, hs0) ∈ s.songs := by
      rw [hsplit]
      exact List.mem_append_right _ (List.mem_cons_self _ _)
    rw [heval] at hde
    injection hde with hde
    injection hde with hde1 hde2
    subst hde1
    subst hde2
    have hsor : SortedKeys (D ++ (h, hs0) :: P') := hsplit ▸ hinv.sorted
    have hsorP' : SortedKeys P' := (sorted_parts hsor).2
    have memold : ∀ {e : Nat × QueuedSong},
        e ∈ D ++ (h, { hs0 with dequeuedAt := now }) :: P' →
        e ∈ s.songs ∨ e = (h, { hs0 with dequeuedAt := now }) := by
      intro e he
      rcases List.mem_append.mp he with h1 | h1
      · exact .inl (by rw [hsplit]; exact List.mem_append_left _ h1)
      · rcases List.mem_cons.mp h1 with rfl | h1
        · exact .inr rfl
        · exact .inl (by
            rw [hsplit]
            exact List.mem_append_right _ (List.mem_cons_of_mem _ h1))
    refine ⟨?_, ?_, ?_, ?_, ?_, ?_, ?_, ?_, ?_, ?_⟩
    · show SortedKeys (D ++ (h, { hs0 with dequeuedAt := now }) :: P')
      rw [sortedKeys_iff_pairwise, keysOf_middle D P' h _ hs0,
        ← sortedKeys_iff_pairwise]
      exact hsor
    · intro e he
      rcases memold he with h1 | h1
      · exact hinv.seqBound e h1
      · rw [h1]
        exact hinv.seqBound (h, hs0) hmemHs0
    · intro e he
      rcases memold he with h1 | h1
      · exact hinv.idField e h1
      · rw [h1]
        exact hid
    · intro e he
      rcases memold he with h1 | h1
      · exact hinv.queuedAtZero e h1
      · rw [h1]
        exact hq
    · intro h2 hh2
      cases P' with
      | nil => cases hh2
      | cons e0 P'' =>
        injection hh2 with hh2
        subst hh2
        show e0.1 ∈ keysOf (D ++ (h, _) :: e0 :: P'')
        exact List.mem_map.mpr ⟨e0,
          List.mem_append_right _ (List.mem_cons_of_mem _ (List.mem_cons_self e0 P'')),
          rfl⟩
    · intro h2 hh2 e he
      cases P' with
      | nil => cases hh2
      | cons e0 P'' =>
        injection hh2 with hh2
        subst hh2
        have he0 : h < e0.1 := hP' e0 (List.mem_cons_self e0 P'')
        rcases List.mem_append.mp he with h1 | h1
        · have hlt : e.1 < h := hD e h1
          have hold := hinv.headSplit h hh e
            (by rw [hsplit]; exact List.mem_append_left _ h1)
          exact iff_of_false (by omega) (fun habs => by
            have := hold.mpr habs
            omega)
        · rcases List.mem_cons.mp h1 with rfl | h1
          · exact iff_of_false (by simp; omega) (by simp; exact hnow)
          · have hge : e0.1 ≤ e.1 := by
              rcases List.mem_cons.mp h1 with rfl | h1
              · exact le_refl _
              · have := (List.pairwise_cons.mp hsorP').1 e h1
                omega
            have hgt : h < e.1 := by
              have := hP' e h1
              omega
            exact iff_of_true hge ((hinv.headSplit h hh e (by
              rw [hsplit]
              exact List.mem_append_right _ (List.mem_cons_of_mem _ h1))).mp (by omega))
    · intro hh2 e he
      cases P' with
      | cons e0 P'' => cases hh2
      | nil =>
        rcases List.mem_append.mp he with h1 | h1
        · have hlt : e.1 < h := hD e h1
          have hold := hinv.headSplit h hh e
            (by rw [hsplit]; exact List.mem_append_left _ h1)
          intro habs
          have := hold.mpr habs
          omega
        · rcases List.mem_cons.mp h1 with rfl | h1
          · simpa using hnow
          · cases h1
    · show (keysOf (delEntry s.slugIdx hs0.slug)).Nodup
      exact hinv.slugNodup.sublist ((delEntry_sublist s.slugIdx hs0.slug).map _)
    · intro e he
      obtain ⟨hold, hne⟩ := mem_delEntry.mp he
      obtain ⟨r, hrmem, hrp, hrsl⟩ := hinv.slugSound e hold
      have hne2 : e.2 ≠ h := by
        intro habs
        have hr2 : (h, r) ∈ s.songs := by
          rw [← habs]
          exact hrmem
        have : r = hs0 := entry_unique (sortedKeys_nodup hinv.sorted) hr2 hmemHs0
        exact hne (by rw [← hrsl, this])
      refine ⟨r, ?_, hrp, hrsl⟩
      rw [hsplit] at hrmem
      rcases List.mem_append.mp hrmem with h1 | h1
      · exact List.mem_append_left _ h1
      · rcases List.mem_cons.mp h1 with habs | h1
        · exact absurd (congrArg Prod.fst habs) hne2
        · exact List.mem_append_right _ (List.mem_cons_of_mem _ h1)
    · intro e he hep
      rcases List.mem_append.mp he with h1 | h1
      · have holdmem : e ∈ s.songs := by
          rw [hsplit]
          exact List.mem_append_left _ h1
        have hidx := hinv.slugComplete e holdmem hep
        refine mem_delEntry.mpr ⟨hidx, ?_⟩
        intro habs
        have : e.1 = h := slugs_distinct hinv holdmem hmemHs0 hep hpend habs
        have := hD e h1
        omega
      · rcases List.mem_cons.mp h1 with rfl | h1
        · exact absurd hep (by simpa using hnow)
        · have holdmem : e ∈ s.songs := by
            rw [hsplit]
            exact List.mem_append_right _ (List.mem_cons_of_mem _ h1)
          have hidx := hinv.slugComplete e holdmem hep
          refine mem_delEntry.mpr ⟨hidx, ?_⟩
          intro habs
          have : e.1 = h := slugs_distinct hinv holdmem hmemHs0 hep hpend habs
          have := hP' e h1
          omega

theorem enqueue_eval {s : Store} (hinv : Inv s) (song : NewSong) {cand : GoStr}
    (hcand : 45 ∉ cand) :
    (∃ e, enqueue s song cand = .error e) ∨
    (∃ slug, slug ∉ keysOf s.slugIdx ∧
      enqueue s song cand = .ok (s.nextSeq,
        { songs := s.songs ++ [(s.nextSeq,
            { newSong := song, id := s.nextSeq, slug := slug,
              queuedAt := 0, dequeuedAt := 0 })]
          head := some (s.head.getD s.nextSeq)
          slugIdx := s.slugIdx ++ [(slug, s.nextSeq)]
          nextSeq := s.nextSeq + 1 })) := by
  cases hidx : indexSlugFindNonDuplicate { s with nextSeq := s.nextSeq + 1 } cand
      s.nextSeq with
  | error e =>
    refine .inl ⟨e, ?_⟩
    simp only [enqueue, putSong, hidx]
  | ok pair =>
    obtain ⟨slug, s2⟩ := pair
    obtain ⟨hfr, hs2⟩ := indexSlug_fresh _ cand s.nextSeq hcand slug s2 hidx
    refine .inr ⟨slug, hfr, ?_⟩
    simp only [enqueue, putSong, hidx]
    rw [hs2]
    simp only []
    rw [putSlug_fresh s.slugIdx slug s.nextSeq hfr,
      putEntry_append_max s.songs s.nextSeq _ (fun e he => hinv.seqBound e he)]
    cases hh : s.head with
    | none =>
      simp only [checkHead, hh]
      rfl
    | some h0 =>
      simp only [checkHead, hh]
      rfl

theorem inv_applyEnqueue {s : Store} (hinv : Inv s) (song : NewSong) {cand : GoStr}
    (hcand : 45 ∉ cand) : Inv (applyEnqueue s song cand) := by
  rcases enqueue_eval hinv song hcand with ⟨e, heval⟩ | ⟨slug, hfr, heval⟩
  · simp only [applyEnqueue, heval]
    exact ⟨hinv.sorted, fun e he => Nat.lt_trans (hinv.seqBound e he) (Nat.lt_succ_self _),
      hinv.idField, hinv.queuedAtZero, hinv.headMem, hinv.headSplit, hinv.headNone,
      hinv.slugNodup, hinv.slugSound, hinv.slugComplete⟩
  · simp only [applyEnqueue, heval]
    set qs : QueuedSong :=
      { newSong := song, id := s.nextSeq, slug := slug,
        queuedAt := 0, dequeuedAt := 0 } with hqs
    have hseq : ∀ e ∈ s.songs, e.1 < s.nextSeq := hinv.seqBound
    refine ⟨?_, ?_, ?_, ?_, ?_, ?_, ?_, ?_, ?_, ?_⟩
    · refine List.pairwise_append.mpr ⟨hinv.sorted, List.pairwise_singleton _ _, ?_⟩
      intro a ha b hb
      rcases List.mem_singleton.mp hb with rfl
      exact hseq a ha
    · intro e he
      rcases List.mem_append.mp he with h1 | h1
      · exact Nat.lt_trans (hseq e h1) (Nat.lt_succ_self _)
      · rcases List.mem_singleton.mp h1 with rfl
        exact Nat.lt_succ_self _
    · intro e he
      rcases List.mem_append.mp he with h1 | h1
      · exact hinv.idField e h1
      · rcases List.mem_singleton.mp h1 with rfl
        rfl
    · intro e he
      rcases List.mem_append.mp he with h1 | h1
      · exact hinv.queuedAtZero e h1
      · rcases List.mem_singleton.mp h1 with rfl
        rfl
    · intro h0 hh0
      injection hh0 with hgd
      cases hh : s.head with
      | none =>
        rw [hh] at hgd
        simp only [Option.getD] at hgd
        subst hgd
        exact List.mem_map.mpr ⟨(s.nextSeq, qs),
          List.mem_append_right _ (List.mem_singleton.mpr rfl), rfl⟩
      | some h1 =>
        rw [hh] at hgd
        simp only [Option.getD] at hgd
        subst hgd
        obtain ⟨e, he, hke⟩ := List.mem_map.mp (hinv.headMem h1 hh)
        exact List.mem_map.mpr ⟨e, List.mem_append_left _ he, hke⟩
    · intro h0 hh0 e he
      injection hh0 with hgd
      cases hh : s.head with
      | none =>
        rw [hh] at hgd
        simp only [Option.getD] at hgd
        subst hgd
        rcases List.mem_append.mp he with h1 | h1
        · refine iff_of_false ?_ ?_
          · have := hseq e h1
            omega
          · exact hinv.headNone hh e h1
        · rcases List.mem_singleton.mp h1 with rfl
          exact iff_of_true (le_refl _) rfl
      | some h1 =>
        rw [hh] at hgd
        simp only [Option.getD] at hgd
        subst hgd
        rcases List.mem_append.mp he with hm | hm
        · exact hinv.headSplit h1 hh e hm
        · rcases List.mem_singleton.mp hm with rfl
          refine iff_of_true ?_ rfl
          obtain ⟨f, hf, hkf⟩ := List.mem_map.mp (hinv.headMem h1 hh)
          have hkf2 : f.1 = h1 := hkf
          have := hseq f hf
          simp only []
          omega
    · intro habs
      cases habs
    · show (keysOf (s.slugIdx ++ [(slug, s.nextSeq)])).Nodup
      unfold keysOf
      rw [List.map_append]
      rw [List.nodup_append]
      refine ⟨hinv.slugNodup, List.nodup_singleton _, ?_⟩
      intro a ha hb
      rcases List.mem_singleton.mp hb with rfl
      exact hfr ha
    · intro e he
      rcases List.mem_append.mp he with h1 | h1
      · obtain ⟨r, hrmem, hrp, hrsl⟩ := hinv.slugSound e h1
        exact ⟨r, List.mem_append_left _ hrmem, hrp, hrsl⟩
      · rcases List.mem_singleton.mp h1 with rfl
        exact ⟨qs, List.mem_append_right _ (List.mem_singleton.mpr rfl), rfl, rfl⟩
    · intro e he hep
      rcases List.mem_append.mp he with h1 | h1
      · exact List.mem_append_left _ (hinv.slugComplete e h1 hep)
      · rcases List.mem_singleton.mp h1 with rfl
        exact List.mem_append_right _ (List.mem_singleton.mpr rfl)

theorem update_eval {s : Store} (hinv : Inv s) {id : Nat} (song : NewSong)
    {oldSong : QueuedSong} (hget : getEntry s.songs id = some oldSong) :
    ∃ X Y, s.songs = X ++ (id, oldSong) :: Y ∧ (∀ e ∈ X, e.1 < id) ∧
      (∀ e ∈ Y, id < e.1) ∧
      update s id song =
        .ok { s with songs := X ++ (id, { oldSong with newSong := song }) :: Y } := by
  have hmem := getEntry_some_mem hget
  obtain ⟨X, Y, hsplit, hX, hY⟩ := mem_decomp_sorted hinv.sorted hmem
  refine ⟨X, Y, hsplit, hX, hY, ?_⟩
  simp only [update, hget]
  rw [hsplit, putEntry_replace _ hX]

theorem inv_update {s : Store} {id : Nat} {song : NewSong} {s' : Store} (hinv : Inv s)
    (h : update s id song = .ok s') : Inv s' := by
  cases hget : getEntry s.songs id with
  | none =>
    simp only [update, hget] at h
    cases h
  | some oldSong =>
    have hmem := getEntry_some_mem hget
    obtain ⟨X, Y, hsplit, hX, hY, heval⟩ := update_eval hinv song hget
    rw [heval] at h
    injection h with h
    subst h
    have memtr : ∀ {e : Nat × QueuedSong},
        e ∈ X ++ (id, { oldSong with newSong := song }) :: Y →
        e ∈ s.songs ∨ e = (id, { oldSong with newSong := song }) := by
      intro e he
      rcases List.mem_append.mp he with h1 | h1
      · exact .inl (by rw [hsplit]; exact List.mem_append_left _ h1)
      · rcases List.mem_cons.mp h1 with rfl | h1
        · exact .inr rfl
        · exact .inl (by
            rw [hsplit]
            exact List.mem_append_right _ (List.mem_cons_of_mem _ h1))
    have hkeys : keysOf (X ++ (id, { oldSong with newSong := song }) :: Y) =
        keysOf s.songs := by
      rw [hsplit]
      exact keysOf_middle X Y id _ oldSong
    refine ⟨?_, ?_, ?_, ?_, ?_, ?_, ?_, ?_, ?_, ?_⟩
    · rw [sortedKeys_iff_pairwise, hkeys, ← sortedKeys_iff_pairwise]
      exact hinv.sorted
    · intro e he
      rcases memtr he with h1 | h1
      · exact hinv.seqBound e h1
      · rw [h1]
        exact hinv.seqBound (id, oldSong) hmem
    · intro e he
      rcases memtr he with h1 | h1
      · exact hinv.idField e h1
      · rw [h1]
        exact hinv.idField (id, oldSong) hmem
    · intro e he
      rcases memtr he with h1 | h1
      · exact hinv.queuedAtZero e h1
      · rw [h1]
        exact hinv.queuedAtZero (id, oldSong) hmem
    · intro h0 hh0
      rw [show (⟨X ++ (id, { oldSong with newSong := song }) :: Y, s.head, s.slugIdx,
        s.nextSeq⟩ : Store).head = s.head from rfl] at hh0
      rw [show keysOf (X ++ (id, { oldSong with newSong := song }) :: Y) =
        keysOf s.songs from hkeys]
      exact hinv.headMem h0 hh0
    · intro h0 hh0 e he
      rcases memtr he with h1 | h1
      · exact hinv.headSplit h0 hh0 e h1
      · rw [h1]
        exact hinv.headSplit h0 hh0 (id, oldSong) hmem
    · intro hh0 e he
      rcases memtr he with h1 | h1
      · exact hinv.headNone hh0 e h1
      · rw [h1]
        exact hinv.headNone hh0 (id, oldSong) hmem
    · exact hinv.slugNodup
    · intro e he
      obtain ⟨r, hrmem, hrp, hrsl⟩ := hinv.slugSound e he
      by_cases h2 : e.2 = id
      · have hr2 : (id, r) ∈ s.songs := by
          rw [← h2]
          exact hrmem
        have hro : r = oldSong := entry_unique (sortedKeys_nodup hinv.sorted) hr2 hmem
        refine ⟨{ oldSong with newSong := song }, ?_, ?_, ?_⟩
        · rw [h2]
          exact List.mem_append_right _ (List.mem_cons_self _ _)
        · show oldSong.dequeuedAt = 0
          rw [← hro]
          exact hrp
        · show oldSong.slug = e.1
          rw [← hro]
          exact hrsl
      · refine ⟨r, ?_, hrp, hrsl⟩
        rw [hsplit] at hrmem
        rcases List.mem_append.mp hrmem with h1 | h1
        · exact List.mem_append_left _ h1
        · rcases List.mem_cons.mp h1 with habs | h1
          · exact absurd (congrArg Prod.fst habs) h2
          · exact List.mem_append_right _ (List.mem_cons_of_mem _ h1)
    · intro e he hep
      rcases memtr he with h1 | h1
      · exact hinv.slugComplete e h1 hep
      · rw [h1] at hep ⊢
        exact hinv.slugComplete (id, oldSong) hmem hep

theorem updateHead_eval {s : Store} {k : Nat} {pre : QueuedSong}
    {Y : List (Nat × QueuedSong)} (hfwd : fwdFrom s.songs k = (k, pre) :: Y) :
    updateHead s k = { s with head := (Y.get? 0).map Prod.fst } := by
  unfold updateHead
  rw [hfwd]
  cases Y with
  | nil => rfl
  | cons e0 Y' => rfl

theorem inv_remove {s : Store} {id : Nat} {s' : Store} (hinv : Inv s)
    (h : remove s id = .ok s') : Inv s' := by
  cases hget : getEntry s.songs id with
  | none =>
    simp only [remove, hget] at h
    cases h
  | some song0 =>
    have hmem := getEntry_some_mem hget
    obtain ⟨X, Y, hsplit, hX, hY⟩ := mem_decomp_sorted hinv.sorted hmem
    have hsor : SortedKeys (X ++ (id, song0) :: Y) := hsplit ▸ hinv.sorted
    have hsub : (X ++ Y).Sublist s.songs := by
      rw [hsplit]
      exact (List.sublist_cons_self (id, song0) Y).append_left X
    have hsubset : ∀ {e : Nat × QueuedSong}, e ∈ X ++ Y → e ∈ s.songs :=
      fun he => hsub.subset he
    have hsorted' : SortedKeys (X ++ Y) := List.Pairwise.sublist hsub hinv.sorted
    have hdel : delEntry s.songs id = X ++ Y := by
      rw [hsplit]
      exact delEntry_decomp (fun e he => by have := hX e he; omega)
        (fun e he => by have := hY e he; omega)
    have hkeyne : ∀ {e : Nat × QueuedSong}, e ∈ X ++ Y → e.1 ≠ id := by
      intro e he
      rcases List.mem_append.mp he with h1 | h1
      · have := hX e h1
        omega
      · have := hY e h1
        omega
    have hmemkeys : ∀ {h0 : Nat}, h0 ∈ keysOf s.songs → h0 ≠ id →
        h0 ∈ keysOf (X ++ Y) := by
      intro h0 hk hne
      obtain ⟨e, he, hke⟩ := List.mem_map.mp hk
      have hke2 : e.1 = h0 := hke
      rw [hsplit] at he
      rcases List.mem_append.mp he with h1 | h1
      · exact List.mem_map.mpr ⟨e, List.mem_append_left _ h1, hke⟩
      · rcases List.mem_cons.mp h1 with habs | h1
        · exact absurd (by rw [← hke2, habs] : h0 = id) hne
        · exact List.mem_map.mpr ⟨e, List.mem_append_right _ h1, hke⟩
    have hsoundDel : ∀ e ∈ delEntry s.slugIdx song0.slug,
        ∃ r, (e.2, r) ∈ X ++ Y ∧ r.dequeuedAt = 0 ∧ r.slug = e.1 := by
      intro e he
      obtain ⟨hold, hne⟩ := mem_delEntry.mp he
      obtain ⟨r, hrmem, hrp, hrsl⟩ := hinv.slugSound e hold
      have hne2 : e.2 ≠ id := by
        intro habs
        have hr2 : (id, r) ∈ s.songs := by
          rw [← habs]
          exact hrmem
        have : r = song0 := entry_unique (sortedKeys_nodup hinv.sorted) hr2 hmem
        exact hne (by rw [← hrsl, this])
      refine ⟨r, ?_, hrp, hrsl⟩
      rw [hsplit] at hrmem
      rcases List.mem_append.mp hrmem with h1 | h1
      · exact List.mem_append_left _ h1
      · rcases List.mem_cons.mp h1 with habs | h1
        · exact absurd (congrArg Prod.fst habs) hne2
        · exact List.mem_append_right _ h1
    by_cases hp : song0.dequeuedAt = 0
    · have hcompleteDel : ∀ e ∈ X ++ Y, e.2.dequeuedAt = 0 →
          (e.2.slug, e.1) ∈ delEntry s.slugIdx song0.slug := by
        intro e he hep
        refine mem_delEntry.mpr ⟨hinv.slugComplete e (hsubset he) hep, ?_⟩
        intro habs
        have : e.1 = id := slugs_distinct hinv (hsubset he) hmem hep hp habs
        exact hkeyne he this
      simp only [remove, hget] at h
      rw [if_pos hp] at h
      simp only [clearSlugIndex] at h
      by_cases hh : s.head = some id
      · rw [if_pos hh] at h
        have hfwd : fwdFrom s.songs id = (id, song0) :: Y := by
          rw [hsplit]
          exact fwdFrom_of_decomp hsor
        have hupd : updateHead { s with slugIdx := delEntry s.slugIdx song0.slug } id =
            { s with slugIdx := delEntry s.slugIdx song0.slug,
                     head := (Y.get? 0).map Prod.fst } := updateHead_eval hfwd
        rw [hupd] at h
        simp only [hdel] at h
        injection h with h
        subst h
        refine ⟨hsorted', fun e he => hinv.seqBound e (hsubset he),
          fun e he => hinv.idField e (hsubset he),
          fun e he => hinv.queuedAtZero e (hsubset he), ?_, ?_, ?_,
          hinv.slugNodup.sublist ((delEntry_sublist _ _).map _),
          hsoundDel, hcompleteDel⟩
        · intro h0 hh0
          cases Y with
          | nil => cases hh0
          | cons e0 Y'' =>
            injection hh0 with hgd
            subst hgd
            exact List.mem_map.mpr ⟨e0,
              List.mem_append_right _ (List.mem_cons_self e0 Y''), rfl⟩
        · intro h0 hh0 e he
          cases Y with
          | nil => cases hh0
          | cons e0 Y'' =>
            injection hh0 with hgd
            subst hgd
            have he0 : id < e0.1 := hY e0 (List.mem_cons_self e0 Y'')
            have hsorY : SortedKeys (e0 :: Y'') := (sorted_parts hsor).2
            rcases List.mem_append.mp he with h1 | h1
            · refine iff_of_false ?_ ?_
              · have := hX e h1
                omega
              · intro habs
                have := (hinv.headSplit id hh e
                  (hsubset (List.mem_append_left _ h1))).mpr habs
                have := hX e h1
                omega
            · refine iff_of_true ?_ ?_
              · rcases List.mem_cons.mp h1 with rfl | h1
                · exact le_refl _
                · have := (List.pairwise_cons.mp hsorY).1 e h1
                  omega
              · have hgt : id < e.1 := hY e h1
                exact (hinv.headSplit id hh e
                  (hsubset (List.mem_append_right _ h1))).mp (by omega)
        · intro hh0 e he
          cases Y with
          | cons e0 Y'' => cases hh0
          | nil =>
            intro habs
            have := (hinv.headSplit id hh e (hsubset he)).mpr habs
            rcases List.mem_append.mp he with h1 | h1
            · have := hX e h1
              omega
            · cases h1
      · rw [if_neg hh] at h
        simp only [hdel] at h
        injection h with h
        subst h
        refine ⟨hsorted', fun e he => hinv.seqBound e (hsubset he),
          fun e he => hinv.idField e (hsubset he),
          fun e he => hinv.queuedAtZero e (hsubset he), ?_,
          fun h0 hh0 e he => hinv.headSplit h0 hh0 e (hsubset he),
          fun hh0 e he => hinv.headNone hh0 e (hsubset he),
          hinv.slugNodup.sublist ((delEntry_sublist _ _).map _),
          hsoundDel, hcompleteDel⟩
        intro h0 hh0
        have hne : h0 ≠ id := by
          intro habs
          exact hh (habs ▸ hh0)
        exact hmemkeys (hinv.headMem h0 hh0) hne
    · have hh2 : ¬(s.head = some id) := by
        intro habs
        exact hp ((hinv.headSplit id habs (id, song0) hmem).mp (le_refl id))
      simp only [remove, hget] at h
      rw [if_neg hp, if_neg hh2] at h
      simp only [hdel] at h
      injection h with h
      subst h
      refine ⟨hsorted', fun e he => hinv.seqBound e (hsubset he),
        fun e he => hinv.idField e (hsubset he),
        fun e he => hinv.queuedAtZero e (hsubset he), ?_,
        fun h0 hh0 e he => hinv.headSplit h0 hh0 e (hsubset he),
        fun hh0 e he => hinv.headNone hh0 e (hsubset he),
        hinv.slugNodup, ?_,
        fun e he hep => hinv.slugComplete e (hsubset he) hep⟩
      · intro h0 hh0
        have hne : h0 ≠ id := by
          intro habs
          exact hh2 (habs ▸ hh0)
        exact hmemkeys (hinv.headMem h0 hh0) hne
      · intro e he
        obtain ⟨r, hrmem, hrp, hrsl⟩ := hinv.slugSound e he
        have hne2 : e.2 ≠ id := by
          intro habs
          have hr2 : (id, r) ∈ s.songs := by
            rw [← habs]
            exact hrmem
          have : r = song0 := entry_unique (sortedKeys_nodup hinv.sorted) hr2 hmem
          rw [this] at hrp
          exact hp hrp
        refine ⟨r, ?_, hrp, hrsl⟩
        rw [hsplit] at hrmem
        rcases List.mem_append.mp hrmem with h1 | h1
        · exact List.mem_append_left _ h1
        · rcases List.mem_cons.mp h1 with habs | h1
          · exact absurd (congrArg Prod.fst habs) hne2
          · exact List.mem_append_right _ h1

theorem keysOf_shiftWrites (v0 : QueuedSong) (l : List (Nat × QueuedSong)) :
    keysOf (shiftWrites v0 l) = keysOf l := by
  induction l generalizing v0 with
  | nil => rfl
  | cons e rest ih =>
    obtain ⟨k, v⟩ := e
    show keysOf ((k, { v0 with id := k }) :: shiftWrites v rest) = _
    unfold keysOf at ih ⊢
    rw [List.map_cons, List.map_cons, ih]

theorem reKey_truncate (ks : List Nat) (vs ws : List QueuedSong)
    (h : ks.length ≤ vs.length) : reKey ks (vs ++ ws) = reKey ks vs := by
  induction ks generalizing vs with
  | nil =>
    cases vs with
    | nil =>
      cases ws with
      | nil => rfl
      | cons w ws' => rfl
    | cons v vs' => rfl
  | cons k ks' ih =>
    cases vs with
    | nil => simp at h
    | cons v vs' =>
      show (k, { v with id := k }) :: reKey ks' (vs' ++ ws) = _
      rw [ih vs' (by simp at h; omega)]
      rfl

theorem reKey_reverse (ks : List Nat) (vs : List QueuedSong)
    (h : ks.length = vs.length) :
    (reKey ks vs).reverse = reKey ks.reverse vs.reverse := by
  induction ks generalizing vs with
  | nil =>
    cases vs with
    | nil => rfl
    | cons v vs' => simp at h
  | cons k ks' ih =>
    cases vs with
    | nil => simp at h
    | cons v vs' =>
      show ((k, { v with id := k }) :: reKey ks' vs').reverse = _
      have hlen2 : ks'.length = vs'.length := by
        have h2 : ks'.length + 1 = vs'.length + 1 := h
        omega
      rw [List.reverse_cons, ih vs' hlen2]
      rw [show (k :: ks').reverse = ks'.reverse ++ [k] from List.reverse_cons k ks',
        show (v :: vs').reverse = vs'.reverse ++ [v] from List.reverse_cons v vs']
      rw [reKey_append (by simpa using hlen2)]
      rfl

theorem reKey_map_slug (ks : List Nat) (vs : List QueuedSong) :
    (reKey ks vs).map (fun e => e.2.slug) = (vs.map (·.slug)).take ks.length := by
  induction ks generalizing vs with
  | nil =>
    cases vs with
    | nil => rfl
    | cons v vs' => rfl
  | cons k ks' ih =>
    cases vs with
    | nil => rfl
    | cons v vs' =>
      show v.slug :: (reKey ks' vs').map (fun e => e.2.slug) = _
      rw [ih vs']
      rfl

theorem getEntry_eq_of_perm {κ β : Type} [DecidableEq κ] {l1 l2 : List (κ × β)}
    (hperm : l1.Perm l2) (hnd : (keysOf l2).Nodup) (k : κ) :
    getEntry l1 k = getEntry l2 k := by
  cases hg : getEntry l1 k with
  | none =>
    rw [getEntry_none_iff] at hg
    have : k ∉ keysOf l2 := by
      intro habs
      obtain ⟨e, he, hke⟩ := List.mem_map.mp habs
      exact hg (List.mem_map.mpr ⟨e, hperm.symm.subset he, hke⟩)
    rw [(getEntry_none_iff l2 k).mpr this]
  | some v =>
    have := getEntry_some_mem hg
    exact (getEntry_of_mem_nodup hnd (hperm.subset this)).symm

theorem fwdFrom_of_parts {D R : List (Nat × QueuedSong)} {h : Nat}
    (hD : ∀ e ∈ D, e.1 < h) (hR : ∀ e ∈ R, h ≤ e.1) :
    fwdFrom (D ++ R) h = R := by
  unfold fwdFrom
  rw [List.filter_append,
    List.filter_eq_nil.mpr (by intro e he; simp; exact hD e he),
    List.filter_eq_self.mpr (by intro e he; simp; exact hR e he)]
  rfl

theorem distLoop_append (id : Nat) (w : QueuedSong) (A rest : List (Nat × QueuedSong))
    (acc : Int) (hA : id ∉ keysOf A) :
    distLoop id (A ++ (id, w) :: rest) acc = .ok (acc + A.length) := by
  induction A generalizing acc with
  | nil =>
    show distLoop id ((id, w) :: rest) acc = _
    unfold distLoop
    rw [if_pos rfl]
    simp
  | cons e A' ih =>
    have he : ¬(e.1 = id) := by
      intro habs
      exact hA (habs ▸ List.mem_cons_self e.1 (keysOf A'))
    show distLoop id (e :: (A' ++ (id, w) :: rest)) acc = _
    unfold distLoop
    rw [if_neg he, ih (acc + 1) (fun habs => hA (List.mem_cons_of_mem e.1 habs))]
    simp only [Except.ok.injEq, List.length_cons]
    push_cast
    omega

theorem distLoop_not_mem (id : Nat) (l : List (Nat × QueuedSong)) (acc : Int)
    (h : id ∉ keysOf l) : distLoop id l acc = .error .songNotFound := by
  induction l generalizing acc with
  | nil => rfl
  | cons e rest ih =>
    have he : ¬(e.1 = id) := by
      intro habs
      exact h (habs ▸ List.mem_cons_self e.1 (keysOf rest))
    unfold distLoop
    rw [if_neg he]
    exact ih (acc + 1) (fun habs => h (List.mem_cons_of_mem e.1 habs))

theorem get?_append_len {α : Type} (L1 L2 : List α) (y : α) :
    (L1 ++ y :: L2).get? L1.length = some y := by
  induction L1 with
  | nil => rfl
  | cons a L1' ih => exact ih

theorem map_shift_fwdlist (M : List (Nat × QueuedSong)) (k : Nat) (w : QueuedSong)
    (v0 : QueuedSong) (hnd : (keysOf (M ++ [(k, w)])).Nodup) :
    (M ++ [(k, w)]).map (fun e =>
      match getEntry (shiftWrites v0 (M ++ [(k, w)])) e.1 with
      | some v => (e.1, v)
      | none => e) =
    reKey (keysOf (M ++ [(k, w)])) (v0 :: M.map (·.2)) := by
  induction M generalizing v0 with
  | nil =>
    have hent : getEntry (shiftWrites v0 [(k, w)]) k = some { v0 with id := k } := by
      rw [show shiftWrites v0 [(k, w)] = [(k, { v0 with id := k })] from rfl]
      unfold getEntry
      rw [if_pos rfl]
    simp only [List.nil_append, List.map_cons, List.map_nil]
    rw [hent]
    rfl
  | cons z M' ih =>
    obtain ⟨zk, zv⟩ := z
    have hnd' : (keysOf (M' ++ [(k, w)])).Nodup := (List.nodup_cons.mp hnd).2
    have hzk : zk ∉ keysOf (M' ++ [(k, w)]) := (List.nodup_cons.mp hnd).1
    simp only [List.cons_append, List.map_cons]
    have hFz : (match getEntry (shiftWrites v0 ((zk, zv) :: (M' ++ [(k, w)])))
        ((zk, zv) : Nat × QueuedSong).1 with
        | some v => (((zk, zv) : Nat × QueuedSong).1, v)
        | none => (zk, zv)) = (zk, { v0 with id := zk }) := by
      rw [show shiftWrites v0 ((zk, zv) :: (M' ++ [(k, w)])) =
        (zk, { v0 with id := zk }) :: shiftWrites zv (M' ++ [(k, w)]) from rfl]
      rw [show getEntry ((zk, { v0 with id := zk }) :: shiftWrites zv (M' ++ [(k, w)]))
        ((zk, zv) : Nat × QueuedSong).1 = some { v0 with id := zk } from by
          unfold getEntry
          rw [if_pos rfl]]
    rw [hFz]
    rw [List.map_congr_left (g := fun e =>
      match getEntry (shiftWrites zv (M' ++ [(k, w)])) e.1 with
      | some v => (e.1, v)
      | none => e) (fun e he => by
        have hne : ¬(zk = e.1) := by
          intro habs
          exact hzk (habs ▸ List.mem_map.mpr ⟨e, he, rfl⟩)
        rw [show shiftWrites v0 ((zk, zv) :: (M' ++ [(k, w)])) =
          (zk, { v0 with id := zk }) :: shiftWrites zv (M' ++ [(k, w)]) from rfl]
        rw [show getEntry ((zk, { v0 with id := zk }) :: shiftWrites zv (M' ++ [(k, w)]))
          e.1 = (if zk = e.1 then some { v0 with id := zk }
            else getEntry (shiftWrites zv (M' ++ [(k, w)])) e.1) from rfl]
        rw [if_neg hne])]
    rw [ih zv hnd']
    rfl

theorem map_shift_revlist (N : List (Nat × QueuedSong)) (k : Nat) (w : QueuedSong)
    (v0 : QueuedSong) (hnd : (keysOf ((k, w) :: N.reverse)).Nodup) :
    ((k, w) :: N.reverse).map (fun e =>
      match getEntry (shiftWrites v0 (N ++ [(k, w)])) e.1 with
      | some v => (e.1, v)
      | none => e) =
    reKey (keysOf ((k, w) :: N.reverse)) (N.reverse.map (·.2) ++ [v0]) := by
  induction N generalizing v0 with
  | nil =>
    have hent : getEntry (shiftWrites v0 [(k, w)]) k = some { v0 with id := k } := by
      rw [show shiftWrites v0 [(k, w)] = [(k, { v0 with id := k })] from rfl]
      unfold getEntry
      rw [if_pos rfl]
    simp only [List.reverse_nil, List.map_cons, List.map_nil, List.nil_append]
    rw [hent]
    rfl
  | cons z N' ih =>
    obtain ⟨zk, zv⟩ := z
    have hrev : ((zk, zv) :: N').reverse = N'.reverse ++ [(zk, zv)] :=
      List.reverse_cons _ _
    have h0 : (keysOf ((k, w) :: (N'.reverse ++ [(zk, zv)]))).Nodup := by
      rw [← hrev]
      exact hnd
    have hkeq : keysOf ((k, w) :: (N'.reverse ++ [(zk, zv)])) =
        k :: (keysOf N'.reverse ++ [zk]) := by
      simp [keysOf]
    rw [hkeq] at h0
    obtain ⟨hk1, h2⟩ := List.nodup_cons.mp h0
    have h3 := List.nodup_append.mp h2
    have hzk : zk ∉ k :: keysOf N'.reverse := by
      intro habs
      rcases List.mem_cons.mp habs with habs | habs
      · exact hk1 (List.mem_append_right _ (List.mem_singleton.mpr habs.symm))
      · exact h3.2.2 habs (List.mem_singleton.mpr rfl)
    have hnd' : (keysOf ((k, w) :: N'.reverse)).Nodup := by
      have hcons : (k :: keysOf N'.reverse).Nodup := by
        rw [List.nodup_cons]
        exact ⟨fun habs => hk1 (List.mem_append_left _ habs), h3.1⟩
      simpa [keysOf] using hcons
    rw [hrev]
    rw [show ((k, w) :: (N'.reverse ++ [(zk, zv)])) =
      ((k, w) :: N'.reverse) ++ [(zk, zv)] from rfl]
    rw [List.map_append]
    have hW : shiftWrites v0 (((zk, zv) :: N') ++ [(k, w)]) =
        (zk, { v0 with id := zk }) :: shiftWrites zv (N' ++ [(k, w)]) := rfl
    have hFz : List.map (fun e =>
        match getEntry (shiftWrites v0 (((zk, zv) :: N') ++ [(k, w)])) e.1 with
        | some v => (e.1, v)
        | none => e) [(zk, zv)] = [(zk, { v0 with id := zk })] := by
      simp only [List.map_cons, List.map_nil]
      rw [hW]
      rw [show getEntry ((zk, { v0 with id := zk }) :: shiftWrites zv (N' ++ [(k, w)]))
        ((zk, zv) : Nat × QueuedSong).1 = some { v0 with id := zk } from by
          unfold getEntry
          rw [if_pos rfl]]
    rw [hFz]
    rw [List.map_congr_left (g := fun e =>
      match getEntry (shiftWrites zv (N' ++ [(k, w)])) e.1 with
      | some v => (e.1, v)
      | none => e) (fun e he => by
        have hne : ¬(zk = e.1) := by
          intro habs
          apply hzk
          rcases List.mem_cons.mp he with rfl | he'
          · exact habs ▸ List.mem_cons_self _ _
          · exact List.mem_cons_of_mem _ (habs ▸ List.mem_map.mpr ⟨e, he', rfl⟩)
        rw [hW]
        rw [show getEntry ((zk, { v0 with id := zk }) :: shiftWrites zv (N' ++ [(k, w)]))
          e.1 = (if zk = e.1 then some { v0 with id := zk }
            else getEntry (shiftWrites zv (N' ++ [(k, w)])) e.1) from rfl]
        rw [if_neg hne])]
    rw [ih zv hnd']
    rw [show keysOf (((k, w) :: N'.reverse) ++ [(zk, zv)]) =
      keysOf ((k, w) :: N'.reverse) ++ [zk] from by simp [keysOf]]
    rw [show List.map (fun x => (x : Nat × QueuedSong).2) (N'.reverse ++ [(zk, zv)]) ++ [v0] =
      (List.map (fun x => (x : Nat × QueuedSong).2) N'.reverse ++ [zv]) ++ [v0] from by simp]
    rw [reKey_append (by simp [keysOf])]
    rfl

theorem keysOf_reverse {β : Type} (l : List (Nat × β)) :
    keysOf l.reverse = (keysOf l).reverse := by
  simp [keysOf]

theorem nodup_parts {l0 l1 l2 l3 : List Nat} {a b : Nat}
    (h : (l0 ++ (l1 ++ a :: (l2 ++ b :: l3))).Nodup) :
    (∀ x ∈ l0 ++ l1, x ∉ a :: (l2 ++ [b])) ∧ (∀ x ∈ l3, x ∉ a :: (l2 ++ [b])) ∧
    (a :: (l2 ++ [b])).Nodup := by
  rw [List.nodup_append] at h
  obtain ⟨h0, hq, disj0⟩ := h
  rw [List.nodup_append] at hq
  obtain ⟨h1, hr, disj1⟩ := hq
  rw [List.nodup_cons] at hr
  obtain ⟨ha, hw⟩ := hr
  rw [List.nodup_append] at hw
  obtain ⟨h2, hu, disj2⟩ := hw
  rw [List.nodup_cons] at hu
  obtain ⟨hb, h3⟩ := hu
  have hseg : ∀ x, x ∈ a :: (l2 ++ [b]) → x ∈ a :: (l2 ++ b :: l3) := by
    intro x hx
    rcases List.mem_cons.mp hx with rfl | hx
    · exact List.mem_cons_self _ _
    · rcases List.mem_append.mp hx with hx | hx
      · exact List.mem_cons_of_mem _ (List.mem_append_left _ hx)
      · rcases List.mem_singleton.mp hx with rfl
        exact List.mem_cons_of_mem _
          (List.mem_append_right _ (List.mem_cons_self _ _))
  refine ⟨?_, ?_, ?_⟩
  · intro x hx habs
    rcases List.mem_append.mp hx with hx | hx
    · exact disj0 hx (List.mem_append_right _ (hseg x habs))
    · exact disj1 hx (hseg x habs)
  · intro x hx habs
    rcases List.mem_cons.mp habs with rfl | habs
    · exact ha (List.mem_append_right _ (List.mem_cons_of_mem _ hx))
    · rcases List.mem_append.mp habs with habs | habs
      · exact disj2 habs (List.mem_cons_of_mem _ hx)
      · rcases List.mem_singleton.mp habs with rfl
        exact hb hx
  · rw [List.nodup_cons]
    refine ⟨?_, ?_⟩
    · intro habs
      rcases List.mem_append.mp habs with habs | habs
      · exact ha (List.mem_append_left _ habs)
      · rcases List.mem_singleton.mp habs with rfl
        exact ha (List.mem_append_right _ (List.mem_cons_self _ _))
    · rw [List.nodup_append]
      refine ⟨h2, List.nodup_singleton _, ?_⟩
      intro x hx habs
      rcases List.mem_singleton.mp habs with rfl
      exact disj2 hx (List.mem_cons_self _ _)

theorem take_len_cons_append {α : Type} (x : α) (A : List α) (rest : List α) :
    (x :: (A ++ rest)).take (A.length + 1) = x :: A := by
  rw [List.take_succ_cons, List.take_left' rfl]

theorem repFn_some {κ β : Type} [DecidableEq κ] {W : List (κ × β)} {e : κ × β} {v : β}
    (h : getEntry W e.1 = some v) : repFn W e = (e.1, v) := by
  simp only [repFn, h]

theorem repFn_none {κ β : Type} [DecidableEq κ] {W : List (κ × β)} {e : κ × β}
    (h : getEntry W e.1 = none) : repFn W e = e := by
  simp only [repFn, h]

theorem repFn_fst {κ β : Type} [DecidableEq κ] (W : List (κ × β)) (e : κ × β) :
    (repFn W e).1 = e.1 := by
  cases hg : getEntry W e.1 with
  | none => rw [repFn_none hg]
  | some v => rw [repFn_some hg]

theorem foldl_putEntry_map {β : Type} (W : List (Nat × β)) (l0 : List (Nat × β))
    (hs : SortedKeys l0) (hnd : (keysOf W).Nodup) (hsub : ∀ w ∈ W, w.1 ∈ keysOf l0) :
    W.foldl (fun l w => putEntry l w.1 w.2) l0 = l0.map (repFn W) := by
  rw [foldl_putEntry_eq_map W l0 hs hnd hsub]
  refine List.map_congr_left (fun e _ => ?_)
  cases hg : getEntry W e.1 with
  | none => rw [repFn_none hg]
  | some v => rw [repFn_some hg]

theorem foldl_putSlug_map {β : Type} (U : List (GoStr × β)) (l0 : List (GoStr × β))
    (hnd0 : (keysOf l0).Nodup) (hnd : (keysOf U).Nodup)
    (hsub : ∀ u ∈ U, u.1 ∈ keysOf l0) :
    U.foldl (fun l u => putSlug l u.1 u.2) l0 = l0.map (repFn U) := by
  rw [foldl_putSlug_eq_map U l0 hnd0 hnd hsub]
  refine List.map_congr_left (fun e _ => ?_)
  cases hg : getEntry U e.1 with
  | none => rw [repFn_none hg]
  | some v => rw [repFn_some hg]

theorem map_shift_fwdlist_rep (M : List (Nat × QueuedSong)) (k : Nat) (w : QueuedSong)
    (v0 : QueuedSong) (hnd : (keysOf (M ++ [(k, w)])).Nodup) :
    (M ++ [(k, w)]).map (repFn (shiftWrites v0 (M ++ [(k, w)]))) =
    reKey (keysOf (M ++ [(k, w)])) (v0 :: M.map (·.2)) := by
  rw [← map_shift_fwdlist M k w v0 hnd]
  refine List.map_congr_left (fun e _ => ?_)
  cases hg : getEntry (shiftWrites v0 (M ++ [(k, w)])) e.1 with
  | none => rw [repFn_none hg]
  | some v => rw [repFn_some hg]

theorem map_shift_revlist_rep (N : List (Nat × QueuedSong)) (k : Nat) (w : QueuedSong)
    (v0 : QueuedSong) (hnd : (keysOf ((k, w) :: N.reverse)).Nodup) :
    ((k, w) :: N.reverse).map (repFn (shiftWrites v0 (N ++ [(k, w)]))) =
    reKey (keysOf ((k, w) :: N.reverse)) (N.reverse.map (·.2) ++ [v0]) := by
  rw [← map_shift_revlist N k w v0 hnd]
  refine List.map_congr_left (fun e _ => ?_)
  cases hg : getEntry (shiftWrites v0 (N ++ [(k, w)])) e.1 with
  | none => rw [repFn_none hg]
  | some v => rw [repFn_some hg]

theorem getEntry_repFn_map {κ β : Type} [DecidableEq κ] (W l : List (κ × β)) (k : κ) :
    getEntry (l.map (repFn W)) k =
      match getEntry l k with
      | none => none
      | some v =>
        match getEntry W k with
        | some u => some u
        | none => some v := by
  induction l with
  | nil => rfl
  | cons f rest ih =>
    rw [show getEntry ((f :: rest).map (repFn W)) k =
      (if (repFn W f).1 = k then some (repFn W f).2 else getEntry (rest.map (repFn W)) k)
      from rfl]
    rw [repFn_fst]
    rw [show getEntry (f :: rest) k = (if f.1 = k then some f.2 else getEntry rest k)
      from rfl]
    by_cases hk : f.1 = k
    · rw [if_pos hk, if_pos hk]
      cases hg : getEntry W f.1 with
      | none =>
        rw [repFn_none hg]
        rw [← hk, hg]
      | some v =>
        rw [repFn_some hg]
        rw [← hk, hg]
    · rw [if_neg hk, if_neg hk, ih]

theorem keysOf_length {κ β : Type} (l : List (κ × β)) : (keysOf l).length = l.length := by
  unfold keysOf
  rw [List.length_map]

theorem moveWBC_eval_fwd {s : Store} (hinv : Inv s)
    (D A M B : List (Nat × QueuedSong)) (ai ap : Nat) (ri rp : QueuedSong)
    (hsplit : s.songs = D ++ A ++ (ai, ri) :: M ++ (ap, rp) :: B)
    (hpendSeg : ∀ e ∈ (ai, ri) :: M ++ [(ap, rp)], e.2.dequeuedAt = 0)
    (cp np : Int) (hlt : cp < np) :
    moveWithoutBoundCheck s ai ap cp np = .ok
      { songs := D ++ A ++
          (reKey (ai :: (keysOf M ++ [ap])) ((M.map (·.2) ++ [rp]) ++ [ri]) ++ B)
        head := s.head
        slugIdx := s.slugIdx.map (repFn
          ((reKey (ai :: (keysOf M ++ [ap])) ((M.map (·.2) ++ [rp]) ++ [ri])).map
            (fun u => (u.2.slug, u.1))))
        nextSeq := s.nextSeq } := by
  have hsor : SortedKeys (D ++ A ++ (ai, ri) :: M ++ (ap, rp) :: B) := hsplit ▸ hinv.sorted
  have hkeys : keysOf (D ++ A ++ (ai, ri) :: M ++ (ap, rp) :: B) =
      keysOf D ++ (keysOf A ++ ai :: (keysOf M ++ ap :: keysOf B)) := by
    simp [keysOf]
  have hnd0 : (keysOf D ++ (keysOf A ++ ai :: (keysOf M ++ ap :: keysOf B))).Nodup := by
    rw [← hkeys]
    exact sortedKeys_nodup hsor
  obtain ⟨hout, hBout, hsegnd⟩ := nodup_parts hnd0
  have hsegnd2 := hsegnd
  rw [List.nodup_cons, List.nodup_append] at hsegnd2
  obtain ⟨haiM, hMnd, _, hMap⟩ := hsegnd2
  have hai_nM : ai ∉ keysOf M := fun habs => haiM (List.mem_append_left _ habs)
  have hai_ap : ¬ai = ap := fun habs =>
    haiM (List.mem_append_right _ (List.mem_singleton.mpr habs))
  have hap_nM : ap ∉ keysOf M := fun habs => hMap habs (List.mem_singleton.mpr rfl)
  have hne : ¬(ap = ai) := fun habs => hai_ap habs.symm
  have hgetai : getEntry s.songs ai = some ri := by
    rw [show s.songs = (D ++ A) ++ (ai, ri) :: (M ++ (ap, rp) :: B) from by
      rw [hsplit]; simp]
    refine getEntry_of_decomp ?_
    have : (D ++ A) ++ (ai, ri) :: (M ++ (ap, rp) :: B) =
        D ++ A ++ (ai, ri) :: M ++ (ap, rp) :: B := by simp
    rw [this]
    exact hsor
  have hrevFrom : revFrom s.songs ap = (ap, rp) :: (D ++ A ++ (ai, ri) :: M).reverse := by
    rw [hsplit]
    exact revFrom_of_decomp hsor
  have hXrev : (D ++ A ++ (ai, ri) :: M).reverse =
      M.reverse ++ (ai, ri) :: (A.reverse ++ D.reverse) := by
    simp
  have hshift : shiftLoop ai rp (M.reverse ++ (ai, ri) :: (A.reverse ++ D.reverse)) =
      shiftWrites rp (M.reverse ++ [(ai, ri)]) := by
    apply shiftLoop_eq
    intro habs
    rw [keysOf_reverse] at habs
    exact hai_nM (List.mem_reverse.mp habs)
  set W := shiftWrites rp (M.reverse ++ [(ai, ri)]) with hWdef
  set NF := reKey (ai :: keysOf M) (M.map (·.2) ++ [rp]) with hNFdef
  set cur : QueuedSong := { ri with id := ap } with hcurdef
  have hWkeys : keysOf W = (keysOf M).reverse ++ [ai] := by
    rw [hWdef, keysOf_shiftWrites]
    simp [keysOf]
  have hWkeysnd : (keysOf W).Nodup := by
    rw [hWkeys, List.nodup_append]
    exact ⟨List.nodup_reverse.mpr hMnd, List.nodup_singleton _,
      fun x hx hx2 => hai_nM (List.mem_reverse.mp ((List.mem_singleton.mp hx2) ▸ hx))⟩
  have hWkeyseg : ∀ k0, k0 ∈ keysOf W → k0 ∈ ai :: (keysOf M ++ [ap]) := by
    intro k0 hk0
    rw [hWkeys] at hk0
    rcases List.mem_append.mp hk0 with h1 | h1
    · exact List.mem_cons_of_mem _ (List.mem_append_left _ (List.mem_reverse.mp h1))
    · rcases List.mem_singleton.mp h1 with rfl
      exact List.mem_cons_self _ _
  have hWsub : ∀ w ∈ W, w.1 ∈ keysOf s.songs := by
    intro w hw
    have hmem : w.1 ∈ keysOf W := List.mem_map.mpr ⟨w, hw, rfl⟩
    have hseg := hWkeyseg w.1 hmem
    rw [hsplit, hkeys]
    rcases List.mem_cons.mp hseg with rfl | h1
    · exact List.mem_append_right _ (List.mem_append_right _ (List.mem_cons_self _ _))
    · rcases List.mem_append.mp h1 with h2 | h2
      · exact List.mem_append_right _ (List.mem_append_right _
          (List.mem_cons_of_mem _ (List.mem_append_left _ h2)))
      · rcases List.mem_singleton.mp h2 with rfl
        exact List.mem_append_right _ (List.mem_append_right _
          (List.mem_cons_of_mem _ (List.mem_append_right _ (List.mem_cons_self _ _))))
  obtain ⟨hAW1, hAW2, hAW3, hAW4⟩ := applyWrites_fields s W
  have hs1songs : (applyWrites s W).songs = s.songs.map (repFn W) := by
    rw [hAW1]
    exact foldl_putEntry_map W s.songs hinv.sorted hWkeysnd hWsub
  have hFout : ∀ (e : Nat × QueuedSong), e.1 ∉ ai :: (keysOf M ++ [ap]) →
      repFn W e = e := by
    intro e he
    refine repFn_none ((getEntry_none_iff W e.1).mpr ?_)
    intro habs
    exact he (hWkeyseg e.1 habs)
  have hFap : repFn W ((ap, rp) : Nat × QueuedSong) = (ap, rp) := by
    refine repFn_none ((getEntry_none_iff W ap).mpr ?_)
    rw [hWkeys]
    intro habs
    rcases List.mem_append.mp habs with h1 | h1
    · exact hap_nM (List.mem_reverse.mp h1)
    · exact hne (List.mem_singleton.mp h1)
  have hmapF : s.songs.map (repFn W) = D ++ A ++ (NF ++ ((ap, rp) :: B)) := by
    conv_lhs => rw [hsplit]
    rw [show D ++ A ++ (ai, ri) :: M ++ (ap, rp) :: B =
      D ++ (A ++ (((ai, ri) :: M) ++ ((ap, rp) :: B))) from by simp]
    rw [List.map_append, List.map_append, List.map_append]
    rw [map_keep (fun e he => hFout e (fun habs => hout e.1
      (List.mem_append_left _ (List.mem_map.mpr ⟨e, he, rfl⟩)) habs))]
    rw [map_keep (fun e he => hFout e (fun habs => hout e.1
      (List.mem_append_right _ (List.mem_map.mpr ⟨e, he, rfl⟩)) habs))]
    have hmid := map_shift_revlist_rep M.reverse ai ri rp (by
      rw [List.reverse_reverse]
      show (keysOf ((ai, ri) :: M)).Nodup
      rw [show keysOf ((ai, ri) :: M) = ai :: keysOf M from by simp [keysOf]]
      exact List.nodup_cons.mpr ⟨hai_nM, hMnd⟩)
    rw [List.reverse_reverse] at hmid
    rw [hmid]
    rw [List.map_cons]
    rw [hFap]
    rw [map_keep (l := B) (fun e he => hFout e (fun habs => hBout e.1
      (List.mem_map.mpr ⟨e, he, rfl⟩) habs))]
    rw [hNFdef]
    rw [show keysOf ((ai, ri) :: M) = ai :: keysOf M from by simp [keysOf]]
    simp
  have hNFkeys : keysOf NF = ai :: keysOf M := by
    rw [hNFdef]
    exact keysOf_reKey _ _ (by simp [keysOf_length])
  have hboundap : ∀ e ∈ D ++ (A ++ NF), e.1 < ap := by
    have hb := (sorted_mid_bounds (X := D ++ A ++ (ai, ri) :: M) (Z := B) hsor).1
    intro e he
    rcases List.mem_append.mp he with h1 | h1
    · exact hb e (List.mem_append_left _ (List.mem_append_left _ h1))
    rcases List.mem_append.mp h1 with h1 | h1
    · exact hb e (List.mem_append_left _ (List.mem_append_right _ h1))
    · have hk : e.1 ∈ ai :: keysOf M := by
        rw [← hNFkeys]
        exact List.mem_map.mpr ⟨e, h1, rfl⟩
      rcases List.mem_cons.mp hk with h2 | h2
      · have := hb (ai, ri) (List.mem_append_right _ (List.mem_cons_self _ _))
        rw [h2]
        exact this
      · obtain ⟨f, hf, hkf⟩ := List.mem_map.mp h2
        have := hb f (List.mem_append_right _ (List.mem_cons_of_mem _ hf))
        rw [← hkf]
        exact this
  have hsongsEq : putEntry ((applyWrites s W).songs) ap cur =
      D ++ A ++ ((NF ++ [(ap, cur)]) ++ B) := by
    rw [hs1songs, hmapF]
    rw [show D ++ A ++ (NF ++ ((ap, rp) :: B)) =
      (D ++ (A ++ NF)) ++ (ap, rp) :: B from by simp]
    rw [putEntry_replace cur hboundap]
    simp
  -- slug side
  set SP : Nat × QueuedSong → GoStr × Nat := fun u => (u.2.slug, u.1) with hSPdef
  have hWrev : W.reverse = NF := by
    rw [hWdef, shiftWrites_eq_reKey]
    rw [show (M.reverse ++ [(ai, ri)]).map (·.2) = M.reverse.map (·.2) ++ [ri] from by simp]
    rw [show keysOf (M.reverse ++ [(ai, ri)]) = (keysOf M).reverse ++ [ai] from by
      simp [keysOf]]
    rw [show (rp :: (M.reverse.map (·.2) ++ [ri])) =
      (rp :: M.reverse.map (·.2)) ++ [ri] from by simp]
    rw [reKey_truncate _ _ _ (by simp [keysOf_length])]
    rw [reKey_reverse _ _ (by simp [keysOf_length])]
    rw [hNFdef]
    congr 1
    · simp
    · simp
  have hWperm : W.Perm NF := by
    rw [← hWrev]
    exact (List.reverse_perm W).symm
  have hWRperm : (W ++ [(ap, cur)]).Perm (NF ++ [(ap, cur)]) :=
    hWperm.append_right _
  have hsegRevMem : ∀ e ∈ ((ap, rp) :: (M.reverse ++ [(ai, ri)])),
      e ∈ s.songs ∧ e.2.dequeuedAt = 0 := by
    intro e he
    rcases List.mem_cons.mp he with rfl | he
    · constructor
      · rw [hsplit]
        exact List.mem_append_right _ (List.mem_cons_self _ _)
      · exact hpendSeg _ (List.mem_cons_of_mem _
          (List.mem_append_right _ (List.mem_singleton.mpr rfl)))
    rcases List.mem_append.mp he with he | he
    · have hM := List.mem_reverse.mp he
      constructor
      · rw [hsplit]
        exact List.mem_append_left _ (List.mem_append_right _
          (List.mem_cons_of_mem _ hM))
      · exact hpendSeg _ (List.mem_cons_of_mem _ (List.mem_append_left _ hM))
    · rcases List.mem_singleton.mp he with rfl
      constructor
      · rw [hsplit]
        exact List.mem_append_left _ (List.mem_append_right _ (List.mem_cons_self _ _))
      · exact hpendSeg _ (List.mem_cons_self _ _)
  have hsegRevKeysNd : (keysOf ((ap, rp) :: (M.reverse ++ [(ai, ri)]))).Nodup := by
    rw [show keysOf ((ap, rp) :: (M.reverse ++ [(ai, ri)])) =
      ap :: ((keysOf M).reverse ++ [ai]) from by simp [keysOf]]
    rw [show ap :: ((keysOf M).reverse ++ [ai]) =
      (ai :: (keysOf M ++ [ap])).reverse from by simp]
    exact List.nodup_reverse.mpr hsegnd
  have hsegRevNd : ((ap, rp) :: (M.reverse ++ [(ai, ri)])).Nodup :=
    List.Nodup.of_map _ hsegRevKeysNd
  have hslugInj : ∀ x ∈ ((ap, rp) :: (M.reverse ++ [(ai, ri)])),
      ∀ y ∈ ((ap, rp) :: (M.reverse ++ [(ai, ri)])),
      x.2.slug = y.2.slug → x = y := by
    intro x hx y hy hxy
    obtain ⟨hxs, hxp⟩ := hsegRevMem x hx
    obtain ⟨hys, hyp⟩ := hsegRevMem y hy
    rcases x with ⟨xk, xv⟩
    rcases y with ⟨yk, yv⟩
    have hk : xk = yk := slugs_distinct hinv hxs hys hxp hyp hxy
    subst hk
    have hv : xv = yv := entry_unique (sortedKeys_nodup hinv.sorted) hxs hys
    rw [hv]
  have hUkeys : keysOf ((W ++ [(ap, cur)]).map SP) =
      ((ap, rp) :: (M.reverse ++ [(ai, ri)])).map (fun e => e.2.slug) := by
    rw [show keysOf ((W ++ [(ap, cur)]).map SP) =
      (W ++ [(ap, cur)]).map (fun w => w.2.slug) from by
        rw [hSPdef]; simp [keysOf]]
    rw [List.map_append]
    rw [show W.map (fun w => w.2.slug) =
        rp.slug :: M.reverse.map (fun e => e.2.slug) from by
      rw [hWdef, shiftWrites_eq_reKey, reKey_map_slug]
      rw [show ((rp :: (M.reverse ++ [(ai, ri)]).map (·.2)).map (·.slug)) =
        rp.slug :: (M.reverse.map (fun e => e.2.slug) ++ [ri.slug]) from by simp]
      rw [show (keysOf (M.reverse ++ [(ai, ri)])).length =
        (M.reverse.map (fun e => e.2.slug)).length + 1 from by simp [keysOf]]
      exact take_len_cons_append _ _ _]
    simp
  have hUnd : (keysOf ((W ++ [(ap, cur)]).map SP)).Nodup := by
    rw [hUkeys]
    exact List.Nodup.map_on hslugInj hsegRevNd
  have hUsub : ∀ u ∈ (W ++ [(ap, cur)]).map SP, u.1 ∈ keysOf s.slugIdx := by
    intro u hu
    have hkk : u.1 ∈ keysOf ((W ++ [(ap, cur)]).map SP) :=
      List.mem_map.mpr ⟨u, hu, rfl⟩
    rw [hUkeys] at hkk
    obtain ⟨e, he, hke⟩ := List.mem_map.mp hkk
    obtain ⟨hes, hep⟩ := hsegRevMem e he
    have hcomp := hinv.slugComplete e hes hep
    rw [← hke]
    exact List.mem_map.mpr ⟨(e.2.slug, e.1), hcomp, rfl⟩
  have hslugEq : putSlug ((applyWrites s W).slugIdx) cur.slug ap =
      s.slugIdx.map (repFn ((NF ++ [(ap, cur)]).map SP)) := by
    rw [hAW2]
    rw [show putSlug ((W.map (fun w => (w.2.slug, w.1))).foldl
        (fun l u => putSlug l u.1 u.2) s.slugIdx) cur.slug ap =
      ((W.map SP) ++ [(cur.slug, ap)]).foldl (fun l u => putSlug l u.1 u.2) s.slugIdx
      from by rw [List.foldl_append]; rfl]
    rw [show (W.map SP) ++ [(cur.slug, ap)] = (W ++ [(ap, cur)]).map SP from by
      rw [hSPdef]; simp]
    rw [foldl_putSlug_map _ _ hinv.slugNodup hUnd hUsub]
    refine List.map_congr_left (fun e he => ?_)
    have hge := getEntry_eq_of_perm (hWRperm.map SP) (by
      have hkperm : (keysOf ((W ++ [(ap, cur)]).map SP)).Perm
          (keysOf ((NF ++ [(ap, cur)]).map SP)) := (hWRperm.map SP).map _
      exact hkperm.nodup_iff.mp hUnd) e.1
    cases hg : getEntry ((NF ++ [(ap, cur)]).map SP) e.1 with
    | none =>
      rw [repFn_none (hge.trans hg), repFn_none hg]
    | some v =>
      rw [repFn_some (hge.trans hg), repFn_some hg]
  -- final assembly
  have hnewseg : reKey (ai :: (keysOf M ++ [ap])) ((M.map (·.2) ++ [rp]) ++ [ri]) =
      NF ++ [(ap, cur)] := by
    rw [show (ai :: (keysOf M ++ [ap])) = (ai :: keysOf M) ++ [ap] from by simp]
    rw [reKey_append (by simp [keysOf_length])]
    rfl
  simp only [moveWithoutBoundCheck]
  rw [if_neg hne]
  simp only [hgetai]
  rw [if_pos hlt]
  simp only [hrevFrom]
  rw [hXrev, hshift]
  simp only [Except.ok.injEq]
  rw [hnewseg]
  rw [hsongsEq, hslugEq, hAW3, hAW4]

theorem moveWBC_eval_rev {s : Store} (hinv : Inv s)
    (D A M B : List (Nat × QueuedSong)) (ap ai : Nat) (rp ri : QueuedSong)
    (hsplit : s.songs = D ++ A ++ (ap, rp) :: M ++ (ai, ri) :: B)
    (hpendSeg : ∀ e ∈ (ap, rp) :: M ++ [(ai, ri)], e.2.dequeuedAt = 0)
    (cp np : Int) (hlt : ¬(cp < np)) :
    moveWithoutBoundCheck s ai ap cp np = .ok
      { songs := D ++ A ++
          (reKey (ap :: (keysOf M ++ [ai])) (ri :: rp :: M.map (·.2)) ++ B)
        head := s.head
        slugIdx := s.slugIdx.map (repFn
          ((reKey (ap :: (keysOf M ++ [ai])) (ri :: rp :: M.map (·.2))).map
            (fun u => (u.2.slug, u.1))))
        nextSeq := s.nextSeq } := by
  have hsor : SortedKeys (D ++ A ++ (ap, rp) :: M ++ (ai, ri) :: B) := hsplit ▸ hinv.sorted
  have hkeys : keysOf (D ++ A ++ (ap, rp) :: M ++ (ai, ri) :: B) =
      keysOf D ++ (keysOf A ++ ap :: (keysOf M ++ ai :: keysOf B)) := by
    simp [keysOf]
  have hnd0 : (keysOf D ++ (keysOf A ++ ap :: (keysOf M ++ ai :: keysOf B))).Nodup := by
    rw [← hkeys]
    exact sortedKeys_nodup hsor
  obtain ⟨hout, hBout, hsegnd⟩ := nodup_parts hnd0
  have hsegnd2 := hsegnd
  rw [List.nodup_cons, List.nodup_append] at hsegnd2
  obtain ⟨hapM, hMnd, _, hMai⟩ := hsegnd2
  have hap_nM : ap ∉ keysOf M := fun habs => hapM (List.mem_append_left _ habs)
  have hap_ai : ¬ap = ai := fun habs =>
    hapM (List.mem_append_right _ (List.mem_singleton.mpr habs))
  have hai_nM : ai ∉ keysOf M := fun habs => hMai habs (List.mem_singleton.mpr rfl)
  have hgetai : getEntry s.songs ai = some ri := by
    rw [hsplit]
    exact getEntry_of_decomp hsor
  have hfwdFrom : fwdFrom s.songs ap = (ap, rp) :: (M ++ (ai, ri) :: B) := by
    rw [show s.songs = (D ++ A) ++ (ap, rp) :: (M ++ (ai, ri) :: B) from by
      rw [hsplit]; simp]
    refine fwdFrom_of_decomp ?_
    have hassoc : (D ++ A) ++ (ap, rp) :: (M ++ (ai, ri) :: B) =
        D ++ A ++ (ap, rp) :: M ++ (ai, ri) :: B := by simp
    rw [hassoc]
    exact hsor
  have hshift : shiftLoop ai rp (M ++ (ai, ri) :: B) =
      shiftWrites rp (M ++ [(ai, ri)]) :=
    shiftLoop_eq ai rp ri M B hai_nM
  set W := shiftWrites rp (M ++ [(ai, ri)]) with hWdef
  set NR := reKey (keysOf M ++ [ai]) (rp :: M.map (·.2)) with hNRdef
  set cur : QueuedSong := { ri with id := ap } with hcurdef
  have hWkeys : keysOf W = keysOf M ++ [ai] := by
    rw [hWdef, keysOf_shiftWrites]
    simp [keysOf]
  have hWkeysnd : (keysOf W).Nodup := by
    rw [hWkeys, List.nodup_append]
    exact ⟨hMnd, List.nodup_singleton _,
      fun x hx hx2 => hai_nM ((List.mem_singleton.mp hx2) ▸ hx)⟩
  have hWkeyseg : ∀ k0, k0 ∈ keysOf W → k0 ∈ ap :: (keysOf M ++ [ai]) := by
    intro k0 hk0
    rw [hWkeys] at hk0
    exact List.mem_cons_of_mem _ hk0
  have hWsub : ∀ w ∈ W, w.1 ∈ keysOf s.songs := by
    intro w hw
    have hmem : w.1 ∈ keysOf W := List.mem_map.mpr ⟨w, hw, rfl⟩
    rw [hWkeys] at hmem
    rw [hsplit, hkeys]
    rcases List.mem_append.mp hmem with h2 | h2
    · exact List.mem_append_right _ (List.mem_append_right _
        (List.mem_cons_of_mem _ (List.mem_append_left _ h2)))
    · rcases List.mem_singleton.mp h2 with rfl
      exact List.mem_append_right _ (List.mem_append_right _
        (List.mem_cons_of_mem _ (List.mem_append_right _ (List.mem_cons_self _ _))))
  obtain ⟨hAW1, hAW2, hAW3, hAW4⟩ := applyWrites_fields s W
  have hs1songs : (applyWrites s W).songs = s.songs.map (repFn W) := by
    rw [hAW1]
    exact foldl_putEntry_map W s.songs hinv.sorted hWkeysnd hWsub
  have hFout : ∀ (e : Nat × QueuedSong), e.1 ∉ ap :: (keysOf M ++ [ai]) →
      repFn W e = e := by
    intro e he
    refine repFn_none ((getEntry_none_iff W e.1).mpr ?_)
    intro habs
    exact he (hWkeyseg e.1 habs)
  have hFap : repFn W ((ap, rp) : Nat × QueuedSong) = (ap, rp) := by
    refine repFn_none ((getEntry_none_iff W ap).mpr ?_)
    rw [hWkeys]
    intro habs
    rcases List.mem_append.mp habs with h1 | h1
    · exact hap_nM h1
    · exact hap_ai (List.mem_singleton.mp h1)
  have hmapF : s.songs.map (repFn W) = D ++ A ++ ((ap, rp) :: (NR ++ B)) := by
    conv_lhs => rw [hsplit]
    rw [show D ++ A ++ (ap, rp) :: M ++ (ai, ri) :: B =
      D ++ (A ++ ([(ap, rp)] ++ ((M ++ [(ai, ri)]) ++ B))) from by simp]
    rw [List.map_append, List.map_append, List.map_append, List.map_append]
    rw [map_keep (fun e he => hFout e (fun habs => hout e.1
      (List.mem_append_left _ (List.mem_map.mpr ⟨e, he, rfl⟩)) habs))]
    rw [map_keep (fun e he => hFout e (fun habs => hout e.1
      (List.mem_append_right _ (List.mem_map.mpr ⟨e, he, rfl⟩)) habs))]
    rw [map_keep (l := B) (fun e he => hFout e (fun habs => hBout e.1
      (List.mem_map.mpr ⟨e, he, rfl⟩) habs))]
    rw [show List.map (repFn W) [(ap, rp)] = [(ap, rp)] from by
      rw [List.map_cons, List.map_nil, hFap]]
    have hmid := map_shift_fwdlist_rep M ai ri rp (by
      rw [show keysOf (M ++ [(ai, ri)]) = keysOf M ++ [ai] from by simp [keysOf]]
      rw [List.nodup_append]
      exact ⟨hMnd, List.nodup_singleton _,
        fun x hx hx2 => hai_nM ((List.mem_singleton.mp hx2) ▸ hx)⟩)
    rw [hmid]
    rw [hNRdef]
    rw [show keysOf (M ++ [(ai, ri)]) = keysOf M ++ [ai] from by simp [keysOf]]
    simp
  have hboundap : ∀ e ∈ D ++ A, e.1 < ap := by
    have hassoc : (D ++ A) ++ (ap, rp) :: (M ++ (ai, ri) :: B) =
        D ++ A ++ (ap, rp) :: M ++ (ai, ri) :: B := by simp
    have hsorX : SortedKeys ((D ++ A) ++ (ap, rp) :: (M ++ (ai, ri) :: B)) := by
      rw [hassoc]
      exact hsor
    exact (sorted_mid_bounds hsorX).1
  have hsongsEq : putEntry ((applyWrites s W).songs) ap cur =
      D ++ A ++ (((ap, cur) :: NR) ++ B) := by
    rw [hs1songs, hmapF]
    rw [show D ++ A ++ ((ap, rp) :: (NR ++ B)) =
      (D ++ A) ++ (ap, rp) :: (NR ++ B) from by simp]
    rw [putEntry_replace cur (by
      intro e he
      rcases List.mem_append.mp he with h1 | h1
      · exact hboundap e (List.mem_append_left _ h1)
      · exact hboundap e (List.mem_append_right _ h1))]
    simp
  set SP : Nat × QueuedSong → GoStr × Nat := fun u => (u.2.slug, u.1) with hSPdef
  have hW_NR : W = NR := by
    rw [hWdef, shiftWrites_eq_reKey]
    rw [show (M ++ [(ai, ri)]).map (·.2) = M.map (·.2) ++ [ri] from by simp]
    rw [show keysOf (M ++ [(ai, ri)]) = keysOf M ++ [ai] from by simp [keysOf]]
    rw [show (rp :: (M.map (·.2) ++ [ri])) = (rp :: M.map (·.2)) ++ [ri] from by simp]
    rw [reKey_truncate _ _ _ (by simp [keysOf_length])]
  have hWRperm : (W ++ [(ap, cur)]).Perm ((ap, cur) :: NR) := by
    rw [hW_NR]
    exact List.perm_append_singleton _ _
  have hsegMem : ∀ e ∈ ((ap, rp) :: (M ++ [(ai, ri)])),
      e ∈ s.songs ∧ e.2.dequeuedAt = 0 := by
    intro e he
    rcases List.mem_cons.mp he with rfl | he
    · constructor
      · rw [hsplit]
        exact List.mem_append_left _ (List.mem_append_right _ (List.mem_cons_self _ _))
      · exact hpendSeg _ (List.mem_cons_self _ _)
    rcases List.mem_append.mp he with he | he
    · constructor
      · rw [hsplit]
        exact List.mem_append_left _ (List.mem_append_right _
          (List.mem_cons_of_mem _ he))
      · exact hpendSeg _ (List.mem_cons_of_mem _ (List.mem_append_left _ he))
    · rcases List.mem_singleton.mp he with rfl
      constructor
      · rw [hsplit]
        exact List.mem_append_right _ (List.mem_cons_self _ _)
      · exact hpendSeg _ (List.mem_cons_of_mem _
          (List.mem_append_right _ (List.mem_singleton.mpr rfl)))
  have hsegKeysNd : (keysOf ((ap, rp) :: (M ++ [(ai, ri)]))).Nodup := by
    rw [show keysOf ((ap, rp) :: (M ++ [(ai, ri)])) =
      ap :: (keysOf M ++ [ai]) from by simp [keysOf]]
    exact hsegnd
  have hsegNd : ((ap, rp) :: (M ++ [(ai, ri)])).Nodup :=
    List.Nodup.of_map _ hsegKeysNd
  have hslugInj : ∀ x ∈ ((ap, rp) :: (M ++ [(ai, ri)])),
      ∀ y ∈ ((ap, rp) :: (M ++ [(ai, ri)])),
      x.2.slug = y.2.slug → x = y := by
    intro x hx y hy hxy
    obtain ⟨hxs, hxp⟩ := hsegMem x hx
    obtain ⟨hys, hyp⟩ := hsegMem y hy
    rcases x with ⟨xk, xv⟩
    rcases y with ⟨yk, yv⟩
    have hk : xk = yk := slugs_distinct hinv hxs hys hxp hyp hxy
    subst hk
    have hv : xv = yv := entry_unique (sortedKeys_nodup hinv.sorted) hxs hys
    rw [hv]
  have hUkeys : keysOf ((W ++ [(ap, cur)]).map SP) =
      ((ap, rp) :: (M ++ [(ai, ri)])).map (fun e => e.2.slug) := by
    rw [show keysOf ((W ++ [(ap, cur)]).map SP) =
      (W ++ [(ap, cur)]).map (fun w => w.2.slug) from by
        rw [hSPdef]; simp [keysOf]]
    rw [List.map_append]
    rw [show W.map (fun w => w.2.slug) =
        rp.slug :: M.map (fun e => e.2.slug) from by
      rw [hWdef, shiftWrites_eq_reKey, reKey_map_slug]
      rw [show ((rp :: (M ++ [(ai, ri)]).map (·.2)).map (·.slug)) =
        rp.slug :: (M.map (fun e => e.2.slug) ++ [ri.slug]) from by simp]
      rw [show (keysOf (M ++ [(ai, ri)])).length =
        (M.map (fun e => e.2.slug)).length + 1 from by simp [keysOf]]
      exact take_len_cons_append _ _ _]
    simp
  have hUnd : (keysOf ((W ++ [(ap, cur)]).map SP)).Nodup := by
    rw [hUkeys]
    exact List.Nodup.map_on hslugInj hsegNd
  have hUsub : ∀ u ∈ (W ++ [(ap, cur)]).map SP, u.1 ∈ keysOf s.slugIdx := by
    intro u hu
    have hkk : u.1 ∈ keysOf ((W ++ [(ap, cur)]).map SP) :=
      List.mem_map.mpr ⟨u, hu, rfl⟩
    rw [hUkeys] at hkk
    obtain ⟨e, he, hke⟩ := List.mem_map.mp hkk
    obtain ⟨hes, hep⟩ := hsegMem e he
    have hcomp := hinv.slugComplete e hes hep
    rw [← hke]
    exact List.mem_map.mpr ⟨(e.2.slug, e.1), hcomp, rfl⟩
  have hslugEq : putSlug ((applyWrites s W).slugIdx) cur.slug ap =
      s.slugIdx.map (repFn (((ap, cur) :: NR).map SP)) := by
    rw [hAW2]
    rw [show putSlug ((W.map (fun w => (w.2.slug, w.1))).foldl
        (fun l u => putSlug l u.1 u.2) s.slugIdx) cur.slug ap =
      ((W.map SP) ++ [(cur.slug, ap)]).foldl (fun l u => putSlug l u.1 u.2) s.slugIdx
      from by rw [List.foldl_append]; rfl]
    rw [show (W.map SP) ++ [(cur.slug, ap)] = (W ++ [(ap, cur)]).map SP from by
      rw [hSPdef]; simp]
    rw [foldl_putSlug_map _ _ hinv.slugNodup hUnd hUsub]
    refine List.map_congr_left (fun e he => ?_)
    have hge := getEntry_eq_of_perm (hWRperm.map SP) (by
      have hkperm : (keysOf ((W ++ [(ap, cur)]).map SP)).Perm
          (keysOf (((ap, cur) :: NR).map SP)) := (hWRperm.map SP).map _
      exact hkperm.nodup_iff.mp hUnd) e.1
    cases hg : getEntry (((ap, cur) :: NR).map SP) e.1 with
    | none =>
      rw [repFn_none (hge.trans hg), repFn_none hg]
    | some v =>
      rw [repFn_some (hge.trans hg), repFn_some hg]
  have hnewseg : reKey (ap :: (keysOf M ++ [ai])) (ri :: rp :: M.map (·.2)) =
      (ap, cur) :: NR := rfl
  simp only [moveWithoutBoundCheck]
  rw [if_neg hap_ai]
  simp only [hgetai]
  rw [if_neg hlt]
  simp only [hfwdFrom]
  rw [hshift]
  simp only [Except.ok.injEq]
  rw [hnewseg]
  rw [hsongsEq, hslugEq, hAW3, hAW4]


theorem keysOf_append {κ β : Type} (X Y : List (κ × β)) :
    keysOf (X ++ Y) = keysOf X ++ keysOf Y := by
  unfold keysOf
  rw [List.map_append]

theorem reKey_mem_of_mem_vals {ks : List Nat} {vs : List QueuedSong} {v : QueuedSong}
    (hv : v ∈ vs) (hlen : vs.length ≤ ks.length) :
    ∃ k ∈ ks, (k, { v with id := k }) ∈ reKey ks vs := by
  induction vs generalizing ks with
  | nil => cases hv
  | cons v0 vs' ih =>
    cases ks with
    | nil => simp at hlen
    | cons k0 ks' =>
      rcases List.mem_cons.mp hv with rfl | hv'
      · refine ⟨k0, List.mem_cons_self _ _, ?_⟩
        show _ ∈ (k0, { v with id := k0 }) :: reKey ks' vs'
        exact List.mem_cons_self _ _
      · have hlen' : vs'.length ≤ ks'.length := by
          simp only [List.length_cons] at hlen
          omega
        obtain ⟨k, hk, hmem⟩ := ih hv' hlen'
        refine ⟨k, List.mem_cons_of_mem _ hk, ?_⟩
        show _ ∈ (k0, { v0 with id := k0 }) :: reKey ks' vs'
        exact List.mem_cons_of_mem _ hmem

theorem inv_move_generic {s : Store} (hinv : Inv s) {h : Nat} (hh : s.head = some h)
    (Pre Mid B : List (Nat × QueuedSong)) (vs : List QueuedSong)
    (hsplit : s.songs = Pre ++ Mid ++ B)
    (hperm : (Mid.map (·.2)).Perm vs)
    (hmidh : ∀ e ∈ Mid, h ≤ e.1) :
    Inv { songs := Pre ++ (reKey (keysOf Mid) vs ++ B)
          head := s.head
          slugIdx := s.slugIdx.map (repFn
            ((reKey (keysOf Mid) vs).map (fun u => (u.2.slug, u.1))))
          nextSeq := s.nextSeq } := by
  set NS := reKey (keysOf Mid) vs with hNSdef
  set U := NS.map (fun u => (u.2.slug, u.1)) with hUdef
  have hlenvs : vs.length = Mid.length := (hperm.length_eq).symm.trans (List.length_map _ _)
  have hlen : (keysOf Mid).length ≤ vs.length := by rw [keysOf_length, hlenvs]
  have hlen2 : vs.length ≤ (keysOf Mid).length := by rw [keysOf_length, hlenvs]
  have hNSkeys : keysOf NS = keysOf Mid := keysOf_reKey _ _ hlen
  have hkeys' : keysOf (Pre ++ (NS ++ B)) = keysOf s.songs := by
    rw [hsplit]
    simp only [keysOf_append, hNSkeys, List.append_assoc]
  have hndk : (keysOf s.songs).Nodup := sortedKeys_nodup hinv.sorted
  have hnd : s.songs.Nodup := List.Nodup.of_map _ hndk
  have hPreMem : ∀ e ∈ Pre, e ∈ s.songs := by
    intro e he
    rw [hsplit]
    exact List.mem_append_left _ (List.mem_append_left _ he)
  have hMidMem : ∀ e ∈ Mid, e ∈ s.songs := by
    intro e he
    rw [hsplit]
    exact List.mem_append_left _ (List.mem_append_right _ he)
  have hBMem : ∀ e ∈ B, e ∈ s.songs := by
    intro e he
    rw [hsplit]
    exact List.mem_append_right _ he
  have hMidPend : ∀ e ∈ Mid, e.2.dequeuedAt = 0 := fun e he =>
    (hinv.headSplit h hh e (hMidMem e he)).mp (hmidh e he)
  have hvsMem : ∀ v ∈ vs, ∃ m ∈ Mid, m.2 = v := by
    intro v hv
    obtain ⟨m, hm, hmv⟩ := List.mem_map.mp (hperm.mem_iff.mpr hv)
    exact ⟨m, hm, hmv⟩
  have hNSfact : ∀ e ∈ NS, e.1 ∈ keysOf Mid ∧
      ∃ m ∈ Mid, e.2 = { m.2 with id := e.1 } := by
    intro e he
    obtain ⟨hk, v, hv, hev⟩ := mem_reKey he
    obtain ⟨m, hm, hmv⟩ := hvsMem v hv
    exact ⟨hk, m, hm, by rw [hev, hmv]⟩
  have hMidNd : Mid.Nodup := by
    have h2 := hnd
    rw [hsplit] at h2
    exact (List.Nodup.of_append_left h2).of_append_right
  have hslugInjMid : ∀ x ∈ Mid, ∀ y ∈ Mid, x.2.slug = y.2.slug → x = y := by
    intro x hx y hy hxy
    rcases x with ⟨xk, xv⟩
    rcases y with ⟨yk, yv⟩
    have hk := slugs_distinct hinv (hMidMem _ hx) (hMidMem _ hy)
      (hMidPend _ hx) (hMidPend _ hy) hxy
    subst hk
    rw [entry_unique hndk (hMidMem _ hx) (hMidMem _ hy)]
  have hMidSlugNd : (Mid.map (fun e => e.2.slug)).Nodup :=
    List.Nodup.map_on hslugInjMid hMidNd
  have hNSslug : NS.map (fun u => u.2.slug) = vs.map (fun v => v.slug) := by
    rw [hNSdef, reKey_map_slug]
    exact List.take_of_length_le (by rw [List.length_map, keysOf_length, hlenvs])
  have hUkeysNd : (keysOf U).Nodup := by
    have hkU : keysOf U = NS.map (fun u => u.2.slug) := by
      rw [hUdef]
      unfold keysOf
      rw [List.map_map]
      rfl
    rw [hkU, hNSslug]
    have hp2 : (Mid.map (fun e => e.2.slug)).Perm (vs.map (fun v => v.slug)) := by
      have := hperm.map (fun v => v.slug)
      rwa [List.map_map] at this
    exact hp2.nodup_iff.mp hMidSlugNd
  refine ⟨?_, ?_, ?_, ?_, ?_, ?_, ?_, ?_, ?_, ?_⟩
  · show SortedKeys (Pre ++ (NS ++ B))
    refine (sortedKeys_iff_pairwise _).mpr ?_
    rw [hkeys']
    exact (sortedKeys_iff_pairwise _).mp hinv.sorted
  · intro e he
    show e.1 < s.nextSeq
    have hk : e.1 ∈ keysOf s.songs := by
      rw [← hkeys']
      exact List.mem_map.mpr ⟨e, he, rfl⟩
    obtain ⟨e0, he0, hke⟩ := List.mem_map.mp hk
    have hke' : e0.1 = e.1 := hke
    rw [← hke']
    exact hinv.seqBound e0 he0
  · intro e he
    show e.2.id = e.1
    rcases List.mem_append.mp he with hP | hNB
    · exact hinv.idField e (hPreMem e hP)
    rcases List.mem_append.mp hNB with hN | hB
    · obtain ⟨_, m, _, hev⟩ := hNSfact e hN
      rw [hev]
    · exact hinv.idField e (hBMem e hB)
  · intro e he
    show e.2.queuedAt = 0
    rcases List.mem_append.mp he with hP | hNB
    · exact hinv.queuedAtZero e (hPreMem e hP)
    rcases List.mem_append.mp hNB with hN | hB
    · obtain ⟨_, m, hm, hev⟩ := hNSfact e hN
      rw [hev]
      show m.2.queuedAt = 0
      exact hinv.queuedAtZero m (hMidMem m hm)
    · exact hinv.queuedAtZero e (hBMem e hB)
  · intro h0 hh0
    show h0 ∈ keysOf (Pre ++ (NS ++ B))
    rw [hkeys']
    exact hinv.headMem h0 hh0
  · intro h0 hh0 e he
    have hh0' : s.head = some h0 := hh0
    have heq : h = h0 := by
      rw [hh] at hh0'
      injection hh0'
    subst heq
    rcases List.mem_append.mp he with hP | hNB
    · exact hinv.headSplit h hh e (hPreMem e hP)
    rcases List.mem_append.mp hNB with hN | hB
    · obtain ⟨hk, m, hm, hev⟩ := hNSfact e hN
      constructor
      · intro _
        rw [hev]
        show m.2.dequeuedAt = 0
        exact hMidPend m hm
      · intro _
        obtain ⟨m', hm', hkm⟩ := List.mem_map.mp hk
        have hkm' : m'.1 = e.1 := hkm
        rw [← hkm']
        exact hmidh m' hm'
    · exact hinv.headSplit h hh e (hBMem e hB)
  · intro hnone
    have h2 : s.head = none := hnone
    rw [hh] at h2
    cases h2
  · show (keysOf (s.slugIdx.map (repFn U))).Nodup
    rw [keysOf_map_fst (fun e _ => repFn_fst U e)]
    exact hinv.slugNodup
  · intro e he
    obtain ⟨e0, he0, hee⟩ := List.mem_map.mp he
    cases hg : getEntry U e0.1 with
    | none =>
      have he' : e = e0 := by
        rw [← hee, repFn_none hg]
      subst he'
      obtain ⟨r, hr, hrd, hrs⟩ := hinv.slugSound e he0
      refine ⟨r, ?_, hrd, hrs⟩
      rw [hsplit] at hr
      rcases List.mem_append.mp hr with hPM | hB
      · rcases List.mem_append.mp hPM with hP | hM
        · exact List.mem_append_left _ hP
        · exfalso
          have hrv : r ∈ vs :=
            hperm.mem_iff.mp (List.mem_map.mpr ⟨(e.2, r), hM, rfl⟩)
          obtain ⟨k, hk, hmem⟩ := reKey_mem_of_mem_vals hrv hlen2
          have hkey : e.1 ∈ keysOf U := by
            refine List.mem_map.mpr ⟨(({ r with id := k } : QueuedSong).slug, k), ?_, ?_⟩
            · rw [hUdef]
              exact List.mem_map.mpr ⟨(k, { r with id := k }), hmem, rfl⟩
            · show ({ r with id := k } : QueuedSong).slug = e.1
              show r.slug = e.1
              exact hrs
          exact ((getEntry_none_iff U e.1).mp hg) hkey
      · exact List.mem_append_right _ (List.mem_append_right _ hB)
    | some k2 =>
      have he' : e = (e0.1, k2) := by
        rw [← hee, repFn_some hg]
      obtain ⟨u, hu, huk⟩ := List.mem_map.mp (getEntry_some_mem hg)
      rcases u with ⟨uk, ur⟩
      have hus : ur.slug = e0.1 := congrArg Prod.fst huk
      have huk1 : uk = k2 := congrArg Prod.snd huk
      obtain ⟨_, m, hm, hev⟩ := hNSfact (uk, ur) hu
      refine ⟨ur, ?_, ?_, ?_⟩
      · rw [he']
        show (k2, ur) ∈ Pre ++ (NS ++ B)
        rw [← huk1]
        exact List.mem_append_right _ (List.mem_append_left _ hu)
      · have hev' : ur = { m.2 with id := uk } := hev
        rw [hev']
        show m.2.dequeuedAt = 0
        exact hMidPend m hm
      · rw [he']
        exact hus
  · intro e he hd
    have hd' : e.2.dequeuedAt = 0 := hd
    show (e.2.slug, e.1) ∈ s.slugIdx.map (repFn U)
    rcases List.mem_append.mp he with hP | hNB
    · refine List.mem_map.mpr ⟨(e.2.slug, e.1),
        hinv.slugComplete e (hPreMem e hP) hd', ?_⟩
      refine repFn_none ((getEntry_none_iff U e.2.slug).mpr ?_)
      intro habs
      obtain ⟨u, hu, hus⟩ := List.mem_map.mp habs
      obtain ⟨u', hu', huu⟩ := List.mem_map.mp (by rw [hUdef] at hu; exact hu)
      obtain ⟨_, m, hm, hev⟩ := hNSfact u' hu'
      have hus' : u'.2.slug = e.2.slug := by
        rw [← hus, ← huu]
      have hms : m.2.slug = e.2.slug := by
        rw [← hus']
        rw [hev]
      have hkeq := slugs_distinct hinv (hMidMem m hm) (hPreMem e hP)
        (hMidPend m hm) hd' (by
          show m.2.slug = e.2.slug
          exact hms)
      have hmke : m.1 = e.1 := by
        rcases m with ⟨mk, mv⟩
        rcases e with ⟨ek, ev⟩
        exact hkeq
      have hPreK : e.1 ∈ keysOf Pre := List.mem_map.mpr ⟨e, hP, rfl⟩
      have hMidK : e.1 ∈ keysOf Mid := by
        rw [← hmke]
        exact List.mem_map.mpr ⟨m, hm, rfl⟩
      have hnd2 := hndk
      rw [hsplit, keysOf_append, keysOf_append, List.nodup_append] at hnd2
      obtain ⟨hpm, _, _⟩ := hnd2
      rw [List.nodup_append] at hpm
      exact hpm.2.2 hPreK hMidK
    rcases List.mem_append.mp hNB with hN | hB
    · obtain ⟨hk, m, hm, hev⟩ := hNSfact e hN
      have hms : e.2.slug = m.2.slug := by
        rw [hev]
      refine List.mem_map.mpr ⟨(m.2.slug, m.1),
        hinv.slugComplete m (hMidMem m hm) (hMidPend m hm), ?_⟩
      have hUmem : ((m.2.slug, e.1) : GoStr × Nat) ∈ U := by
        rw [hUdef]
        refine List.mem_map.mpr ⟨e, hN, ?_⟩
        rw [hms]
      have hge : getEntry U m.2.slug = some e.1 :=
        getEntry_of_mem_nodup hUkeysNd hUmem
      have hr := repFn_some (W := U) (e := ((m.2.slug, m.1) : GoStr × Nat)) hge
      rw [hr, hms]
    · refine List.mem_map.mpr ⟨(e.2.slug, e.1),
        hinv.slugComplete e (hBMem e hB) hd', ?_⟩
      refine repFn_none ((getEntry_none_iff U e.2.slug).mpr ?_)
      intro habs
      obtain ⟨u, hu, hus⟩ := List.mem_map.mp habs
      obtain ⟨u', hu', huu⟩ := List.mem_map.mp (by rw [hUdef] at hu; exact hu)
      obtain ⟨_, m, hm, hev⟩ := hNSfact u' hu'
      have hus' : u'.2.slug = e.2.slug := by
        rw [← hus, ← huu]
      have hms : m.2.slug = e.2.slug := by
        rw [← hus']
        rw [hev]
      have hkeq := slugs_distinct hinv (hMidMem m hm) (hBMem e hB)
        (hMidPend m hm) hd' (by
          show m.2.slug = e.2.slug
          exact hms)
      have hmke : m.1 = e.1 := by
        rcases m with ⟨mk, mv⟩
        rcases e with ⟨ek, ev⟩
        exact hkeq
      have hBK : e.1 ∈ keysOf B := List.mem_map.mpr ⟨e, hB, rfl⟩
      have hMidK : e.1 ∈ keysOf Mid := by
        rw [← hmke]
        exact List.mem_map.mpr ⟨m, hm, rfl⟩
      have hnd2 := hndk
      rw [hsplit, keysOf_append, keysOf_append, List.nodup_append] at hnd2
      obtain ⟨hpm, _, hdisj⟩ := hnd2
      exact hdisj (List.mem_append_right _ hMidK) hBK

theorem keysOf_cons {κ β : Type} (e : κ × β) (l : List (κ × β)) :
    keysOf (e :: l) = e.1 :: keysOf l := rfl

theorem reKey_map_content (ks : List Nat) (vs : List QueuedSong) :
    (reKey ks vs).map (fun e => content e.2) = (vs.map content).take ks.length := by
  induction ks generalizing vs with
  | nil =>
    cases vs with
    | nil => rfl
    | cons v vs' => rfl
  | cons k ks' ih =>
    cases vs with
    | nil => rfl
    | cons v vs' =>
      show content { v with id := k } :: (reKey ks' vs').map (fun e => content e.2) = _
      rw [ih]
      rfl

theorem fwdFrom_sorted {l : List (Nat × QueuedSong)} (h : SortedKeys l) (k : Nat) :
    SortedKeys (fwdFrom l k) :=
  List.Pairwise.sublist (List.filter_sublist _) h

theorem moveWBC_char {s : Store} (hinv : Inv s) {h : Nat} (hh : s.head = some h)
    {i p : Nat} {ei ep : Nat × QueuedSong}
    (hi : (fwdFrom s.songs h).get? i = some ei)
    (hp : (fwdFrom s.songs h).get? p = some ep)
    (hip : i ≠ p) :
    ∃ s', moveWithoutBoundCheck s ei.1 ep.1 (i : Int) (p : Int) = .ok s' ∧
      Inv s' ∧ s'.head = s.head ∧ s'.nextSeq = s.nextSeq ∧
      keysOf s'.songs = keysOf s.songs ∧
      keysOf (fwdFrom s'.songs h) = keysOf (fwdFrom s.songs h) ∧
      (fwdFrom s'.songs h).map (fun u => content u.2) =
        (((fwdFrom s.songs h).map (fun u => content u.2)).eraseIdx i).insertIdx p
          (content ei.2) := by
  rcases ei with ⟨ai, ri⟩
  rcases ep with ⟨ap, rp⟩
  have hPsort : SortedKeys (fwdFrom s.songs h) := fwdFrom_sorted hinv.sorted h
  have hsplit0 : s.songs.filter (fun e => e.1 < h) ++ fwdFrom s.songs h = s.songs :=
    songs_split s.songs h hinv.sorted
  set Dq := s.songs.filter (fun e => e.1 < h) with hDqdef
  have hDqlt : ∀ e ∈ Dq, e.1 < h := by
    intro e he
    have := List.of_mem_filter he
    simpa using this
  have hPge : ∀ e ∈ fwdFrom s.songs h, h ≤ e.1 := fun e he => (mem_fwdFrom.mp he).2
  have hPmem : ∀ e ∈ fwdFrom s.songs h, e ∈ s.songs := fun e he => (mem_fwdFrom.mp he).1
  have hPpend : ∀ e ∈ fwdFrom s.songs h, e.2.dequeuedAt = 0 := fun e he =>
    (hinv.headSplit h hh e (hPmem e he)).mp (hPge e he)
  rcases Nat.lt_or_ge i p with hc | hge
  · -- forward shift: i < p
    obtain ⟨A, M, B', hPdec, hAlen, hMlen⟩ := get?_decomp2 hc hi hp
    have hsplit : s.songs = Dq ++ A ++ (ai, ri) :: M ++ (ap, rp) :: B' := by
      rw [← hsplit0, hPdec]
      simp
    have hsegP : ∀ e ∈ (ai, ri) :: M ++ [(ap, rp)], e ∈ fwdFrom s.songs h := by
      intro e he
      rw [hPdec]
      rcases List.mem_cons.mp he with rfl | he
      · exact List.mem_append_left _ (List.mem_append_right _ (List.mem_cons_self _ _))
      rcases List.mem_append.mp he with he | he
      · exact List.mem_append_left _ (List.mem_append_right _ (List.mem_cons_of_mem _ he))
      · rcases List.mem_singleton.mp he with rfl
        exact List.mem_append_right _ (List.mem_cons_self _ _)
    have hpendSeg : ∀ e ∈ (ai, ri) :: M ++ [(ap, rp)], e.2.dequeuedAt = 0 :=
      fun e he => hPpend e (hsegP e he)
    have hlt : (i : Int) < (p : Int) := by exact_mod_cast hc
    have heval := moveWBC_eval_fwd hinv Dq A M B' ai ap ri rp hsplit hpendSeg
      (i : Int) (p : Int) hlt
    set NSeg := reKey (ai :: (keysOf M ++ [ap])) ((M.map (·.2) ++ [rp]) ++ [ri])
      with hNSegdef
    have hNSkeys : keysOf NSeg = ai :: (keysOf M ++ [ap]) := by
      rw [hNSegdef]
      exact keysOf_reKey _ _ (by simp [keysOf_length])
    have hNSge : ∀ e ∈ NSeg, h ≤ e.1 := by
      intro e he
      obtain ⟨hk, _⟩ := mem_reKey (by rw [hNSegdef] at he; exact he)
      rcases List.mem_cons.mp hk with hk | hk
      · rw [hk]
        exact hPge _ (hsegP _ (List.mem_cons_self _ _))
      rcases List.mem_append.mp hk with hk | hk
      · obtain ⟨m, hm, hmk⟩ := List.mem_map.mp hk
        have : h ≤ m.1 := hPge _ (hsegP _ (List.mem_cons_of_mem _ (List.mem_append_left _ hm)))
        have hmk' : m.1 = e.1 := hmk
        omega
      · rw [List.mem_singleton.mp hk]
        exact hPge _ (hsegP _ (List.mem_cons_of_mem _
          (List.mem_append_right _ (List.mem_singleton.mpr rfl))))
    have hfwd' : fwdFrom (Dq ++ A ++ (NSeg ++ B')) h = A ++ (NSeg ++ B') := by
      rw [show Dq ++ A ++ (NSeg ++ B') = Dq ++ (A ++ (NSeg ++ B')) from by simp]
      refine fwdFrom_of_parts hDqlt ?_
      intro e he
      rcases List.mem_append.mp he with he | he
      · exact hPge e (by rw [hPdec]; exact List.mem_append_left _ (List.mem_append_left _ he))
      rcases List.mem_append.mp he with he | he
      · exact hNSge e he
      · exact hPge e (by
          rw [hPdec]
          exact List.mem_append_right _ (List.mem_cons_of_mem _ he))
    refine ⟨_, heval, ?_, rfl, rfl, ?_, ?_, ?_⟩
    · -- Inv
      have hsplitGen : s.songs = (Dq ++ A) ++ ((ai, ri) :: (M ++ [(ap, rp)])) ++ B' := by
        rw [hsplit]
        simp
      have hperm : (((ai, ri) :: (M ++ [(ap, rp)])).map (·.2)).Perm
          ((M.map (·.2) ++ [rp]) ++ [ri]) := by
        rw [show ((ai, ri) :: (M ++ [(ap, rp)])).map (·.2) =
          ri :: (M.map (·.2) ++ [rp]) from by simp]
        exact (List.perm_append_singleton _ _).symm
      have hmidh : ∀ e ∈ (ai, ri) :: (M ++ [(ap, rp)]), h ≤ e.1 := by
        intro e he
        refine hPge e (hsegP e ?_)
        rcases List.mem_cons.mp he with rfl | he
        · exact List.mem_cons_self _ _
        · exact List.mem_cons_of_mem _ he
      have hgen := inv_move_generic hinv hh (Dq ++ A) ((ai, ri) :: (M ++ [(ap, rp)]))
        B' ((M.map (·.2) ++ [rp]) ++ [ri]) hsplitGen hperm hmidh
      rw [show keysOf ((ai, ri) :: (M ++ [(ap, rp)])) =
        ai :: (keysOf M ++ [ap]) from by simp [keysOf]] at hgen
      exact hgen
    · -- keysOf songs unchanged
      show keysOf (Dq ++ A ++ (NSeg ++ B')) = keysOf s.songs
      rw [hsplit]
      simp [keysOf_append, keysOf_cons, hNSkeys]
    · -- keysOf pending unchanged
      show keysOf (fwdFrom (Dq ++ A ++ (NSeg ++ B')) h) = _
      rw [hfwd', hPdec]
      simp [keysOf_append, keysOf_cons, hNSkeys]
    · -- contents
      show (fwdFrom (Dq ++ A ++ (NSeg ++ B')) h).map (fun u => content u.2) = _
      rw [hfwd', hPdec]
      have hNSc : NSeg.map (fun u => content u.2) =
          M.map (fun u => content u.2) ++ [content rp] ++ [content ri] := by
        rw [hNSegdef, reKey_map_content]
        rw [List.take_of_length_le (by simp [keysOf_length])]
        simp [content]
      have hmapP : (A ++ (ai, ri) :: M ++ (ap, rp) :: B').map (fun u => content u.2) =
          A.map (fun u => content u.2) ++ content ri ::
            (M.map (fun u => content u.2) ++ content rp ::
              B'.map (fun u => content u.2)) := by
        simp
      rw [hmapP]
      have hi' : i = (A.map (fun u => content u.2)).length := by
        rw [List.length_map, hAlen]
      rw [hi', eraseIdx_append_len]
      have hsh : A.map (fun u => content u.2) ++
          (M.map (fun u => content u.2) ++ content rp :: B'.map (fun u => content u.2)) =
          (A.map (fun u => content u.2) ++ M.map (fun u => content u.2) ++ [content rp])
            ++ B'.map (fun u => content u.2) := by
        simp
      rw [hsh]
      have hp' : p = (A.map (fun u => content u.2) ++ M.map (fun u => content u.2)
          ++ [content rp]).length := by
        simp only [List.length_append, List.length_map, List.length_singleton, hAlen, hMlen]
        omega
      rw [hp', insertIdx_append_len]
      rw [List.map_append, List.map_append, hNSc]
      simp
  · -- reverse shift: p < i
    have hc : p < i := lt_of_le_of_ne hge (fun habs => hip habs.symm)
    obtain ⟨A, M, B', hPdec, hAlen, hMlen⟩ := get?_decomp2 hc hp hi
    have hsplit : s.songs = Dq ++ A ++ (ap, rp) :: M ++ (ai, ri) :: B' := by
      rw [← hsplit0, hPdec]
      simp
    have hsegP : ∀ e ∈ (ap, rp) :: M ++ [(ai, ri)], e ∈ fwdFrom s.songs h := by
      intro e he
      rw [hPdec]
      rcases List.mem_cons.mp he with rfl | he
      · exact List.mem_append_left _ (List.mem_append_right _ (List.mem_cons_self _ _))
      rcases List.mem_append.mp he with he | he
      · exact List.mem_append_left _ (List.mem_append_right _ (List.mem_cons_of_mem _ he))
      · rcases List.mem_singleton.mp he with rfl
        exact List.mem_append_right _ (List.mem_cons_self _ _)
    have hpendSeg : ∀ e ∈ (ap, rp) :: M ++ [(ai, ri)], e.2.dequeuedAt = 0 :=
      fun e he => hPpend e (hsegP e he)
    have hlt : ¬((i : Int) < (p : Int)) := by
      intro habs
      have : i < p := by exact_mod_cast habs
      omega
    have heval := moveWBC_eval_rev hinv Dq A M B' ap ai rp ri hsplit hpendSeg
      (i : Int) (p : Int) hlt
    set NSeg := reKey (ap :: (keysOf M ++ [ai])) (ri :: rp :: M.map (·.2))
      with hNSegdef
    have hNSkeys : keysOf NSeg = ap :: (keysOf M ++ [ai]) := by
      rw [hNSegdef]
      exact keysOf_reKey _ _ (by simp [keysOf_length])
    have hNSge : ∀ e ∈ NSeg, h ≤ e.1 := by
      intro e he
      obtain ⟨hk, _⟩ := mem_reKey (by rw [hNSegdef] at he; exact he)
      rcases List.mem_cons.mp hk with hk | hk
      · rw [hk]
        exact hPge _ (hsegP _ (List.mem_cons_self _ _))
      rcases List.mem_append.mp hk with hk | hk
      · obtain ⟨m, hm, hmk⟩ := List.mem_map.mp hk
        have : h ≤ m.1 := hPge _ (hsegP _ (List.mem_cons_of_mem _ (List.mem_append_left _ hm)))
        have hmk' : m.1 = e.1 := hmk
        omega
      · rw [List.mem_singleton.mp hk]
        exact hPge _ (hsegP _ (List.mem_cons_of_mem _
          (List.mem_append_right _ (List.mem_singleton.mpr rfl))))
    have hfwd' : fwdFrom (Dq ++ A ++ (NSeg ++ B')) h = A ++ (NSeg ++ B') := by
      rw [show Dq ++ A ++ (NSeg ++ B') = Dq ++ (A ++ (NSeg ++ B')) from by simp]
      refine fwdFrom_of_parts hDqlt ?_
      intro e he
      rcases List.mem_append.mp he with he | he
      · exact hPge e (by rw [hPdec]; exact List.mem_append_left _ (List.mem_append_left _ he))
      rcases List.mem_append.mp he with he | he
      · exact hNSge e he
      · exact hPge e (by
          rw [hPdec]
          exact List.mem_append_right _ (List.mem_cons_of_mem _ he))
    refine ⟨_, heval, ?_, rfl, rfl, ?_, ?_, ?_⟩
    · -- Inv
      have hsplitGen : s.songs = (Dq ++ A) ++ ((ap, rp) :: (M ++ [(ai, ri)])) ++ B' := by
        rw [hsplit]
        simp
      have hperm : (((ap, rp) :: (M ++ [(ai, ri)])).map (·.2)).Perm
          (ri :: rp :: M.map (·.2)) := by
        rw [show ((ap, rp) :: (M ++ [(ai, ri)])).map (·.2) =
          rp :: (M.map (·.2) ++ [ri]) from by simp]
        refine ((List.perm_append_singleton _ _).cons rp).trans ?_
        exact List.Perm.swap _ _ _
      have hmidh : ∀ e ∈ (ap, rp) :: (M ++ [(ai, ri)]), h ≤ e.1 := by
        intro e he
        refine hPge e (hsegP e ?_)
        rcases List.mem_cons.mp he with rfl | he
        · exact List.mem_cons_self _ _
        · exact List.mem_cons_of_mem _ he
      have hgen := inv_move_generic hinv hh (Dq ++ A) ((ap, rp) :: (M ++ [(ai, ri)]))
        B' (ri :: rp :: M.map (·.2)) hsplitGen hperm hmidh
      rw [show keysOf ((ap, rp) :: (M ++ [(ai, ri)])) =
        ap :: (keysOf M ++ [ai]) from by simp [keysOf]] at hgen
      exact hgen
    · show keysOf (Dq ++ A ++ (NSeg ++ B')) = keysOf s.songs
      rw [hsplit]
      simp [keysOf_append, keysOf_cons, hNSkeys]
    · show keysOf (fwdFrom (Dq ++ A ++ (NSeg ++ B')) h) = _
      rw [hfwd', hPdec]
      simp [keysOf_append, keysOf_cons, hNSkeys]
    · show (fwdFrom (Dq ++ A ++ (NSeg ++ B')) h).map (fun u => content u.2) = _
      rw [hfwd', hPdec]
      have hNSc : NSeg.map (fun u => content u.2) =
          content ri :: content rp :: M.map (fun u => content u.2) := by
        rw [hNSegdef, reKey_map_content]
        rw [List.take_of_length_le (by simp [keysOf_length])]
        simp [content]
      have hmapP : (A ++ (ap, rp) :: M ++ (ai, ri) :: B').map (fun u => content u.2) =
          (A.map (fun u => content u.2) ++ content rp ::
            M.map (fun u => content u.2)) ++ content ri ::
              B'.map (fun u => content u.2) := by
        simp
      rw [hmapP]
      have hi' : i = (A.map (fun u => content u.2) ++ content rp ::
          M.map (fun u => content u.2)).length := by
        simp only [List.length_append, List.length_map, List.length_cons, hAlen, hMlen]
        omega
      rw [hi', eraseIdx_append_len]
      have hsh : A.map (fun u => content u.2) ++ content rp ::
          M.map (fun u => content u.2) ++ B'.map (fun u => content u.2) =
          A.map (fun u => content u.2) ++ (content rp ::
            M.map (fun u => content u.2) ++ B'.map (fun u => content u.2)) := by
        simp
      rw [hsh]
      have hp' : p = (A.map (fun u => content u.2)).length := by
        rw [List.length_map, hAlen]
      rw [hp', insertIdx_append_len]
      rw [List.map_append, List.map_append, hNSc]
      simp

theorem distLoop_ok_inv {id : Nat} {l : List (Nat × QueuedSong)} {acc d : Int}
    (h : distLoop id l acc = .ok d) :
    ∃ X r Y, l = X ++ (id, r) :: Y ∧ id ∉ keysOf X ∧ d = acc + X.length := by
  induction l generalizing acc with
  | nil => cases h
  | cons e rest ih =>
    rcases e with ⟨k, v⟩
    unfold distLoop at h
    by_cases he : k = id
    · rw [if_pos he] at h
      subst he
      injection h with h2
      exact ⟨[], v, rest, rfl, by simp [keysOf], by simp [← h2]⟩
    · rw [if_neg he] at h
      obtain ⟨X, r, Y, hdec, hnm, hd⟩ := ih h
      refine ⟨(k, v) :: X, r, Y, by rw [hdec]; rfl, ?_, ?_⟩
      · intro habs
        rw [keysOf_cons] at habs
        rcases List.mem_cons.mp habs with habs | habs
        · exact he habs.symm
        · exact hnm habs
      · rw [hd]
        simp only [List.length_cons]
        push_cast
        ring

theorem move_ok_char {s : Store} (hinv : Inv s) {h : Nat} (hh : s.head = some h)
    {i p : Nat} {ei : Nat × QueuedSong}
    (hi : (fwdFrom s.songs h).get? i = some ei)
    (hp : p < (fwdFrom s.songs h).length)
    (hip : i ≠ p) :
    ∃ s', move s ei.1 (p : Int) = .ok s' ∧ Inv s' ∧ s'.head = s.head ∧
      s'.nextSeq = s.nextSeq ∧ keysOf s'.songs = keysOf s.songs ∧
      keysOf (fwdFrom s'.songs h) = keysOf (fwdFrom s.songs h) ∧
      (fwdFrom s'.songs h).map (fun u => content u.2) =
        (((fwdFrom s.songs h).map (fun u => content u.2)).eraseIdx i).insertIdx p
          (content ei.2) := by
  rcases ei with ⟨ai, ri⟩
  cases hpe : (fwdFrom s.songs h).get? p with
  | none =>
    exfalso
    have := List.get?_eq_none.mp hpe
    omega
  | some ep =>
    have hnd : (keysOf (fwdFrom s.songs h)).Nodup :=
      sortedKeys_nodup (fwdFrom_sorted hinv.sorted h)
    obtain ⟨X, Y, hXY, hXlen⟩ := get?_decomp hi
    have hnotmem : ai ∉ keysOf X := by
      rw [hXY, keysOf_append, keysOf_cons] at hnd
      rw [List.nodup_append] at hnd
      intro habs
      exact hnd.2.2 habs (List.mem_cons_self _ _)
    have hdist : distanceFromHeadByID s ai = .ok i := by
      simp only [distanceFromHeadByID, hh]
      rw [hXY, distLoop_append ai ri X Y 0 hnotmem, hXlen]
      simp
    have hnneg : ¬((p : Int) < 0) := by omega
    have hidp : idRelativeToHead s (p : Int) = .ok ep.1 := by
      simp only [idRelativeToHead, hh]
      rw [if_neg hnneg]
      simp only [Int.natAbs_ofNat, hpe]
    obtain ⟨s', hwbc, hInv, hhead, hseq, hk1, hk2, hcont⟩ :=
      moveWBC_char hinv hh hi hpe hip
    refine ⟨s', ?_, hInv, hhead, hseq, hk1, hk2, hcont⟩
    show move s ai (p : Int) = .ok s'
    simp only [move, hdist]
    rw [if_neg (fun habs => hip (by exact_mod_cast habs))]
    rw [if_neg (by omega : ¬((i : Int) < 0))]
    rw [if_neg hnneg]
    simp only [hidp]
    exact hwbc

theorem inv_applyMove (s : Store) (id : Nat) (pos : Int) (hinv : Inv s) :
    Inv (applyMove s id pos) := by
  unfold applyMove
  cases hm : move s id pos with
  | error e => exact hinv
  | ok s2 =>
    show Inv s2
    unfold move at hm
    cases hd : distanceFromHeadByID s id with
    | error e =>
      simp only [hd] at hm
      cases hm
    | ok cp =>
      simp only [hd] at hm
      by_cases hcpnp : cp = pos
      · rw [if_pos hcpnp] at hm
        injection hm with hm2
        rw [← hm2]
        exact hinv
      rw [if_neg hcpnp] at hm
      by_cases hcp0 : cp < 0
      · rw [if_pos hcp0] at hm
        cases hm
      rw [if_neg hcp0] at hm
      by_cases hpos0 : pos < 0
      · rw [if_pos hpos0] at hm
        cases hm
      rw [if_neg hpos0] at hm
      cases hrel : idRelativeToHead s pos with
      | error e =>
        simp only [hrel] at hm
        cases hm
      | ok ap =>
        simp only [hrel] at hm
        cases hhead : s.head with
        | none =>
          unfold distanceFromHeadByID at hd
          rw [hhead] at hd
          cases hd
        | some h =>
          unfold distanceFromHeadByID at hd
          rw [hhead] at hd
          obtain ⟨X, r, Y, hXY, hnm, hcpv⟩ := distLoop_ok_inv hd
          have hi : (fwdFrom s.songs h).get? X.length = some (id, r) := by
            rw [hXY]
            exact get?_append_len X Y (id, r)
          simp only [idRelativeToHead, hhead] at hrel
          rw [if_neg hpos0] at hrel
          cases hget : (fwdFrom s.songs h).get? pos.natAbs with
          | none =>
            simp only [hget] at hrel
            by_cases hemp : (fwdFrom s.songs h).isEmpty
            · rw [if_pos hemp] at hrel
              by_cases hz : pos.natAbs = 0
              · rw [if_pos hz] at hrel
                cases hrel
              · rw [if_neg hz] at hrel
                cases hrel
            · rw [if_neg hemp] at hrel
              cases hrel
          | some ep =>
            simp only [hget] at hrel
            injection hrel with hrel2
            have hposv : pos = (pos.natAbs : Int) :=
              (Int.natAbs_of_nonneg (not_lt.mp hpos0)).symm
            have hcpi : cp = (X.length : Int) := by
              rw [hcpv]
              omega
            have hip : X.length ≠ pos.natAbs := by
              intro habs
              apply hcpnp
              rw [hcpi, hposv, habs]
            obtain ⟨s3, hwbc, hInv, _⟩ :=
              moveWBC_char hinv hhead hi hget hip
            have hwbc2 : moveWithoutBoundCheck s id ep.1 (X.length : Int)
                (pos.natAbs : Int) = .ok s3 := hwbc
            rw [← hcpi, ← hposv, hrel2] at hwbc2
            rw [hwbc2] at hm
            injection hm with hm2
            rw [← hm2]
            exact hInv

theorem inv_initial : Inv initialStore := by
  refine ⟨?_, ?_, ?_, ?_, ?_, ?_, ?_, ?_, ?_, ?_⟩ <;>
    simp [initialStore, SortedKeys, keysOf]

theorem reachable_inv {s : Store} (hr : Reachable s) : Inv s := by
  induction hr with
  | init => exact inv_initial
  | enq s song cand hcand _ ih => exact inv_applyEnqueue ih song hcand
  | deq s now hnow _ ih =>
    unfold applyDequeue
    cases hde : dequeue s now with
    | error e => exact ih
    | ok rs =>
      obtain ⟨r, s1⟩ := rs
      show Inv s1
      exact inv_dequeue ih hnow hde
  | rem s id _ ih =>
    unfold applyRemove
    cases hrm : remove s id with
    | error e => exact ih
    | ok s1 =>
      show Inv s1
      exact inv_remove ih hrm
  | upd s id song _ ih =>
    unfold applyUpdate
    cases hup : update s id song with
    | error e => exact ih
    | ok s1 =>
      show Inv s1
      exact inv_update ih hup
  | mov s id pos _ ih => exact inv_applyMove s id pos ih

theorem pendingKeys_eq_fwdKeys {s : Store} {h : Nat} (hinv : Inv s)
    (hh : s.head = some h) : pendingKeys s = keysOf (fwdFrom s.songs h) := by
  unfold pendingKeys keysOf fwdFrom
  congr 1
  refine List.filter_congr ?_
  intro e he
  simp only [decide_eq_decide]
  exact (hinv.headSplit h hh e he).symm

theorem head_none_pending {s : Store} (hinv : Inv s) :
    s.head = none ↔ pendingKeys s = [] := by
  constructor
  · intro hn
    unfold pendingKeys
    rw [List.filter_eq_nil.mpr (by
      intro e he
      simp only [decide_eq_true_eq]
      exact hinv.headNone hn e he)]
    rfl
  · intro hp
    cases hh : s.head with
    | none => rfl
    | some h =>
      exfalso
      obtain ⟨e, he, hke⟩ := List.mem_map.mp (hinv.headMem h hh)
      have hke' : e.1 = h := hke
      have hpend : e.2.dequeuedAt = 0 :=
        (hinv.headSplit h hh e he).mp (by rw [hke'])
      have hmem : e.1 ∈ pendingKeys s := by
        unfold pendingKeys
        exact List.mem_map.mpr ⟨e, List.mem_filter.mpr ⟨he, by
          simp only [decide_eq_true_eq]
          exact hpend⟩, rfl⟩
      rw [hp] at hmem
      cases hmem

theorem dequeue_step {s : Store} {h : Nat} {now : Int} (hinv : Inv s)
    (hh : s.head = some h) (hnow : now ≠ 0) :
    ∃ r s', dequeue s now = .ok (r, s') ∧ Inv s' ∧ r.id = h ∧ r.dequeuedAt = now ∧
      r.queuedAt = 0 ∧ pendingKeys s = h :: pendingKeys s' := by
  obtain ⟨D, hs, P', hsplit, hpend, hid, hqz, hD, hP', heq⟩ := dequeue_eval hinv hh now
  have hsor : SortedKeys (D ++ (h, hs) :: P') := hsplit ▸ hinv.sorted
  refine ⟨_, _, heq, inv_dequeue hinv hnow heq, hid, rfl, hqz, ?_⟩
  have hpk : pendingKeys s = h :: keysOf P' := by
    rw [pendingKeys_eq_fwdKeys hinv hh, hsplit, fwdFrom_of_decomp hsor, keysOf_cons]
  rw [hpk]
  congr 1
  show keysOf P' = pendingKeys _
  unfold pendingKeys
  show keysOf P' = keysOf ((D ++ (h, { hs with dequeuedAt := now }) :: P').filter _)
  rw [List.filter_append, List.filter_cons_of_neg (by
    simp only [decide_eq_true_eq]
    show ¬ now = 0
    exact hnow)]
  rw [List.filter_eq_nil.mpr (by
    intro e he
    simp only [decide_eq_true_eq]
    intro habs
    have hmem : e ∈ s.songs := by
      rw [hsplit]
      exact List.mem_append_left _ he
    have := (hinv.headSplit h hh e hmem).mpr habs
    exact absurd this (by
      have := hD e he
      omega))]
  rw [List.filter_eq_self.mpr (by
    intro e he
    simp only [decide_eq_true_eq]
    have hmem : e ∈ s.songs := by
      rw [hsplit]
      exact List.mem_append_right _ (List.mem_cons_of_mem _ he)
    exact (hinv.headSplit h hh e hmem).mp (Nat.le_of_lt (hP' e he)))]
  rfl

theorem get?_insertIdx_self {α : Type} {l : List α} {p : Nat} {x : α}
    (h : p ≤ l.length) : (l.insertIdx p x).get? p = some x := by
  induction p generalizing l with
  | zero => rfl
  | succ p ih =>
    cases l with
    | nil => simp at h
    | cons a l2 =>
      show (List.insertIdx (p + 1) x (a :: l2)).get? (p + 1) = some x
      rw [List.insertIdx_succ_cons]
      exact ih (by simpa using h)

theorem headSong_mem {s : Store} {hs : QueuedSong} (h : headSong s = .ok hs) :
    ∃ k, (k, hs) ∈ s.songs := by
  unfold headSong at h
  cases hh : s.head with
  | none =>
    simp only [hh] at h
    cases h
  | some h0 =>
    simp only [hh] at h
    cases hg : getEntry s.songs h0 with
    | none =>
      simp only [hg] at h
      cases h
    | some r =>
      simp only [hg] at h
      injection h with h2
      subst h2
      exact ⟨h0, getEntry_some_mem hg⟩

theorem drain_char (s : Store) (hinv : Inv s) (nows : List Int)
    (hnz : ∀ t ∈ nows, t ≠ 0) (hlen : (pendingKeys s).length ≤ nows.length) :
    ((dequeueDrain s nows).1).map (·.id) = pendingKeys s ∧
    Inv (dequeueDrain s nows).2 ∧
    (dequeueDrain s nows).2.head = none := by
  induction nows generalizing s with
  | nil =>
    have hpk : pendingKeys s = [] :=
      List.eq_nil_of_length_eq_zero (Nat.le_zero.mp hlen)
    exact ⟨by rw [hpk]; rfl, hinv, (head_none_pending hinv).mpr hpk⟩
  | cons t rest ih =>
    cases hh : s.head with
    | none =>
      have hpk : pendingKeys s = [] := (head_none_pending hinv).mp hh
      have hde : dequeue s t = .error .queueEmpty := by
        simp only [dequeue, headSong, hh]
      simp only [dequeueDrain, hde]
      exact ⟨by rw [hpk]; rfl, hinv, hh⟩
    | some h =>
      obtain ⟨r, s2, hde, hinv2, hrid, hrd, hrq, hpk⟩ :=
        dequeue_step hinv hh (hnz t (List.mem_cons_self _ _))
      have hlen2 : (pendingKeys s2).length ≤ rest.length := by
        have h2 := hlen
        rw [hpk] at h2
        simp only [List.length_cons] at h2
        omega
      obtain ⟨ih1, ih2, ih3⟩ := ih s2 hinv2
        (fun u hu => hnz u (List.mem_cons_of_mem _ hu)) hlen2
      simp only [dequeueDrain, hde]
      refine ⟨?_, ih2, ih3⟩
      rw [List.map_cons, ih1, hpk, hrid]

theorem reachable_sampleStore1 : Reachable sampleStore1 :=
  Reachable.enq _ sampleSong [97, 120] (by decide) Reachable.init

theorem reachable_sampleStore2 : Reachable sampleStore2 :=
  Reachable.enq _ sampleSong [98, 121] (by decide) reachable_sampleStore1

theorem reachable_sampleStoreDq : Reachable sampleStoreDq :=
  Reachable.deq _ 1 (by decide) reachable_sampleStore2

/-- C3: after every sequence of committed operations from the empty queue,
the head pointer equals the smallest slot id whose record has an unset
dequeued-at timestamp, and it is the sentinel exactly when no pending
record exists. -/
theorem c3_head_min_pending (s : Store) (hr : Reachable s) :
    (∀ h, s.head = some h → h ∈ pendingKeys s ∧ ∀ k ∈ pendingKeys s, h ≤ k) ∧
    (s.head = none → pendingKeys s = []) := by
  have hinv := reachable_inv hr
  constructor
  · intro h hh
    constructor
    · obtain ⟨e, he, hke⟩ := List.mem_map.mp (hinv.headMem h hh)
      have hke2 : e.1 = h := hke
      have hpend : e.2.dequeuedAt = 0 :=
        (hinv.headSplit h hh e he).mp (by rw [hke2])
      rw [← hke2]
      unfold pendingKeys
      refine List.mem_map.mpr ⟨e, List.mem_filter.mpr ⟨he, ?_⟩, rfl⟩
      simp only [decide_eq_true_eq]
      exact hpend
    · intro k hk
      unfold pendingKeys at hk
      obtain ⟨e, he, hke⟩ := List.mem_map.mp hk
      have hke2 : e.1 = k := hke
      have hef := List.mem_filter.mp he
      have hpend : e.2.dequeuedAt = 0 := by
        have h2 := hef.2
        simp only [decide_eq_true_eq] at h2
        exact h2
      rw [← hke2]
      exact (hinv.headSplit h hh e hef.1).mpr hpend
  · exact fun hn => (head_none_pending hinv).mp hn

/-- Witness for C3: in the concrete reachable store with two enqueues and
one dequeue, the head is slot 1 and 1 is a pending key. -/
theorem c3_head_min_pending_witness :
    sampleStoreDq.head = some 1 ∧ 1 ∈ pendingKeys sampleStoreDq :=
  ⟨by decide, ((c3_head_min_pending sampleStoreDq reachable_sampleStoreDq).1 1
    (by decide)).1⟩

/-- C2: Dequeue returns the pending song with the smallest slot id, and
draining a reachable queue with enough nonzero timestamps yields exactly
the pending slot ids in strictly increasing order, after which any further
Dequeue fails with queueEmpty. -/
theorem c2_dequeue_min_increasing (s : Store) (hr : Reachable s) :
    (∀ now : Int, now ≠ 0 → ∀ r s', dequeue s now = .ok (r, s') →
      r.id ∈ pendingKeys s ∧ ∀ k ∈ pendingKeys s, r.id ≤ k) ∧
    (∀ nows : List Int, (∀ t ∈ nows, t ≠ 0) →
      (pendingKeys s).length ≤ nows.length →
      ((dequeueDrain s nows).1).map (·.id) = pendingKeys s ∧
      List.Pairwise (· < ·) (((dequeueDrain s nows).1).map (·.id)) ∧
      ∀ t : Int, dequeue (dequeueDrain s nows).2 t = .error .queueEmpty) := by
  have hinv := reachable_inv hr
  have hsortP : List.Pairwise (· < ·) (pendingKeys s) := by
    have hsub : SortedKeys (s.songs.filter (fun e => e.2.dequeuedAt = 0)) :=
      List.Pairwise.sublist (List.filter_sublist _) hinv.sorted
    exact (sortedKeys_iff_pairwise _).mp hsub
  constructor
  · intro now hnow r s' hok
    cases hh : s.head with
    | none =>
      rw [show dequeue s now = .error .queueEmpty from by
        simp only [dequeue, headSong, hh]] at hok
      cases hok
    | some h =>
      obtain ⟨r0, s0, hde, _, hrid, _, _, hpk⟩ := dequeue_step hinv hh hnow
      rw [hde] at hok
      injection hok with hok2
      injection hok2 with hok3 hok4
      constructor
      · rw [← hok3, hrid, hpk]
        exact List.mem_cons_self _ _
      · intro k hk
        rw [← hok3, hrid]
        rw [hpk] at hk
        rcases List.mem_cons.mp hk with rfl | hk
        · exact le_refl _
        · have hp2 := hsortP
          rw [hpk] at hp2
          exact Nat.le_of_lt ((List.pairwise_cons.mp hp2).1 k hk)
  · intro nows hnz hlen
    obtain ⟨h1, h2, h3⟩ := drain_char s hinv nows hnz hlen
    refine ⟨h1, by rw [h1]; exact hsortP, fun t => by
      simp only [dequeue, headSong, h3]⟩

/-- Witness for C2: draining the two-song store with timestamps 5 and 6
returns slot ids [0, 1], the pending keys in order, and a further dequeue
reports queueEmpty. -/
theorem c2_dequeue_min_increasing_witness :
    ((dequeueDrain sampleStore2 [5, 6]).1).map (·.id) = pendingKeys sampleStore2 ∧
    dequeue (dequeueDrain sampleStore2 [5, 6]).2 7 = .error .queueEmpty := by
  have hc := (c2_dequeue_min_increasing sampleStore2 reachable_sampleStore2).2
    [5, 6] (by decide) (by decide)
  exact ⟨hc.1, hc.2.2 7⟩

/-- C4: in every reachable store the slug index is a bijection on the
pending songs: slug keys are unique, every pending song has the entry
keyed by its slug pointing at its own slot, every entry points at a
pending song carrying that slug, and no two pending songs share a slug. -/
theorem c4_slug_bijection (s : Store) (hr : Reachable s) :
    (keysOf s.slugIdx).Nodup ∧
    (∀ e ∈ s.songs, e.2.dequeuedAt = 0 → (e.2.slug, e.1) ∈ s.slugIdx) ∧
    (∀ u ∈ s.slugIdx, ∃ r, (u.2, r) ∈ s.songs ∧ r.dequeuedAt = 0 ∧ r.slug = u.1) ∧
    (∀ e1 ∈ s.songs, ∀ e2 ∈ s.songs, e1.2.dequeuedAt = 0 → e2.2.dequeuedAt = 0 →
      e1.2.slug = e2.2.slug → e1 = e2) := by
  have hinv := reachable_inv hr
  refine ⟨hinv.slugNodup, hinv.slugComplete, hinv.slugSound, ?_⟩
  intro e1 h1 e2 h2 hd1 hd2 hsl
  rcases e1 with ⟨k1, v1⟩
  rcases e2 with ⟨k2, v2⟩
  have hk := slugs_distinct hinv h1 h2 hd1 hd2 hsl
  subst hk
  rw [entry_unique (sortedKeys_nodup hinv.sorted) h1 h2]

/-- Witness for C4: in the two-song store the first song's slug entry is
present and the slug keys are distinct. -/
theorem c4_slug_bijection_witness :
    ([97, 120], 0) ∈ sampleStore2.slugIdx ∧
    (keysOf sampleStore2.slugIdx).Nodup := by
  have hc := c4_slug_bijection sampleStore2 reachable_sampleStore2
  refine ⟨?_, hc.1⟩
  exact hc.2.1 (0, { newSong := sampleSong, id := 0, slug := [97, 120], queuedAt := 0, dequeuedAt := 0 }) (by decide) (by decide)

/-- C5 counterexample: in the reachable store sampleStoreDq, slot 0 holds
an already-dequeued record (its id lies before the head), yet Move on id 0
fails with songNotFound rather than the songDequeued the spec promises. -/
theorem c5_counterexample :
    (∃ e ∈ sampleStoreDq.songs, e.1 = 0 ∧ e.2.dequeuedAt ≠ 0) ∧
    move sampleStoreDq 0 0 = .error .songNotFound ∧
    move sampleStoreDq 0 0 ≠ .error .songDequeued := by
  refine ⟨by decide, rfl, ?_⟩
  intro habs
  rw [show move sampleStoreDq 0 0 = .error .songNotFound from rfl] at habs
  injection habs with h2
  cases h2

/-- C5 amended: Move on a slot id that is absent from the store or whose
record is already dequeued fails with songNotFound in both cases; the
songDequeued branch is unreachable because the distance scan starts at the
head and only visits pending records. -/
theorem c5_move_not_found (s : Store) (hr : Reachable s) (id : Nat) (pos : Int)
    (hnp : ∀ e ∈ s.songs, e.1 = id → e.2.dequeuedAt ≠ 0) :
    move s id pos = .error .songNotFound := by
  have hinv := reachable_inv hr
  cases hh : s.head with
  | none =>
    simp only [move, distanceFromHeadByID, hh]
  | some h =>
    have hnm : id ∉ keysOf (fwdFrom s.songs h) := by
      intro habs
      obtain ⟨e, he, hek⟩ := List.mem_map.mp habs
      have hek2 : e.1 = id := hek
      have hmem := (mem_fwdFrom.mp he).1
      have hpend : e.2.dequeuedAt = 0 :=
        (hinv.headSplit h hh e hmem).mp (mem_fwdFrom.mp he).2
      exact hnp e hmem hek2 hpend
    simp only [move, distanceFromHeadByID, hh, distLoop_not_mem id _ 0 hnm]

/-- Witness for the amended C5 theorem: moving the dequeued slot 0 in the
concrete store fails with songNotFound. -/
theorem c5_move_not_found_witness :
    move sampleStoreDq 0 0 = .error .songNotFound :=
  c5_move_not_found sampleStoreDq reachable_sampleStoreDq 0 0 (by decide)

/-- C8: on a non-empty reachable queue, Dequeue returns the record at the
head id with its dequeued-at stamped to the nonzero timestamp, deletes its
slug-index entry, writes the record back under the same key so FindByID
still succeeds, and advances the head to the smallest slot id strictly
greater than the old head, or the sentinel when none exists; on an empty
queue it fails with queueEmpty. -/
theorem c8_dequeue_detail (s : Store) (hr : Reachable s) (now : Int)
    (hnow : now ≠ 0) :
    (∀ h, s.head = some h → ∃ hs s',
      getEntry s.songs h = some hs ∧
      dequeue s now = .ok ({ hs with dequeuedAt := now }, s') ∧
      ({ hs with dequeuedAt := now } : QueuedSong).dequeuedAt ≠ 0 ∧
      s'.slugIdx = delEntry s.slugIdx hs.slug ∧
      findByID s' h = .ok { hs with dequeuedAt := now } ∧
      keysOf s'.songs = keysOf s.songs ∧
      (∀ h2, s'.head = some h2 → h2 ∈ keysOf s.songs ∧ h < h2 ∧
        ∀ k ∈ keysOf s.songs, h < k → h2 ≤ k) ∧
      (s'.head = none → ∀ k ∈ keysOf s.songs, ¬ h < k)) ∧
    (s.head = none → dequeue s now = .error .queueEmpty) := by
  have hinv := reachable_inv hr
  constructor
  · intro h hh
    obtain ⟨D, hs, P', hsplit, hpend, hid, hqz, hD, hP', heq⟩ :=
      dequeue_eval hinv hh now
    have hsor : SortedKeys (D ++ (h, hs) :: P') := hsplit ▸ hinv.sorted
    have hknd : (keysOf (D ++ (h, { hs with dequeuedAt := now }) :: P')).Nodup := by
      have h0 := sortedKeys_nodup hsor
      rw [keysOf_append, keysOf_cons] at h0 ⊢
      exact h0
    refine ⟨hs, _, ?_, heq, hnow, rfl, ?_, ?_, ?_, ?_⟩
    · rw [hsplit]
      exact getEntry_of_decomp hsor
    · have hget2 : getEntry (D ++ (h, { hs with dequeuedAt := now }) :: P') h =
          some { hs with dequeuedAt := now } :=
        getEntry_of_mem_nodup hknd
          (List.mem_append_right _ (List.mem_cons_self _ _))
      show findByID _ h = _
      simp only [findByID, hget2]
    · show keysOf (D ++ (h, { hs with dequeuedAt := now }) :: P') = _
      rw [hsplit]
      simp [keysOf_append, keysOf_cons]
    · intro h2 hh2
      have hh22 : (P'.get? 0).map Prod.fst = some h2 := hh2
      cases P' with
      | nil => cases hh22
      | cons p0 ptl =>
        have hp0 : p0.1 = h2 := by
          injection hh22
        have hp0mem : p0 ∈ s.songs := by
          rw [hsplit]
          exact List.mem_append_right _
            (List.mem_cons_of_mem _ (List.mem_cons_self _ _))
        refine ⟨?_, ?_, ?_⟩
        · rw [← hp0]
          exact List.mem_map.mpr ⟨p0, hp0mem, rfl⟩
        · rw [← hp0]
          exact hP' p0 (List.mem_cons_self _ _)
        · intro k hk hlt
          obtain ⟨e, he, hke⟩ := List.mem_map.mp hk
          have hke2 : e.1 = k := hke
          rw [hsplit] at he
          rcases List.mem_append.mp he with he | he
          · exact absurd hlt (by
              have := hD e he
              omega)
          rcases List.mem_cons.mp he with rfl | he
          · exact absurd hlt (by
              have h3 : h = k := hke2
              omega)
          rcases List.mem_cons.mp he with rfl | he
          · omega
          · have hsor2 : SortedKeys ((h, hs) :: p0 :: ptl) :=
              (List.pairwise_append.mp hsor).2.1
            have hsor3 := (List.pairwise_cons.mp hsor2).2
            have h4 := (List.pairwise_cons.mp hsor3).1 e he
            omega
    · intro hn k hk hlt
      have hn2 : (P'.get? 0).map Prod.fst = none := hn
      cases P' with
      | cons p0 ptl => cases hn2
      | nil =>
        obtain ⟨e, he, hke⟩ := List.mem_map.mp hk
        have hke2 : e.1 = k := hke
        rw [hsplit] at he
        rcases List.mem_append.mp he with he | he
        · have := hD e he
          omega
        rcases List.mem_cons.mp he with rfl | he
        · have h3 : h = k := hke2
          omega
        · cases he
  · intro hn
    simp only [dequeue, headSong, hn]

/-- Witness for C8: on the empty store Dequeue reports queueEmpty, and on
the two-song store the detailed dequeue characterization holds at head
slot 0 with timestamp 9. -/
theorem c8_dequeue_detail_witness :
    dequeue initialStore 3 = .error .queueEmpty ∧
    (∃ hs s', getEntry sampleStore2.songs 0 = some hs ∧
      dequeue sampleStore2 9 = .ok ({ hs with dequeuedAt := 9 }, s') ∧
      ({ hs with dequeuedAt := 9 } : QueuedSong).dequeuedAt ≠ 0 ∧
      s'.slugIdx = delEntry sampleStore2.slugIdx hs.slug ∧
      findByID s' 0 = .ok { hs with dequeuedAt := 9 } ∧
      keysOf s'.songs = keysOf sampleStore2.songs ∧
      (∀ h2, s'.head = some h2 → h2 ∈ keysOf sampleStore2.songs ∧ 0 < h2 ∧
        ∀ k ∈ keysOf sampleStore2.songs, 0 < k → h2 ≤ k) ∧
      (s'.head = none → ∀ k ∈ keysOf sampleStore2.songs, ¬ 0 < k)) := by
  refine ⟨(c8_dequeue_detail initialStore Reachable.init 3 (by decide)).2 rfl, ?_⟩
  exact (c8_dequeue_detail sampleStore2 reachable_sampleStore2 9
    (by decide)).1 0 (by decide)

/-- C10: enqueued records keep the zero queued-at timestamp, and every
song surfaced by FindByID, FindBySlug, Peek, List, or Dequeue on a
reachable store carries queuedAt = 0 even though the data model declares
the field. -/
theorem c10_queued_at_zero (s : Store) (hr : Reachable s) :
    (∀ e ∈ s.songs, e.2.queuedAt = 0) ∧
    (∀ id r, findByID s id = .ok r → r.queuedAt = 0) ∧
    (∀ slug r, findBySlug s slug = .ok r → r.queuedAt = 0) ∧
    (∀ r, peek s = .ok r → r.queuedAt = 0) ∧
    (∀ off lim out, list s off lim = .ok out → ∀ r ∈ out, r.queuedAt = 0) ∧
    (∀ now r s', dequeue s now = .ok (r, s') → r.queuedAt = 0) := by
  have hinv := reachable_inv hr
  have hfind : ∀ id r, findByID s id = .ok r → r.queuedAt = 0 := by
    intro id r hok
    cases hg : getEntry s.songs id with
    | none =>
      rw [show findByID s id = .error .songNotFound from by
        simp only [findByID, hg]] at hok
      cases hok
    | some r0 =>
      rw [show findByID s id = .ok r0 from by simp only [findByID, hg]] at hok
      injection hok with h2
      rw [← h2]
      exact hinv.queuedAtZero (id, r0) (getEntry_some_mem hg)
  have hslug : ∀ slug r, findBySlug s slug = .ok r → r.queuedAt = 0 := by
    intro slug r hok
    cases hg : getEntry s.slugIdx slug with
    | none =>
      rw [show findBySlug s slug = .error .songNotFound from by
        simp only [findBySlug, hg]] at hok
      cases hok
    | some id2 =>
      rw [show findBySlug s slug = findByID s id2 from by
        simp only [findBySlug, hg]] at hok
      exact hfind id2 r hok
  have hpeek : ∀ r, peek s = .ok r → r.queuedAt = 0 := by
    intro r hok
    obtain ⟨k, hmem⟩ := headSong_mem hok
    exact hinv.queuedAtZero (k, r) hmem
  have hlist : ∀ off lim out, list s off lim = .ok out →
      ∀ r ∈ out, r.queuedAt = 0 := by
    intro off lim out hok r hrm
    cases hh : s.head with
    | none =>
      rw [show list s off lim = .ok [] from by simp only [list, hh]] at hok
      injection hok with h2
      rw [← h2] at hrm
      cases hrm
    | some h =>
      by_cases hneg : min (25 : Int) lim < 0
      · rw [show list s off lim = .panicked from by
          simp only [list, hh]
          rw [if_pos hneg]] at hok
        cases hok
      · rw [show list s off lim = .ok (listLoop (fwdFrom s.songs h) off lim) from by
          simp only [list, hh]
          rw [if_neg hneg]] at hok
        injection hok with h2
        rw [← h2] at hrm
        obtain ⟨e, he, hre⟩ := listLoop_mem hrm
        rw [hre]
        exact hinv.queuedAtZero e (mem_fwdFrom.mp he).1
  have hdeq : ∀ now r s', dequeue s now = .ok (r, s') → r.queuedAt = 0 := by
    intro now r s' hok
    cases hhs : headSong s with
    | error e =>
      rw [show dequeue s now = .error e from by simp only [dequeue, hhs]] at hok
      cases hok
    | ok hs =>
      simp only [dequeue, hhs] at hok
      injection hok with h2
      injection h2 with h3 h4
      rw [← h3]
      show hs.queuedAt = 0
      obtain ⟨k, hmem⟩ := headSong_mem hhs
      exact hinv.queuedAtZero (k, hs) hmem
  exact ⟨hinv.queuedAtZero, hfind, hslug, hpeek, hlist, hdeq⟩

/-- Witness for C10: the record surfaced by FindByID on the one-song
store carries the zero queued-at. -/
theorem c10_queued_at_zero_witness :
    findByID sampleStore1 0 = .ok { newSong := sampleSong, id := 0, slug := [97, 120], queuedAt := 0, dequeuedAt := 0 } ∧
    ({ newSong := sampleSong, id := 0, slug := [97, 120], queuedAt := 0, dequeuedAt := 0 } : QueuedSong).queuedAt = 0 := by
  refine ⟨rfl, ?_⟩
  exact (c10_queued_at_zero sampleStore1 reachable_sampleStore1).2.1 0 _ rfl

/-- C1: moving the pending song found at queue index i to any valid target
position p succeeds, after which List from the head returns the same
payloads with that song relocated from index i to index p — the moved
song is read back at index p and the relative order of all other pending
songs is preserved — while the set of slot ids present in the store is
unchanged; both shift directions are covered by the quantification over
i and p. -/
theorem c1_move_position (s : Store) (hr : Reachable s) (i p : Nat)
    (e : Nat × QueuedSong)
    (hi : (pendingFromHead s).get? i = some e)
    (hp : p < (pendingFromHead s).length) :
    ∃ s' out, move s e.1 (p : Int) = .ok s' ∧
      keysOf s'.songs = keysOf s.songs ∧
      (∀ n : Int, ((pendingFromHead s).length : Int) ≤ n → list s' 0 n = .ok out) ∧
      out.map content =
        (((pendingFromHead s).map (fun u => content u.2)).eraseIdx i).insertIdx p
          (content e.2) ∧
      (out.map content).get? p = some (content e.2) := by
  have hinv := reachable_inv hr
  cases hh : s.head with
  | none =>
    exfalso
    unfold pendingFromHead at hi
    rw [hh] at hi
    cases hi
  | some h =>
    have hpf : pendingFromHead s = fwdFrom s.songs h := by
      unfold pendingFromHead
      rw [hh]
    rw [hpf] at hi hp ⊢
    have hilen : i < (fwdFrom s.songs h).length := by
      by_contra hge
      rw [List.get?_eq_none.mpr (Nat.le_of_not_lt hge)] at hi
      cases hi
    by_cases hip : i = p
    · subst hip
      obtain ⟨X, Y, hXY, hXlen⟩ := get?_decomp hi
      have hnd : (keysOf (fwdFrom s.songs h)).Nodup :=
        sortedKeys_nodup (fwdFrom_sorted hinv.sorted h)
      rcases e with ⟨ai, ri⟩
      have hnotmem : ai ∉ keysOf X := by
        rw [hXY, keysOf_append, keysOf_cons] at hnd
        rw [List.nodup_append] at hnd
        intro habs
        exact hnd.2.2 habs (List.mem_cons_self _ _)
      have hdist : distanceFromHeadByID s ai = .ok i := by
        simp only [distanceFromHeadByID, hh]
        rw [hXY, distLoop_append ai ri X Y 0 hnotmem, hXlen]
        simp
      have hmv : move s ai (i : Int) = .ok s := by
        simp only [move, hdist]
        simp
      have hmc : ((fwdFrom s.songs h).map (fun u => content u.2)).get? i =
          some (content ri) := by
        rw [List.get?_map, hi]
        rfl
      have hcc : (((fwdFrom s.songs h).map (·.2)).map content) =
          (((fwdFrom s.songs h).map (fun u => content u.2)).eraseIdx i).insertIdx i
            (content ri) := by
        rw [List.map_map]
        exact (insertIdx_eraseIdx_get hmc).symm
      refine ⟨s, (fwdFrom s.songs h).map (·.2), hmv, rfl, ?_, hcc, ?_⟩
      · intro n hn
        have hnneg : ¬ (min (25 : Int) n < 0) := by
          have h0 : (0 : Int) ≤ n := le_trans (Int.natCast_nonneg _) hn
          omega
        simp only [list, hh]
        rw [if_neg hnneg, listLoop_full _ _ hn]
      · rw [hcc]
        refine get?_insertIdx_self ?_
        have hle : i < ((fwdFrom s.songs h).map (fun u => content u.2)).length := by
          rw [List.length_map]
          exact hilen
        rw [List.length_eraseIdx, if_pos hle, List.length_map]
        omega
    · obtain ⟨s', hmv, hInv2, hhead, hseq, hk1, hk2, hcont⟩ :=
        move_ok_char hinv hh hi hp hip
      have hh2 : s'.head = some h := by
        rw [hhead, hh]
      have hlen2 : (fwdFrom s'.songs h).length = (fwdFrom s.songs h).length := by
        rw [← keysOf_length, ← keysOf_length, hk2]
      have hcc : (((fwdFrom s'.songs h).map (·.2)).map content) =
          (((fwdFrom s.songs h).map (fun u => content u.2)).eraseIdx i).insertIdx p
            (content e.2) := by
        rw [List.map_map]
        exact hcont
      refine ⟨s', (fwdFrom s'.songs h).map (·.2), hmv, hk1, ?_, hcc, ?_⟩
      · intro n hn
        have hnneg : ¬ (min (25 : Int) n < 0) := by
          have h0 : (0 : Int) ≤ n := le_trans (Int.natCast_nonneg _) hn
          omega
        simp only [list, hh2]
        rw [if_neg hnneg, listLoop_full _ _ (by rw [hlen2]; exact hn)]
      · rw [hcc]
        refine get?_insertIdx_self ?_
        have hle : i < ((fwdFrom s.songs h).map (fun u => content u.2)).length := by
          rw [List.length_map]
          exact hilen
        rw [List.length_eraseIdx, if_pos hle, List.length_map]
        omega

/-- Witness for C1: in the two-song store, moving the song of slot 0
(queue index 0) to position 1 succeeds with the characterized List
output. -/
theorem c1_move_position_witness :
    (pendingFromHead sampleStore2).get? 0 = some (0, { newSong := sampleSong, id := 0, slug := [97, 120], queuedAt := 0, dequeuedAt := 0 }) ∧
    1 < (pendingFromHead sampleStore2).length ∧
    (∃ s' out, move sampleStore2 0 ((1 : Nat) : Int) = .ok s' ∧
      keysOf s'.songs = keysOf sampleStore2.songs ∧
      (∀ n : Int, ((pendingFromHead sampleStore2).length : Int) ≤ n →
        list s' 0 n = .ok out) ∧
      out.map content =
        (((pendingFromHead sampleStore2).map (fun u => content u.2)).eraseIdx 0).insertIdx 1
          (content ({ newSong := sampleSong, id := 0, slug := [97, 120], queuedAt := 0, dequeuedAt := 0 } : QueuedSong)) ∧
      (out.map content).get? 1 = some (content ({ newSong := sampleSong, id := 0, slug := [97, 120], queuedAt := 0, dequeuedAt := 0 } : QueuedSong))) := by
  refine ⟨by decide, by decide, ?_⟩
  exact c1_move_position sampleStore2 reachable_sampleStore2 0 1
    (0, { newSong := sampleSong, id := 0, slug := [97, 120], queuedAt := 0, dequeuedAt := 0 })
    (by decide) (by decide)

end Queue
